import Mathlib

/-!
Verification of the TERA protocol binary codec
(src/lib/protocol/index.js and src/lib/protocol/stream.js).

The JavaScript code is shallowly embedded: buffers are lists of byte
values (Nat below 256), JavaScript record values are an inductive type,
Node.js buffer read/write semantics (bounds checks, NaN coercion of
undefined) are made explicit, and exceptions are modelled with Except.
-/

namespace Tera

/-! ## Byte buffers

A Node Buffer is modelled as a list of bytes together with explicit
read/write primitives.  Buffer.alloc zero-fills; typed-array index
assignment out of bounds is silently dropped (List.set has exactly that
behaviour); multi-byte writeUIntNLE/readUIntNLE calls range-check the
offset and throw RangeError, which is modelled with Except. -/

abbrev Bytes := List Nat

def bufGet (b : Bytes) (i : Nat) : Nat := b.getD i 0

def bufSet (b : Bytes) (i : Nat) (v : Nat) : Bytes := b.set i v

/-- Little-endian byte decomposition: m bytes of k. -/
def leBytes : Nat → Nat → List Nat
  | 0, _ => []
  | m + 1, k => (k % 256) :: leBytes m (k / 256)

/-- Write a list of bytes at consecutive positions (positions past the
end are dropped, as with typed-array stores). -/
def writeBytesAt (b : Bytes) (i : Nat) : List Nat → Bytes
  | [] => b
  | v :: rest => writeBytesAt (bufSet b i v) (i + 1) rest

/-- Read m little-endian bytes starting at i as a Nat. -/
def leRead (b : Bytes) (i : Nat) : Nat → Nat
  | 0 => 0
  | m + 1 => bufGet b i + 256 * leRead b (i + 1) m

/-! ## JavaScript record values

Field values of the records fed to write and produced by parse.
Strings are lists of UTF-16 code units; float fields carry the 32-bit
pattern of a binary32 value (the codec stores single-precision floats,
and a double that is exactly a binary32 value is represented by that
pattern); 64-bit integers are Long objects with signed 32-bit low/high
halves and an unsigned flag; arrays carry their JavaScript length
property separately from the populated prefix, so that sparse results
of parse (new Array(n) with only some slots assigned) are expressible. -/

inductive JsVal where
  | undef
  | bool (b : Bool)
  | num (n : Int)
  | f32 (bits : Nat)
  | str (units : List Nat)
  | bytes (data : List Nat)
  | long (low : Int) (high : Int) (unsigned : Bool)
  | obj (fields : List (String × JsVal))
  | arr (length : Nat) (items : List JsVal)

/-- JavaScript truthiness of a modelled value. -/
def jsTruthy : JsVal → Bool
  | .undef => false
  | .bool b => b
  | .num n => n ≠ 0
  | .f32 bits => ¬(bits = 0 ∨ bits = 0x80000000)
  | .str units => units ≠ []
  | _ => true

/-- ToNumber coercion (the implicit +value of Node buffer writes), as an
Option Int where none stands for NaN.  String/Long/array numeric
coercion is not modelled (mapped to NaN); no claim exercises those. -/
def toNum : JsVal → Option Int
  | .undef => none
  | .num n => some n
  | .bool b => some (if b then 1 else 0)
  | .obj _ => none
  | _ => none

/-- Property read v[key]: throws TypeError on undefined, looks up own
properties of objects, and yields undefined on every other value (the
string length property is not modelled; no claim depends on it). -/
def jsGet : JsVal → String → Option JsVal
  | .undef, _ => none
  | .obj fs, k =>
    let d := JsVal.undef
    some (((fs.find? (fun p => p.1 == k)).map (fun p => p.2)).getD d)
  | _, _ => some JsVal.undef

/-- The length property as the codec reads it, as an Option Nat where
none stands for undefined. -/
def jsLengthOpt : JsVal → Option Nat
  | .str units => some units.length
  | .bytes data => some data.length
  | .arr l _ => some l
  | _ => none

/-- For-of iteration over a string: JavaScript iterates code points, so
a high surrogate followed by a low surrogate is yielded as one
character whose charCodeAt(0) is the high surrogate (the low unit is
dropped by the codec). -/
def jsStrIter : List Nat → List Nat
  | [] => []
  | [c] => [c]
  | c :: c2 :: rest2 =>
    if (0xD800 ≤ c ∧ c ≤ 0xDBFF) ∧ (0xDC00 ≤ c2 ∧ c2 ≤ 0xDFFF) then
      c :: jsStrIter rest2
    else c :: jsStrIter (c2 :: rest2)

/-- For-of iteration over a JavaScript array of length l whose populated
prefix is items: holes are yielded as undefined. -/
def iterElems (l : Nat) (items : List JsVal) : List JsVal :=
  if items.length ≤ l then items ++ List.replicate (l - items.length) JsVal.undef
  else items.take l

/-! ## Schemas

A flattened message definition (the output of the loaders flatten) is
an ordered list of (key, type) entries; a composite entry carries its
subfields plus an array/object tag. -/

inductive FType where
  | prim (t : String)
  | grp (isArray : Bool) (fields : List (String × FType))

abbrev FlatDef := List (String × FType)

/-! ## Errors -/

inductive WErr where
  | valueOOR (t : String)
  | indexOOR
  | typeErr (msg : String)
  | notFn (t : String)
  | unknownType (t : String)
  | invalidCode
  | unmodelled (what : String)
  | atField (path : String) (t : String) (e : WErr)
  deriving Repr, DecidableEq

/-! ## The length estimator (TeraProtocol.getLength) -/

/-- Fixed wire sizes of the scalar types (the SIZES table). -/
def SIZES : String → Option Nat
  | "bool" => some 1
  | "byte" => some 1
  | "int16" => some 2
  | "uint16" => some 2
  | "count" => some 2
  | "offset" => some 2
  | "int32" => some 4
  | "uint32" => some 4
  | "float" => some 4
  | "int64" => some 8
  | "uint64" => some 8
  | "double" => some 8
  | _ => none

/-- The data parameter default: getLength(definition, data = {}) replaces
an undefined argument with an empty object. -/
def normData (v : JsVal) : JsVal :=
  match v with
  | .undef => .obj []
  | v => v

mutual

/-- TeraProtocol.getLength over a definition; normalises the data
argument like the JavaScript parameter default does. -/
def getLength (fields : FlatDef) (data : JsVal) : Except WErr Nat :=
  getLengthFields fields (normData data)

/-- The for loop of getLength; data is already normalised. -/
def getLengthFields (fields : FlatDef) (data : JsVal) : Except WErr Nat :=
  match fields with
  | [] => .ok 0
  | (k, t) :: rest => do
    let n ← getLengthField k t data
    let m ← getLengthFields rest data
    .ok (n + m)

/-- One field of getLength.  A NaN poisoning the running total (adding
the undefined length property of a non-string, non-buffer value) is
modelled as an error: in Node the NaN total later makes the frame
writes throw, so both semantics refuse to produce a buffer. -/
def getLengthField (k : String) (t : FType) (data : JsVal) : Except WErr Nat :=
  match t with
  | .grp true sub =>
    match jsGet data k with
    | none => .error (.typeErr "property access on undefined")
    | some val =>
      match val with
      | .arr l items => getLengthElems sub (iterElems l items)
      | _ => .ok 0
  | .grp false sub =>
    match jsGet data k with
    | none => .error (.typeErr "property access on undefined")
    | some val => getLength sub val
  | .prim t =>
    match jsGet data k with
    | none => .error (.typeErr "property access on undefined")
    | some val =>
      if t = "bytes" then
        if jsTruthy val then
          match jsLengthOpt val with
          | some l => .ok l
          | none => .error (.unmodelled "NaN length total")
        else .ok 0
      else if t = "string" then
        if jsTruthy val then
          match jsLengthOpt val with
          | some l => .ok ((l + 1) * 2)
          | none => .error (.unmodelled "NaN length total")
        else .ok 2
      else
        match SIZES t with
        | some s => .ok s
        | none => .error (.unknownType t)

/-- The element loop of the array case: 4 header bytes plus the
recursive length per element. -/
def getLengthElems (sub : FlatDef) (elems : List JsVal) : Except WErr Nat :=
  match elems with
  | [] => .ok 0
  | e :: rest => do
    let n ← getLength sub e
    let m ← getLengthElems sub rest
    .ok (4 + n + m)

end

/-! ## The writeable stream (stream.js, class Writeable)

A Writeable owns a pre-sized zero-filled buffer and a write cursor.
Node buffer writes check the value range and the offset bounds and
throw RangeError on violation; an undefined value coerces to NaN,
passes the range checks, and stores zero bytes. -/

structure WSt where
  buf : Bytes
  pos : Nat

namespace Writeable

/-- Node writeUIntLE/writeIntLE core: range-check the value (NaN, i.e.
none, passes), bounds-check the offset, store m little-endian bytes of
the two's-complement pattern. -/
def checkedWrite (st : WSt) (m : Nat) (v : Option Int) (lo hi : Int) (t : String) :
    Except WErr WSt :=
  match v with
  | some n =>
    if n > hi ∨ n < lo then .error (.valueOOR t)
    else if st.pos + m > st.buf.length then .error .indexOOR
    else .ok ⟨writeBytesAt st.buf st.pos (leBytes m (n % (2 ^ (8 * m))).toNat), st.pos + m⟩
  | none =>
    if st.pos + m > st.buf.length then .error .indexOOR
    else .ok ⟨writeBytesAt st.buf st.pos (leBytes m 0), st.pos + m⟩

def seek (st : WSt) (n : Nat) : WSt := ⟨st.buf, n⟩

def uint16 (st : WSt) (v : Option Int) : Except WErr WSt :=
  checkedWrite st 2 v 0 0xFFFF "uint16"

def int16 (st : WSt) (v : Option Int) : Except WErr WSt :=
  checkedWrite st 2 v (-0x8000) 0x7FFF "int16"

/-- stream.js uint32: a negative int32 is cast to unsigned first. -/
def uint32 (st : WSt) (v : Option Int) : Except WErr WSt :=
  match v with
  | some n =>
    checkedWrite st 4 (some (if -0x80000000 ≤ n ∧ n < 0 then n + 0x100000000 else n))
      0 0xFFFFFFFF "uint32"
  | none => checkedWrite st 4 none 0 0xFFFFFFFF "uint32"

/-- stream.js int32: a value in the upper unsigned range is cast to
signed first. -/
def int32 (st : WSt) (v : Option Int) : Except WErr WSt :=
  match v with
  | some n =>
    checkedWrite st 4 (some (if 0x80000000 ≤ n ∧ n ≤ 0xFFFFFFFF then n - 0x100000000 else n))
      (-0x80000000) 0x7FFFFFFF "int32"
  | none => checkedWrite st 4 none (-0x80000000) 0x7FFFFFFF "int32"

/-- stream.js byte: a bare typed-array store, no bounds or range check;
an out-of-range index is dropped, the value is coerced mod 256. -/
def byte (st : WSt) (v : JsVal) : WSt :=
  let b := match toNum v with
    | some n => (n % 256).toNat
    | none => 0
  ⟨bufSet st.buf st.pos b, st.pos + 1⟩

/-- stream.js bytes: buf.copy into the buffer then advance by the
source length; calling it on a non-buffer value throws TypeError. -/
def bytes (st : WSt) (v : JsVal) : Except WErr WSt :=
  match v with
  | .bytes data => .ok ⟨writeBytesAt st.buf st.pos (data.map (· % 256)), st.pos + data.length⟩
  | _ => .error (.typeErr "copy of non-buffer value")

/-- stream.js float via Node writeFloatLE: the bounds check throws,
the value never does.  A binary32-representable number is stored as its
bit pattern; undefined coerces to NaN, stored as the canonical quiet
NaN pattern.  Other numeric values would need binary32 rounding, which
is outside the modelled domain. -/
def float (st : WSt) (v : JsVal) : Except WErr WSt :=
  match v with
  | .f32 bits =>
    if st.pos + 4 > st.buf.length then .error .indexOOR
    else .ok ⟨writeBytesAt st.buf st.pos (leBytes 4 (bits % 2 ^ 32)), st.pos + 4⟩
  | .undef =>
    if st.pos + 4 > st.buf.length then .error .indexOOR
    else .ok ⟨writeBytesAt st.buf st.pos (leBytes 4 0x7FC00000), st.pos + 4⟩
  | _ => .error (.unmodelled "writeFloatLE on a value needing binary32 rounding")

/-- The for-of loop of stream.js string. -/
def writeUnits (st : WSt) (us : List Nat) : Except WErr WSt :=
  match us with
  | [] => .ok st
  | u :: rest => do
    let st ← uint16 st (some (u : Int))
    writeUnits st rest

/-- stream.js string: emit each iterated character's charCodeAt(0) as a
uint16, then a 16-bit NUL.  Iterating a non-string value throws
TypeError (for-of on undefined is not iterable). -/
def string (st : WSt) (v : JsVal) : Except WErr WSt :=
  match v with
  | .str units => do
    let st ← writeUnits st (jsStrIter units)
    uint16 st (some 0)
  | _ => .error (.typeErr "value is not iterable")

/-- stream.js uint64: value.low and value.high written as uint32.  A
non-object value has undefined low/high, written as NaN (zeros);
undefined itself throws TypeError; a plain number would go through
Long.fromNumber, outside the modelled domain. -/
def uint64 (st : WSt) (v : JsVal) : Except WErr WSt :=
  match v with
  | .long low high _ => do
    let st ← uint32 st (some low)
    uint32 st (some high)
  | .undef => .error (.typeErr "cannot read low of undefined")
  | .num _ => .error (.unmodelled "Long.fromNumber")
  | .f32 _ => .error (.unmodelled "Long.fromNumber")
  | _ => do
    let st ← uint32 st none
    uint32 st none

/-- stream.js int64: value.low as uint32, value.high as int32. -/
def int64 (st : WSt) (v : JsVal) : Except WErr WSt :=
  match v with
  | .long low high _ => do
    let st ← uint32 st (some low)
    int32 st (some high)
  | .undef => .error (.typeErr "cannot read low of undefined")
  | .num _ => .error (.unmodelled "Long.fromNumber")
  | .f32 _ => .error (.unmodelled "Long.fromNumber")
  | _ => do
    let st ← uint32 st none
    int32 st none

end Writeable

/-- The dynamic dispatch writer[type](value) of writeField.  A type
with no stream method (bool, double, or an unknown name) throws
TypeError: writer[type] is not a function. -/
def callW (t : String) (v : JsVal) (st : WSt) : Except WErr WSt :=
  match t with
  | "byte" => .ok (Writeable.byte st v)
  | "bytes" => Writeable.bytes st v
  | "uint16" => Writeable.uint16 st (toNum v)
  | "int16" => Writeable.int16 st (toNum v)
  | "uint32" => Writeable.uint32 st (toNum v)
  | "int32" => Writeable.int32 st (toNum v)
  | "uint64" => Writeable.uint64 st v
  | "int64" => Writeable.int64 st v
  | "float" => Writeable.float st v
  | "string" => Writeable.string st v
  | t => .error (.notFn t)

/-! ## The encoder (TeraProtocol.write) -/

/-- Per-call count/offset placeholder-position tables, keyed by dotted
field path (JavaScript Map; set overwrites, modelled by prepending). -/
abbrev PosMap := List (String × Nat)

def mlook (m : PosMap) (k : String) : Option Nat :=
  ((m.find? (fun p => p.1 == k)).map (fun p => p.2))

def mset (m : PosMap) (k : String) (v : Nat) : PosMap := (k, v) :: m

/-- The back-patch idiom: save the cursor, seek to the recorded
placeholder position, write a uint16, seek back.  seek(undefined) (a
missing table entry) leaves an undefined position; the subsequent write
coerces it with offset going through unsigned shift to 0, and the final
seek restores a number, so a missing target behaves as position 0. -/
def patch16 (st : WSt) (target : Option Nat) (v : Option Int) : Except WErr WSt := do
  let here := st.pos
  let st ← Writeable.uint16 (Writeable.seek st (target.getD 0)) v
  .ok (Writeable.seek st here)

/-- The dotted key path of writeField. -/
def keyPathOf (base : String) (k : String) : String :=
  if base ≠ "" then base ++ "." ++ k else k

/-- Reading value.length for a count back-patch: a TypeError on
undefined, the undefined-tolerant length property otherwise. -/
def lenOrThrow (v : JsVal) : Except WErr (Option Nat) :=
  match v with
  | .undef => .error (.typeErr "cannot read length of undefined")
  | v => .ok (jsLengthOpt v)

mutual

/-- TeraProtocol.write invoked with a caller-supplied writer (the shape
of every recursive call): fresh count/offset tables, then writeField
over each definition entry. -/
def writeGroup (fields : FlatDef) (data : JsVal) (st : WSt) : Except WErr WSt := do
  let r ← writeFields fields data "" [] [] st
  .ok r.2.2

/-- The loop for (const field of definition) writeField(field, data). -/
def writeFields (fields : FlatDef) (dataObj : JsVal) (base : String)
    (cnt ofs : PosMap) (st : WSt) : Except WErr (PosMap × PosMap × WSt) :=
  match fields with
  | [] => .ok (cnt, ofs, st)
  | (k, t) :: rest => do
    let r ← writeField1 k t dataObj base cnt ofs st
    writeFields rest dataObj base r.1 r.2.1 r.2.2

/-- writeField for a single (key, type) entry. -/
def writeField1 (k : String) (t : FType) (dataObj : JsVal) (base : String)
    (cnt ofs : PosMap) (st : WSt) : Except WErr (PosMap × PosMap × WSt) := do
  let value ← match jsGet dataObj k with
    | none => .error (.typeErr "property access on undefined")
    | some v => Except.ok v
  let keyPath := keyPathOf base k
  match t with
  | .grp false sub =>
    writeFields sub value keyPath cnt ofs st
  | .grp true sub =>
    if ¬jsTruthy value then .ok (cnt, ofs, st)
    else
      match value with
      | .arr l items =>
        if l = 0 then .ok (cnt, ofs, st)
        else do
          let st ← patch16 st (mlook cnt keyPath) (some (l : Int))
          let st ← writeElems sub (iterElems l items) (mlook ofs keyPath) st
          .ok (cnt, ofs, st)
      | value =>
        -- a truthy non-array value: length is the undefined-tolerant
        -- length property; only length zero skips the body
        if jsLengthOpt value = some 0 then .ok (cnt, ofs, st)
        else do
          let _ ← patch16 st (mlook cnt keyPath)
            ((jsLengthOpt value).map (fun l => (l : Int)))
          match value with
          | .str _ => .error (.unmodelled "for-of over a string value in array position")
          | .bytes _ => .error (.unmodelled "for-of over a buffer value in array position")
          | _ => .error (.typeErr "value is not iterable")
  | .prim t =>
    if t = "count" then do
      let p := st.pos
      let st ← Writeable.uint16 st (some 0)
      .ok (mset cnt keyPath p, ofs, st)
    else if t = "offset" then do
      let p := st.pos
      let st ← Writeable.uint16 st (some 0)
      .ok (cnt, mset ofs keyPath p, st)
    else do
    let st ← match mlook cnt keyPath with
      | some _ => do
        let lv ← lenOrThrow value
        patch16 st (mlook cnt keyPath) (lv.map (fun l => (l : Int)))
      | none => Except.ok st
    let st ← match mlook ofs keyPath with
      | some _ => patch16 st (mlook ofs keyPath) (some (st.pos : Int))
      | none => Except.ok st
    match callW t value st with
    | .ok st1 => .ok (cnt, ofs, st1)
    | .error e => .error (.atField keyPath t e)

/-- The element loop of the array case: back-patch the previous next
pointer (or the offset placeholder), write the self pointer, write a
zero next placeholder, then recurse with the same writer and fresh
tables. -/
def writeElems (sub : FlatDef) (elems : List JsVal) (last : Option Nat) (st : WSt) :
    Except WErr WSt :=
  match elems with
  | [] => .ok st
  | e :: rest => do
    let here := st.pos
    let st ← patch16 st last (some (here : Int))
    let st ← Writeable.uint16 st (some (here : Int))
    let lastNew := st.pos
    let st ← Writeable.uint16 st (some 0)
    let st ← writeGroup sub e st
    writeElems sub rest (some lastNew) st

end

/-! ## The readable stream (stream.js, class Readable) and the decoder
(TeraProtocol.parse)

Parse-side errors are structured: the thrown Error message of a
self-pointer mismatch carries the dotted field path, modelled by the
path argument of the corresponding constructor.  console.warn calls
are modelled as a warning list threaded through the reader state. -/

inductive PErr where
  | readOOR
  | hereMismatch (path : String) (pos : Nat) (here : Nat)
  | notFn (t : String)
  | unmodelled (what : String)
  | fuelOut

inductive Warn where
  | arrayDrift (path : String) (pos : Nat) (expected : Nat)
  | scalarDrift (path : String) (pos : Nat) (expected : Nat)
  | oobElement (path : String) (index : Nat)

structure RSt where
  buf : Bytes
  pos : Nat
  warns : List Warn

namespace Readable

def seek (st : RSt) (n : Nat) : RSt := ⟨st.buf, n, st.warns⟩

/-- Node readUInt16LE: bounds-checked. -/
def uint16 (st : RSt) : Except PErr (Nat × RSt) :=
  if st.pos + 2 > st.buf.length then .error .readOOR
  else .ok (leRead st.buf st.pos 2, ⟨st.buf, st.pos + 2, st.warns⟩)

def uint32 (st : RSt) : Except PErr (Nat × RSt) :=
  if st.pos + 4 > st.buf.length then .error .readOOR
  else .ok (leRead st.buf st.pos 4, ⟨st.buf, st.pos + 4, st.warns⟩)

def int16 (st : RSt) : Except PErr (Int × RSt) :=
  if st.pos + 2 > st.buf.length then .error .readOOR
  else
    let v := leRead st.buf st.pos 2
    .ok (if v < 0x8000 then (v : Int) else (v : Int) - 0x10000, ⟨st.buf, st.pos + 2, st.warns⟩)

def int32 (st : RSt) : Except PErr (Int × RSt) :=
  if st.pos + 4 > st.buf.length then .error .readOOR
  else
    let v := leRead st.buf st.pos 4
    .ok (if v < 0x80000000 then (v : Int) else (v : Int) - 0x100000000,
      ⟨st.buf, st.pos + 4, st.warns⟩)

/-- stream.js byte: a bare index read; out of bounds yields undefined. -/
def byte (st : RSt) : JsVal × RSt :=
  (if st.pos < st.buf.length then .num (bufGet st.buf st.pos) else .undef,
    ⟨st.buf, st.pos + 1, st.warns⟩)

/-- stream.js bytes(n): buffer.slice clamps, the position advances by n
regardless.  n is the count-table value; a missing entry (undefined)
makes the position NaN in JavaScript, from which every later read is
misdirected - outside the modelled domain. -/
def bytes (st : RSt) (n : Option Nat) : Except PErr (JsVal × RSt) :=
  match n with
  | some n =>
    .ok (.bytes ((st.buf.drop st.pos).take n), ⟨st.buf, st.pos + n, st.warns⟩)
  | none => .error (.unmodelled "NaN reader position")

/-- stream.js float: 4 bytes as a binary32 bit pattern. -/
def float (st : RSt) : Except PErr (JsVal × RSt) :=
  if st.pos + 4 > st.buf.length then .error .readOOR
  else .ok (.f32 (leRead st.buf st.pos 4), ⟨st.buf, st.pos + 4, st.warns⟩)

/-- stream.js string: uint16 code units until a zero. -/
def string (st : RSt) : Except PErr (List Nat × RSt) :=
  if h : st.pos + 2 > st.buf.length then .error .readOOR
  else
    let c := leRead st.buf st.pos 2
    if c = 0 then .ok ([], ⟨st.buf, st.pos + 2, st.warns⟩)
    else do
      let r ← string ⟨st.buf, st.pos + 2, st.warns⟩
      .ok (c :: r.1, r.2)
termination_by st.buf.length - st.pos
decreasing_by omega

/-- stream.js uint64: new Long(int32, int32, true); arguments evaluate
left to right, so low is read first. -/
def uint64 (st : RSt) : Except PErr (JsVal × RSt) := do
  let (low, st) ← int32 st
  let (high, st) ← int32 st
  .ok (.long low high true, st)

def int64 (st : RSt) : Except PErr (JsVal × RSt) := do
  let (low, st) ← int32 st
  let (high, st) ← int32 st
  .ok (.long low high false, st)

end Readable

/-- The dynamic dispatch reader[type](count.get(keyPath)) of
parseField; bool, double and unknown names have no reader method. -/
def callR (t : String) (n : Option Nat) (st : RSt) : Except PErr (JsVal × RSt) :=
  match t with
  | "byte" => .ok (Readable.byte st)
  | "bytes" => Readable.bytes st n
  | "uint16" => do
    let (v, st) ← Readable.uint16 st
    .ok (.num (v : Int), st)
  | "int16" => do
    let (v, st) ← Readable.int16 st
    .ok (.num v, st)
  | "uint32" => do
    let (v, st) ← Readable.uint32 st
    .ok (.num (v : Int), st)
  | "int32" => do
    let (v, st) ← Readable.int32 st
    .ok (.num v, st)
  | "uint64" => Readable.uint64 st
  | "int64" => Readable.int64 st
  | "float" => Readable.float st
  | "string" => do
    let (us, st) ← Readable.string st
    .ok (.str us, st)
  | t => .error (.notFn t)

/-- JavaScript object property assignment data[key] = v: replace in
place if the key exists, else append. -/
def objSet (fs : List (String × JsVal)) (k : String) (v : JsVal) : List (String × JsVal) :=
  if fs.any (fun p => p.1 == k) then
    fs.map (fun p => if p.1 == k then (k, v) else p)
  else fs ++ [(k, v)]

/-- Count/offset value tables of parse (values read from the wire). -/
def vlook (m : List (String × Nat)) (k : String) : Option Nat :=
  ((m.find? (fun p => p.1 == k)).map (fun p => p.2))

/-- The key path of parseField.  The top-level loop passes the array
literal [] as keyPathBase; [] !== two-single-quote-empty-string is true
and the template literal stringifies [] to the empty string, so
top-level key paths carry a leading dot. -/
def parseKeyPath (base : String) (k : String) : String :=
  if base = "" then "." ++ k else base ++ "." ++ k

mutual

/-- TeraProtocol.parse with a resolved definition and an existing
Readable (the shape of every recursive call): fresh count/offset value
tables, then parseField over each entry into a fresh record.  The while
loop of the array case can diverge on cyclic pointer chains, so the
model takes fuel, consumed one unit per array element. -/
def parseGroup (fuel : Nat) (fields : FlatDef) (st : RSt) : Except PErr (JsVal × RSt) := do
  let r ← parseFields fuel fields "" [] [] [] st
  .ok (.obj r.1, r.2.2.2)
termination_by (fuel, sizeOf fields, 1)

def parseFields (fuel : Nat) (fields : FlatDef) (base : String)
    (cnt ofs : List (String × Nat)) (acc : List (String × JsVal)) (st : RSt) :
    Except PErr (List (String × JsVal) × List (String × Nat) × List (String × Nat) × RSt) :=
  match fields with
  | [] => .ok (acc, cnt, ofs, st)
  | (k, t) :: rest => do
    let r ← parseField1 fuel k t base cnt ofs acc st
    parseFields fuel rest base r.2.1 r.2.2.1 r.1 r.2.2.2
termination_by (fuel, sizeOf fields, 0)

def parseField1 (fuel : Nat) (k : String) (t : FType) (base : String)
    (cnt ofs : List (String × Nat)) (acc : List (String × JsVal)) (st : RSt) :
    Except PErr (List (String × JsVal) × List (String × Nat) × List (String × Nat) × RSt) :=
  let keyPath := parseKeyPath base k
  match t with
  | .grp false sub => do
    let r ← parseFields fuel sub keyPath cnt ofs [] st
    .ok (objSet acc k (.obj r.1), r.2.1, r.2.2.1, r.2.2.2)
  | .grp true sub =>
    -- new Array(length): undefined count yields a one-slot array
    -- holding undefined; a number yields length empty slots
    let st0 := st
    let init : Nat × List JsVal :=
      match vlook cnt keyPath with
      | some n => (n, [])
      | none => (1, List.replicate 1 JsVal.undef)
    match parseLoop fuel sub keyPath (vlook cnt keyPath) 0 [] (vlook ofs keyPath) st0 with
    | .error e => .error e
    | .ok (idx, items, st) =>
      .ok (objSet acc k (.arr (max init.1 idx) (items ++ init.2.drop idx)), cnt, ofs, st)
  | .prim t =>
    if t = "count" then do
      let (v, st) ← Readable.uint16 st
      .ok (acc, (keyPath, v) :: cnt, ofs, st)
    else if t = "offset" then do
      let (v, st) ← Readable.uint16 st
      .ok (acc, cnt, (keyPath, v) :: ofs, st)
    else do
      let st := match vlook ofs keyPath with
        | some o =>
          if st.pos ≠ o then ⟨st.buf, o, st.warns ++ [.scalarDrift keyPath st.pos o]⟩
          else st
        | none => st
      let (v, st) ← callR t (vlook cnt keyPath) st
      .ok (objSet acc k v, cnt, ofs, st)
termination_by (fuel, sizeOf t, 2)

/-- The while (next) loop of the array case. -/
def parseLoop (fuel : Nat) (sub : FlatDef) (keyPath : String) (length : Option Nat)
    (idx : Nat) (acc : List JsVal) (next : Option Nat) (st : RSt) :
    Except PErr (Nat × List JsVal × RSt) :=
  match next with
  | none => .ok (idx, acc, st)
  | some 0 => .ok (idx, acc, st)
  | some nx =>
    match fuel with
    | 0 => .error .fuelOut
    | fuel + 1 => do
      let (pos, st) :=
        if st.pos ≠ nx then
          (nx, ⟨st.buf, nx, st.warns ++ [.arrayDrift keyPath st.pos nx]⟩)
        else (st.pos, st)
      let (here, st) ← Readable.uint16 st
      if pos ≠ here then .error (.hereMismatch keyPath pos here)
      else do
        let (next2, st) ← Readable.uint16 st
        let (elem, st) ← parseGroup fuel sub st
        let idx := idx + 1
        let st :=
          if next2 ≠ 0 ∧ some idx = length then
            ⟨st.buf, st.pos, st.warns ++ [.oobElement keyPath idx]⟩
          else st
        parseLoop fuel sub keyPath length idx (acc ++ [elem]) (some next2) st
termination_by (fuel, sizeOf sub, 0)

end

/-- The public parse entry point on a full frame buffer: wrap the
buffer in a Readable positioned past the 4-byte header and decode.
The fuel bound buf.length covers every terminating run, since each
array element consumes at least four distinct header bytes. -/
def parseTop (definition : FlatDef) (buf : Bytes) : Except PErr (JsVal × RSt) :=
  parseGroup buf.length definition ⟨buf, 4, []⟩

/-! ## The registry (TeraProtocol.resolveIdentifier, string identifier)

Desired version none models the star wildcard.  Math.max over the
version keys of an empty map is -Infinity, whose lookup misses, so the
empty case is folded into the lookup failure. -/

structure Registry where
  nameToCode : List (String × Int)
  messages : List (String × List (Nat × FlatDef))

/-- Resolution outcome: code (null when the name has no opcode mapping,
after a console warning), the selected version and its definition. -/
def resolveName (reg : Registry) (name : String) (desired : Option Nat) :
    Except String (Option Int × Nat × FlatDef) :=
  let code : Option Int := ((reg.nameToCode.find? (fun p => p.1 == name)).map (fun p => p.2))
  match reg.messages.find? (fun p => p.1 == name) with
  | some entry =>
    let versions := entry.2
    let version : Option Nat :=
      match desired with
      | none => (versions.map (fun p => p.1)).max?
      | some v => some v
    match version with
    | some v =>
      match versions.find? (fun p => p.1 == v) with
      | some vd => .ok (code, v, vd.2)
      | none => .error "no definition found for message"
    | none => .error "no definition found for message"
  | none => .error "no definition found for message"

/-! ## The schema loader (definition files)

The claims concern the meta-insertion pass: pushMetaTypes walks from
the field's group through enclosing object groups to the nearest
non-object group (an array group or the root) collecting the dotted key
path, and appends count/offset entries there; flatten then prepends
each group's meta list to its flattened fields.

The loader's line loop mutates a tree with parent back-pointers; it is
modelled with a zipper: a stack of open group frames, innermost first,
with the root frame at the bottom. -/

/-- The META_TYPES table. -/
def metaTypesOf : String → List String
  | "array" => ["count", "offset"]
  | "bytes" => ["offset", "count"]
  | "string" => ["offset"]
  | _ => []

/-- A group under construction: its field name, its type tag (root,
array or object), the meta entries pushed so far, and the fields
appended so far (in order). -/
inductive BType where
  | prim (t : String)
  | grp (gt : String) (meta : List (String × String)) (fields : List (String × BType))

structure Frame where
  name : String
  gt : String
  meta : List (String × String)
  fields : List (String × BType)

/-- pushMetaTypes: starting from the innermost open group, collect
names of enclosing object groups (outermost first in the joined path),
and append the meta entries for this type to the meta list of the
nearest non-object group.  The stack is innermost-first; the root frame
is never an object. -/
def pushMetaWalk (mts : List String) : List Frame → String → List Frame
  | [], _ => []
  | f :: rest, kp =>
    if f.gt = "object" then f :: pushMetaWalk mts rest (f.name ++ "." ++ kp)
    else { f with meta := f.meta ++ mts.map (fun t => (kp, t)) } :: rest

def pushMeta (stack : List Frame) (key : String) (type : String) : List Frame :=
  match metaTypesOf type with
  | [] => stack
  | mts => pushMetaWalk mts stack key

/-- One parsed definition line: nesting depth (number of leading
dashes), type token, field name token. -/
structure DefLine where
  depth : Nat
  type : String
  key : String

/-- Close the innermost frame, appending it as a group field of its
parent. -/
def closeFrame (f : Frame) (parent : Frame) : Frame :=
  { parent with fields := parent.fields ++ [(f.name, .grp f.gt f.meta f.fields)] }

/-- Pop frames until the stack has n + 1 entries (level n). -/
def popTo (stack : List Frame) (n : Nat) : List Frame :=
  match stack with
  | [] => []
  | [f] => [f]
  | f :: parent :: rest =>
    if (f :: parent :: rest).length > n + 1 then popTo (closeFrame f parent :: rest) n
    else f :: parent :: rest
termination_by stack.length
decreasing_by simp_all

/-- One iteration of the definition-file line loop: adjust the level
(descending into the most recently appended field, which must be a
group), push implicit meta entries, then append the field. -/
def buildStep (stack : List Frame) (ln : DefLine) : Except String (List Frame) := do
  let level := stack.length - 1
  let stack ←
    if ln.depth > level then
      -- move deeper: reopen the last appended field of the current top
      match stack with
      | [] => .error "empty stack"
      | top :: rest =>
        match top.fields.getLast? with
        | some (nm, .grp gt meta fields) =>
          .ok ((⟨nm, gt, meta, fields⟩ : Frame) :: { top with fields := top.fields.dropLast } :: rest)
        | _ => .error "cannot descend into a non-group field"
    else
      .ok (popTo stack ln.depth)
  let stack := pushMeta stack ln.key ln.type
  match stack with
  | [] => .error "empty stack"
  | top :: rest =>
    if ln.type = "array" ∨ ln.type = "object" then
      .ok ({ top with fields := top.fields ++ [(ln.key, .grp ln.type [] [])] } :: rest)
    else
      .ok ({ top with fields := top.fields ++ [(ln.key, .prim ln.type)] } :: rest)

/-- The whole line loop, starting from the root frame, closing all open
frames at the end. -/
def buildLines (lines : List DefLine) : Except String Frame := do
  let stack ← lines.foldlM buildStep [⟨"", "root", [], []⟩]
  match popTo stack 0 with
  | [root] => .ok root
  | _ => .error "unbalanced stack"

mutual

/-- The flatten helper of load, in implicit-meta mode: a group flattens
to its meta entries (count/offset prims keyed by dotted path) followed
by its flattened fields. -/
def flattenB (meta : List (String × String)) (fields : List (String × BType)) : FlatDef :=
  meta.map (fun p => (p.1, FType.prim p.2)) ++ flattenBFields fields

def flattenBFields : List (String × BType) → FlatDef
  | [] => []
  | (k, .prim t) :: rest => (k, FType.prim t) :: flattenBFields rest
  | (k, .grp gt m fs) :: rest => (k, FType.grp (gt = "array") (flattenB m fs)) :: flattenBFields rest

end

/-! ## Spec-worded meta characterization (for the refinement claim)

Modelled from the spec: for every variable-length field reachable from
a group purely through object nesting, insert into that (nearest
non-object) group, keyed by the field's dotted path, count then offset
for an array field, offset then count for a bytes field, and offset
only for a string field; recursively in document order. -/

def dotJoin (objPath : List String) (k : String) : String :=
  match objPath with
  | [] => k
  | n :: rest => n ++ "." ++ dotJoin rest k

mutual

/-- Meta entries contributed by one field to its nearest enclosing
non-object group, given the names of the object groups between them. -/
def specMetaFor (objPath : List String) (k : String) (t : BType) : List (String × String) :=
  match t with
  | .prim p => (metaTypesOf p).map (fun mt => (dotJoin objPath k, mt))
  | .grp gt _ fields =>
    if gt = "object" then specMetaList (objPath ++ [k]) fields
    else (metaTypesOf gt).map (fun mt => (dotJoin objPath k, mt))

/-- Contributions of a field list, in document order. -/
def specMetaList (objPath : List String) (fields : List (String × BType)) :
    List (String × String) :=
  match fields with
  | [] => []
  | (k, t) :: rest => specMetaFor objPath k t ++ specMetaList objPath rest

end

mutual

/-- Spec-worded flatten: each non-object group carries exactly the meta
entries computed by the insertion rule from its own subtree. -/
def specFlatten (gt : String) (fields : List (String × BType)) : FlatDef :=
  (if gt = "object" then [] else
    (specMetaList [] fields).map (fun p => (p.1, FType.prim p.2))) ++
    specFlattenFields fields

def specFlattenFields : List (String × BType) → FlatDef
  | [] => []
  | (k, .prim t) :: rest => (k, FType.prim t) :: specFlattenFields rest
  | (k, .grp g _ fs) :: rest => (k, FType.grp (g = "array") (specFlatten g fs)) :: specFlattenFields rest

end

/-! ## Loader loop invariant for the meta-insertion refinement

SubPend computes the meta entries that the frames still open above a
given frame will eventually contribute to it: an open object frame
passes its closed fields through with the path extended by its name;
the first non-object frame contributes only its own count/offset pair
and blocks anything deeper. -/

def SubPend : List Frame → List String → List (String × String)
  | [], _ => []
  | g :: rest, path =>
    if g.gt = "object" then
      specMetaList (path ++ [g.name]) g.fields ++ SubPend rest (path ++ [g.name])
    else (metaTypesOf g.gt).map (fun mt => (dotJoin path g.name, mt))

mutual

/-- A closed group subtree whose meta lists all match the spec rule. -/
def MetaOKT : BType → Prop
  | .prim _ => True
  | .grp gt m fs => (if gt = "object" then m = [] else m = specMetaList [] fs) ∧ MetaOKL fs

def MetaOKL : List (String × BType) → Prop
  | [] => True
  | (_, t) :: rest => MetaOKT t ∧ MetaOKL rest

end

/-- The loop invariant for one open frame: an object frame never holds
meta; a non-object frame holds exactly the spec meta of its closed
fields plus the pending contributions of the frames open above it. -/
def FrameInv (above : List Frame) (f : Frame) : Prop :=
  (if f.gt = "object" then f.meta = [] else
    f.meta = specMetaList [] f.fields ++ SubPend above []) ∧ MetaOKL f.fields

/-- The stack invariant, threading each frame's open-ancestor chain
(innermost of the chain first). -/
def StackInvAux : List Frame → List Frame → Prop
  | _, [] => True
  | above, f :: rest => FrameInv above f ∧ StackInvAux (f :: above) rest

def StackInv (stack : List Frame) : Prop := StackInvAux [] stack

/-- The top-level write path with no caller-supplied writer: validate
the opcode, size the buffer from getLength, write the 4-byte frame
header (uint16 total length, uint16 opcode), then the body. -/
def writeTop (definition : FlatDef) (code : Option Int) (data : JsVal) :
    Except WErr Bytes := do
  let data := if jsTruthy data then data else .obj []
  match code with
  | none => .error .invalidCode
  | some c =>
    if c < 0 then .error .invalidCode
    else do
      let bodyLen ← getLength definition data
      let length := 4 + bodyLen
      let st : WSt := ⟨List.replicate length 0, 0⟩
      let st ← Writeable.uint16 st (some (length : Int))
      let st ← Writeable.uint16 st (some c)
      let st ← writeGroup definition data st
      .ok st.buf

/-! ## Meta-placement discipline

A flattened schema is well placed when every array group, recursively,
has count and offset meta entries for its dotted path appearing
earlier in its nearest enclosing non-object group - exactly the shape
the loader produces in implicit-meta mode.  The lists cs and os track
the paths whose count/offset placeholders have already been written. -/

def WFk (cs os : List String) (base : String) (fields : FlatDef) : Bool :=
  match fields with
  | [] => true
  | (k, .prim t) :: rest =>
    if t = "count" then WFk (keyPathOf base k :: cs) os base rest
    else if t = "offset" then WFk cs (keyPathOf base k :: os) base rest
    else WFk cs os base rest
  | (k, .grp true sub) :: rest =>
    cs.contains (keyPathOf base k) && os.contains (keyPathOf base k) &&
      WFk [] [] "" sub && WFk cs os base rest
  | (k, .grp false sub) :: rest =>
    WFk cs os (keyPathOf base k) sub && WFk cs os base rest

/-- All recorded placeholder positions lie past the 4-byte frame
header. -/
def Maps4 (m : PosMap) : Prop := ∀ kv ∈ m, 4 ≤ kv.2

/-- Every tracked path has a recorded placeholder position. -/
def CoversK (cs : List String) (m : PosMap) : Prop :=
  ∀ c ∈ cs, (mlook m c).isSome = true

/-- Write-step summary: length preserved, cursor monotone, frame
header bytes untouched. -/
def FrameOut (st st2 : WSt) : Prop :=
  st2.buf.length = st.buf.length ∧ st.pos ≤ st2.pos ∧
    ∀ j, j < 4 → bufGet st2.buf j = bufGet st.buf j

/-- Every placeholder cell recorded in the table lies outside the
protected window. -/
def MapsAvoid (lo hi : Nat) (m : PosMap) : Prop :=
  ∀ kv ∈ m, kv.2 + 2 ≤ lo ∨ hi ≤ kv.2

/-- Every placeholder cell recorded in the table ends at or before the
given cursor. -/
def MapsLe (m : PosMap) (p : Nat) : Prop := ∀ kv ∈ m, kv.2 + 2 ≤ p

/-- Write-step summary for a protected window: length preserved,
cursor monotone, bytes inside the window untouched. -/
def FrameWin (lo hi : Nat) (st st2 : WSt) : Prop :=
  st2.buf.length = st.buf.length ∧ st.pos ≤ st2.pos ∧
    ∀ j, lo ≤ j → j < hi → bufGet st2.buf j = bufGet st.buf j

/-- The self-pointer chain property of an element list: each start
position p holds p as its leading uint16 and the next start position
(0 for the last element) in the following uint16. -/
def chainCells (buf : Bytes) : List Nat → Prop
  | [] => True
  | p :: rest =>
    leRead buf p 2 = p ∧
    leRead buf (p + 2) 2 = (match rest with | [] => 0 | q :: _ => q) ∧
    chainCells buf rest

/-- The count/offset tracking lists of WFk after passing a prefix of
the field list. -/
def wfkAdvance (cs os : List String) (base : String) : FlatDef → List String × List String
  | [] => (cs, os)
  | (k, .prim t) :: rest =>
    if t = "count" then wfkAdvance (keyPathOf base k :: cs) os base rest
    else if t = "offset" then wfkAdvance cs (keyPathOf base k :: os) base rest
    else wfkAdvance cs os base rest
  | (_, .grp _ _) :: rest => wfkAdvance cs os base rest

/-! ## Concrete instances used by witnesses -/

/-- A two-version registry for concrete resolution checks. -/
def versM : List (Nat × FlatDef) := [(1, [("b", .prim "byte")]), (2, [("x", .prim "int16")])]

def regM : Registry := ⟨[("M", 7)], [("M", versM)]⟩

/-! # Theorems -/

/-- Unfolding lemma for the Except bind that do-notation produces. -/
theorem exBind_ok (a : α) (f : α → Except ε β) : (Except.ok a >>= f) = f a := rfl

/-- Unfolding lemma for bind on a thrown error. -/
theorem exBind_err (e : ε) (f : α → Except ε β) :
    ((Except.error e : Except ε α) >>= f) = Except.error e := rfl

/-- C7: for every integer n in the upper unsigned 32-bit range, the
stream writer int32 emits the same four bytes as int32 applied to
n - 2^32 (two's-complement reinterpretation), and for every integer n
in the negative signed 32-bit range, uint32 emits the same four bytes
as uint32 applied to n + 2^32. -/
theorem int32_uint32_reinterpret :
    (∀ (st : WSt) (n : Int), 0x80000000 ≤ n → n ≤ 0xFFFFFFFF →
      Writeable.int32 st (some n) = Writeable.int32 st (some (n - 0x100000000))) ∧
    (∀ (st : WSt) (n : Int), -0x80000000 ≤ n → n < 0 →
      Writeable.uint32 st (some n) = Writeable.uint32 st (some (n + 0x100000000))) := by
  constructor
  · intro st n h1 h2
    simp only [Writeable.int32]
    split_ifs with h3 h4 <;> first | rfl | omega
  · intro st n h1 h2
    simp only [Writeable.uint32]
    split_ifs with h3 h4 <;> first | rfl | omega

/-- Witness for C7 at n = 0xFFFFFFFF and n = -0x80000000. -/
theorem int32_uint32_reinterpret_witness :
    Writeable.int32 ⟨[0, 0, 0, 0], 0⟩ (some 0xFFFFFFFF) =
      Writeable.int32 ⟨[0, 0, 0, 0], 0⟩ (some (0xFFFFFFFF - 0x100000000)) ∧
    Writeable.uint32 ⟨[0, 0, 0, 0], 0⟩ (some (-0x80000000)) =
      Writeable.uint32 ⟨[0, 0, 0, 0], 0⟩ (some (-0x80000000 + 0x100000000)) :=
  ⟨int32_uint32_reinterpret.1 _ _ (by norm_num) (by norm_num),
   int32_uint32_reinterpret.2 _ _ (by norm_num) (by norm_num)⟩

/-- C6: for a message name with at least one loaded version, resolving
with the star wildcard selects the numerically greatest version
present, and resolving with an explicit version selects exactly that
version, failing when it is absent. -/
theorem resolve_version_selection :
    (∀ (reg : Registry) (name : String) (entry : String × List (Nat × FlatDef)),
      reg.messages.find? (fun p => p.1 == name) = some entry →
      entry.2 ≠ [] →
      ∃ m d, (entry.2.map (fun p => p.1)).max? = some m ∧
        resolveName reg name none =
          .ok ((reg.nameToCode.find? (fun p => p.1 == name)).map (fun p => p.2), m, d) ∧
        (m, d) ∈ entry.2 ∧ (∀ v ∈ entry.2.map (fun p => p.1), v ≤ m)) ∧
    (∀ (reg : Registry) (name : String) (entry : String × List (Nat × FlatDef)) (v : Nat),
      reg.messages.find? (fun p => p.1 == name) = some entry →
      ((v ∈ entry.2.map (fun p => p.1) →
        ∃ d, resolveName reg name (some v) =
          .ok ((reg.nameToCode.find? (fun p => p.1 == name)).map (fun p => p.2), v, d) ∧
          (v, d) ∈ entry.2) ∧
       (v ∉ entry.2.map (fun p => p.1) →
        resolveName reg name (some v) = .error "no definition found for message"))) := by
  have hfind : ∀ (l : List (Nat × FlatDef)) (v : Nat), v ∈ l.map (fun p => p.1) →
      ∃ d, l.find? (fun p => p.1 == v) = some (v, d) ∧ (v, d) ∈ l := by
    intro l v hv
    have hex : ∃ x, x ∈ l ∧ (fun p => p.1 == v) x = true := by
      rcases List.mem_map.mp hv with ⟨p, hp, he⟩
      exact ⟨p, hp, by simp [he]⟩
    rcases Option.isSome_iff_exists.mp (List.find?_isSome.mpr hex) with ⟨vd, hvd⟩
    have h2 : vd ∈ l := List.mem_of_find?_eq_some hvd
    have h3 : vd.1 = v := by
      have := List.find?_some hvd
      simpa using this
    exact ⟨vd.2, by rw [hvd]; cases vd; simp_all, by cases vd; simp_all⟩
  have hnofind : ∀ (l : List (Nat × FlatDef)) (v : Nat), v ∉ l.map (fun p => p.1) →
      l.find? (fun p => p.1 == v) = none := by
    intro l v hv
    rcases h : l.find? (fun p => p.1 == v) with _ | vd
    · exact h
    · exfalso
      have h2 : vd ∈ l := List.mem_of_find?_eq_some h
      have h3 : vd.1 = v := by
        have := List.find?_some h
        simpa using this
      exact hv (List.mem_map.mpr ⟨vd, h2, h3⟩)
  constructor
  · intro reg name entry hm hne
    have hkeys : entry.2.map (fun p => p.1) ≠ [] := fun h => hne (List.map_eq_nil_iff.mp h)
    rcases hx : (entry.2.map (fun p => p.1)).max? with _ | m
    · exact absurd (List.max?_eq_none_iff.mp hx) hkeys
    have hmem : m ∈ entry.2.map (fun p => p.1) :=
      List.max?_mem (fun a b => by omega) hx
    rcases hfind entry.2 m hmem with ⟨d, hfd, hmd⟩
    refine ⟨m, d, hx, ?_, hmd, ?_⟩
    · simp only [resolveName, hm, hx, hfd]
    · exact (List.max?_le_iff (fun a b c => by omega) hx).mp le_rfl
  · intro reg name entry v hm
    constructor
    · intro hv
      rcases hfind entry.2 v hv with ⟨d, hfd, hmd⟩
      exact ⟨d, by simp only [resolveName, hm, hfd], hmd⟩
    · intro hv
      simp only [resolveName, hm, hnofind entry.2 v hv]

/-- Witness for C6 on a concrete two-version registry: the star
wildcard picks version 2 of 1 and 2. -/
theorem resolve_version_selection_witness :
    ∃ m d, (versM.map (fun p => p.1)).max? = some m ∧
      resolveName regM "M" none =
        .ok ((regM.nameToCode.find? (fun p => p.1 == "M")).map (fun p => p.2), m, d) ∧
      (m, d) ∈ versM ∧ (∀ v ∈ versM.map (fun p => p.1), v ≤ m) :=
  resolve_version_selection.1 regM "M" ("M", versM) (by rfl) (by simp [versM])

/-- C3 (code bug): missing scalar fields do serialize as zero without
throwing, but a missing string field makes the writer iterate
undefined, which throws a TypeError annotated with the field path - the
write of an otherwise empty record over a schema with a string field
fails instead of emitting the 16-bit NUL terminator that the length
estimator budgeted and that the test suite expects. -/
theorem write_missing_fields_behaviour :
    writeTop [("x", .prim "uint16")] (some 24) (.obj []) = .ok [6, 0, 24, 0, 0, 0] ∧
    writeTop [("s", .prim "offset"), ("s", .prim "string")] (some 24) (.obj []) =
      .error (.atField "s" "string" (.typeErr "value is not iterable")) := by
  constructor
  · simp [writeTop, writeGroup, writeFields, writeField1, getLength, getLengthFields,
      getLengthField, jsGet, SIZES, normData, lenOrThrow, Writeable.uint16, Writeable.checkedWrite,
      callW, toNum, mlook, keyPathOf, writeBytesAt, bufSet, leBytes, jsTruthy,
      List.replicate, List.set, exBind_ok, exBind_err]
  · simp [writeTop, writeGroup, writeFields, writeField1, getLength, getLengthFields,
      getLengthField, jsGet, SIZES, normData, lenOrThrow, Writeable.uint16, Writeable.checkedWrite,
      Writeable.string, callW, toNum, mlook, mset, keyPathOf, writeBytesAt, bufSet, leBytes,
      jsTruthy, patch16, Writeable.seek, List.replicate, List.set, exBind_ok, exBind_err]

/-- Each iteration of the array decode loop appends exactly one element
and bumps the index by one, so the number of populated slots equals the
number of iterations. -/
theorem parseLoop_count (fuel : Nat) :
    ∀ (sub : FlatDef) (kp : String) (len : Option Nat) (idx : Nat)
      (acc : List JsVal) (next : Option Nat) (st : RSt) (r : Nat × List JsVal × RSt),
      parseLoop fuel sub kp len idx acc next st = .ok r →
      r.2.1.length + idx = acc.length + r.1 := by
  induction fuel with
  | zero =>
    intro sub kp len idx acc next st r h
    match next with
    | none => simp only [parseLoop] at h; cases h; simp
    | some 0 => simp only [parseLoop] at h; cases h; simp
    | some (m + 1) => simp only [parseLoop] at h; cases h
  | succ fuel ih =>
    intro sub kp len idx acc next st r h
    match next with
    | none => simp only [parseLoop] at h; cases h; simp
    | some 0 => simp only [parseLoop] at h; cases h; simp
    | some (m + 1) =>
      simp only [parseLoop] at h
      split at h
      all_goals {
        rcases hu : Readable.uint16 _ with _ | ⟨here, st2⟩ <;> rw [hu] at h <;>
          simp only [exBind_ok, exBind_err] at h
        · cases h
        split at h
        · cases h
        rcases hu2 : Readable.uint16 st2 with _ | ⟨next2, st3⟩ <;> rw [hu2] at h <;>
          simp only [exBind_ok, exBind_err] at h
        · cases h
        rcases hg : parseGroup fuel sub st3 with _ | ⟨elem, st4⟩ <;> rw [hg] at h <;>
          simp only [exBind_ok, exBind_err] at h
        · cases h
        have := ih sub kp len (idx + 1) (acc ++ [elem]) (some next2) _ r h
        simp only [List.length_append, List.length_cons, List.length_nil] at this ⊢
        omega
      }

/-- C10: when the wire count of an array field says N but the pointer
chain terminates after M < N elements, the decoded field is an array of
length N whose first M slots are populated and whose remaining N - M
slots are unset. -/
theorem parse_array_partial_chain (fuel : Nat) (k : String) (sub : FlatDef) (base : String)
    (cnt ofs : List (String × Nat)) (acc : List (String × JsVal)) (st : RSt)
    (N : Nat) (r : Nat × List JsVal × RSt)
    (hc : vlook cnt (parseKeyPath base k) = some N)
    (hr : parseLoop fuel sub (parseKeyPath base k) (some N) 0 []
      (vlook ofs (parseKeyPath base k)) st = .ok r)
    (hM : r.1 < N) :
    parseField1 fuel k (.grp true sub) base cnt ofs acc st =
      .ok (objSet acc k (.arr N r.2.1), cnt, ofs, r.2.2) ∧
    r.2.1.length = r.1 := by
  have hcount := parseLoop_count fuel sub (parseKeyPath base k) (some N) 0 []
    (vlook ofs (parseKeyPath base k)) st r hr
  constructor
  · obtain ⟨idx, items, st2⟩ := r
    simp only [parseField1, hc, hr]
    simp only [Nat.max_eq_left (Nat.le_of_lt hM), List.drop_nil, List.append_nil]
  · simpa using hcount

/-- Witness for C10: count 3 on the wire, chain ends after one element;
the field decodes to an array of length 3 with one populated slot. -/
theorem parse_array_partial_chain_witness :
    parseField1 9 "a" (.grp true [("x", FType.prim "byte")]) "" [(".a", 3)] [(".a", 8)] []
      ⟨[0, 0, 0, 0, 3, 0, 8, 0, 8, 0, 0, 0, 7], 8, []⟩ =
      .ok (objSet [] "a" (.arr 3 [.obj [("x", .num 7)]]), [(".a", 3)], [(".a", 8)],
        ⟨[0, 0, 0, 0, 3, 0, 8, 0, 8, 0, 0, 0, 7], 13, []⟩) ∧
    ([JsVal.obj [("x", .num 7)]]).length = 1 :=
  parse_array_partial_chain 9 "a" [("x", FType.prim "byte")] "" [(".a", 3)] [(".a", 8)] []
    ⟨[0, 0, 0, 0, 3, 0, 8, 0, 8, 0, 0, 0, 7], 8, []⟩ 3
    (1, [JsVal.obj [("x", .num 7)]], ⟨[0, 0, 0, 0, 3, 0, 8, 0, 8, 0, 0, 0, 7], 13, []⟩)
    (by rfl)
    (by simp [parseLoop, parseGroup, parseFields, parseField1, callR, Readable.uint16,
      Readable.byte, vlook, parseKeyPath, leRead, bufGet, objSet, exBind_ok, exBind_err])
    (by norm_num)

/-- C5: a mismatch between an array element's leading here word and the
element's actual start position is a fatal decode error carrying the
field path, whereas a disagreement between the cursor and a recorded
offset value for a scalar field never throws: it appends a drift
warning and seeks to the recorded offset, after which parsing continues
exactly as if the cursor had been there. -/
theorem parse_here_fatal_drift_warns :
    (∀ (fuel : Nat) (sub : FlatDef) (path : String) (len : Option Nat) (idx : Nat)
      (acc : List JsVal) (nx : Nat) (buf : Bytes) (p : Nat) (ws : List Warn),
      nx ≠ 0 → nx + 2 ≤ buf.length → leRead buf nx 2 ≠ nx →
      parseLoop (fuel + 1) sub path len idx acc (some nx) ⟨buf, p, ws⟩ =
        .error (.hereMismatch path nx (leRead buf nx 2))) ∧
    (∀ (fuel : Nat) (k : String) (t : String) (base : String)
      (cnt ofs : List (String × Nat)) (acc : List (String × JsVal))
      (buf : Bytes) (p : Nat) (ws : List Warn) (o : Nat),
      vlook ofs (parseKeyPath base k) = some o → p ≠ o →
      t ≠ "count" → t ≠ "offset" →
      parseField1 fuel k (.prim t) base cnt ofs acc ⟨buf, p, ws⟩ =
        parseField1 fuel k (.prim t) base cnt ofs acc
          ⟨buf, o, ws ++ [.scalarDrift (parseKeyPath base k) p o]⟩) := by
  constructor
  · intro fuel sub path len idx acc nx buf p ws h0 hb hm
    obtain ⟨m, rfl⟩ : ∃ m, nx = m + 1 := ⟨nx - 1, by omega⟩
    have hble : ¬(m + 1 + 2 > buf.length) := by omega
    by_cases hp : p = m + 1 <;>
      simp [parseLoop, Readable.uint16, hp, hble, exBind_ok, exBind_err, hm.symm]
  · intro fuel k t base cnt ofs acc buf p ws o ho hpo ht1 ht2
    simp only [parseField1, if_neg ht1, if_neg ht2, ho]
    simp [hpo]

/-- Witness for C5: a buffer whose here word at position 4 reads 2313
aborts the array decode fatally, while a scalar read at cursor 9
against recorded offset 2 merely warns and seeks. -/
theorem parse_here_fatal_drift_warns_witness :
    parseLoop 1 [] "p" none 0 [] (some 4) ⟨[0, 0, 0, 0, 9, 9], 0, []⟩ =
      .error (.hereMismatch "p" 4 (leRead [0, 0, 0, 0, 9, 9] 4 2)) ∧
    parseField1 5 "k" (.prim "uint16") "" [] [(".k", 2)] [] ⟨[7, 7, 7, 7], 9, []⟩ =
      parseField1 5 "k" (.prim "uint16") "" [] [(".k", 2)] []
        ⟨[7, 7, 7, 7], 2, [] ++ [.scalarDrift (parseKeyPath "" "k") 9 2]⟩ :=
  ⟨parse_here_fatal_drift_warns.1 0 [] "p" none 0 [] 4 [0, 0, 0, 0, 9, 9] 0 []
    (by norm_num) (by norm_num) (by decide),
   parse_here_fatal_drift_warns.2 5 "k" "uint16" "" [] [(".k", 2)] [] [7, 7, 7, 7] 9 [] 2
    (by rfl) (by norm_num) (by decide) (by decide)⟩

/-- Keys produced by an object property assignment. -/
theorem objSet_keys (fs : List (String × JsVal)) (k : String) (v : JsVal) :
    ∀ k2 ∈ (objSet fs k v).map (fun p => p.1),
      k2 ∈ fs.map (fun p => p.1) ∨ k2 = k := by
  intro k2 h2
  unfold objSet at h2
  split at h2
  · rcases List.mem_map.mp h2 with ⟨q, hq, he⟩
    rcases List.mem_map.mp hq with ⟨q0, hq0, he0⟩
    by_cases hqk : q0.1 = k
    · right
      subst he
      rw [← he0]
      simp [hqk]
    · left
      subst he
      rw [← he0]
      simp only [hqk, beq_iff_eq, if_neg]
      exact List.mem_map.mpr ⟨q0, hq0, rfl⟩
  · rcases List.mem_map.mp h2 with ⟨q, hq, he⟩
    rcases List.mem_append.mp hq with hq1 | hq1
    · exact Or.inl (he ▸ List.mem_map.mpr ⟨q, hq1, rfl⟩)
    · right
      simp only [List.mem_singleton] at hq1
      rw [← he, hq1]

/-- A single parseField call adds at most its own key to the record,
and never when the field is a count or offset meta entry. -/
theorem parseField1_keys (fuel : Nat) (k : String) (t : FType) (base : String)
    (cnt ofs : List (String × Nat)) (acc : List (String × JsVal)) (st : RSt)
    (r : List (String × JsVal) × List (String × Nat) × List (String × Nat) × RSt)
    (h : parseField1 fuel k t base cnt ofs acc st = .ok r) :
    ∀ k2 ∈ r.1.map (fun p => p.1),
      k2 ∈ acc.map (fun p => p.1) ∨
        (k2 = k ∧ t ≠ .prim "count" ∧ t ≠ .prim "offset") := by
  intro k2 h2
  match t with
  | .grp false sub =>
    rcases hp : parseFields fuel sub (parseKeyPath base k) cnt ofs [] st with e | r1
    · simp only [parseField1, hp, exBind_err] at h
      cases h
    · simp only [parseField1, hp, exBind_ok] at h
      injection h with h
      subst h
      rcases objSet_keys acc k (.obj r1.1) k2 h2 with h3 | h3
      · exact Or.inl h3
      · exact Or.inr ⟨h3, by simp, by simp⟩
  | .grp true sub =>
    simp only [parseField1] at h
    split at h
    · cases h
    case _ idx items st3 heq =>
      injection h with h
      subst h
      rcases objSet_keys acc k _ k2 h2 with h3 | h3
      · exact Or.inl h3
      · exact Or.inr ⟨h3, by simp, by simp⟩
  | .prim t =>
    by_cases ht1 : t = "count"
    · rcases hu : Readable.uint16 st with e | ⟨v2, st2⟩
      · simp only [parseField1, ht1, if_true, hu, exBind_err] at h
        cases h
      · simp only [parseField1, ht1, if_true, hu, exBind_ok] at h
        injection h with h
        subst h
        exact Or.inl h2
    · by_cases ht2 : t = "offset"
      · rcases hu : Readable.uint16 st with e | ⟨v2, st2⟩
        · simp only [parseField1, ht1, ht2, if_false, if_true, hu, exBind_err,
            if_neg, if_pos] at h
          cases h
        · simp only [parseField1, ht1, ht2, if_false, if_true, hu, exBind_ok,
            if_neg, if_pos] at h
          injection h with h
          subst h
          exact Or.inl h2
      · simp only [parseField1, if_neg ht1, if_neg ht2] at h
        rcases hc : callR t (vlook cnt (parseKeyPath base k)) _ with e | ⟨v2, st2⟩ <;>
          rw [hc] at h
        · simp only [exBind_err] at h
          cases h
        · simp only [exBind_ok] at h
          injection h with h
          subst h
          rcases objSet_keys acc k v2 k2 h2 with h3 | h3
          · exact Or.inl h3
          · exact Or.inr ⟨h3, by simp [ht1], by simp [ht2]⟩

/-- The field loop only ever adds keys of non-meta fields. -/
theorem parseFields_keys (fields : FlatDef) :
    ∀ (fuel : Nat) (base : String) (cnt ofs : List (String × Nat))
      (acc : List (String × JsVal)) (st : RSt)
      (r : List (String × JsVal) × List (String × Nat) × List (String × Nat) × RSt),
      parseFields fuel fields base cnt ofs acc st = .ok r →
      ∀ k2 ∈ r.1.map (fun p => p.1),
        k2 ∈ acc.map (fun p => p.1) ∨
          ∃ t, (k2, t) ∈ fields ∧ t ≠ .prim "count" ∧ t ≠ .prim "offset" := by
  induction fields with
  | nil =>
    intro fuel base cnt ofs acc st r h k2 h2
    simp only [parseFields] at h
    cases h
    exact Or.inl h2
  | cons f rest ih =>
    intro fuel base cnt ofs acc st r h k2 h2
    obtain ⟨k, t⟩ := f
    rcases h1 : parseField1 fuel k t base cnt ofs acc st with e | r1
    · simp only [parseFields, h1, exBind_err] at h
      cases h
    · simp only [parseFields, h1, exBind_ok] at h
      rcases ih fuel base r1.2.1 r1.2.2.1 r1.1 r1.2.2.2 r h k2 h2 with h3 | ⟨t2, h4, h5, h6⟩
      · rcases parseField1_keys fuel k t base cnt ofs acc st r1 h1 k2 h3 with h7 | ⟨h7, h8, h9⟩
        · exact Or.inl h7
        · exact Or.inr ⟨t, by rw [h7]; exact List.mem_cons_self _ _, h8, h9⟩
      · exact Or.inr ⟨t2, List.mem_cons_of_mem _ h4, h5, h6⟩

/-- C9: the record returned by parse contains no entry stored by a
count or offset meta field: every key of the output record comes from a
field whose type is neither count nor offset; the uint16 values read
for meta fields live only in the per-call tables. -/
theorem parse_output_no_meta_keys (fuel : Nat) (fields : FlatDef) (st : RSt)
    (v : JsVal) (st2 : RSt) (h : parseGroup fuel fields st = .ok (v, st2)) :
    ∃ fs, v = .obj fs ∧ ∀ k ∈ fs.map (fun p => p.1),
      ∃ t, (k, t) ∈ fields ∧ t ≠ .prim "count" ∧ t ≠ .prim "offset" := by
  rcases hp : parseFields fuel fields "" [] [] [] st with e | r
  · simp only [parseGroup, hp, exBind_err] at h
    cases h
  · simp only [parseGroup, hp, exBind_ok, Except.ok.injEq, Prod.mk.injEq] at h
    obtain ⟨hv, hst⟩ := h
    refine ⟨r.1, hv.symm, fun k hk => ?_⟩
    rcases parseFields_keys fields fuel "" [] [] [] st r hp k hk with h3 | h3
    · simp at h3
    · exact h3

/-- Witness for C9: a schema whose count and offset meta entries are
followed by one uint16 field decodes to a record with only that key. -/
theorem parse_output_no_meta_keys_witness :
    ∃ fs, JsVal.obj [("x", .num 5)] = .obj fs ∧ ∀ k ∈ fs.map (fun p => p.1),
      ∃ t, (k, t) ∈ [("a", FType.prim "count"), ("a", FType.prim "offset"),
          ("x", FType.prim "uint16")] ∧
        t ≠ .prim "count" ∧ t ≠ .prim "offset" :=
  parse_output_no_meta_keys 9
    [("a", FType.prim "count"), ("a", FType.prim "offset"), ("x", FType.prim "uint16")]
    ⟨[0, 0, 0, 0, 2, 0, 0, 0, 5, 0], 4, []⟩ (.obj [("x", .num 5)])
    ⟨[0, 0, 0, 0, 2, 0, 0, 0, 5, 0], 10, []⟩
    (by simp [parseGroup, parseFields, parseField1, callR, Readable.uint16, vlook,
      parseKeyPath, leRead, bufGet, objSet, exBind_ok, exBind_err])

/-! ## Framing lemmas for the writer primitives -/

theorem leBytes_length (m k : Nat) : (leBytes m k).length = m := by
  induction m generalizing k with
  | zero => rfl
  | succ m ih => simp [leBytes, ih]

theorem writeBytesAt_length (vs : List Nat) (b : Bytes) (i : Nat) :
    (writeBytesAt b i vs).length = b.length := by
  induction vs generalizing b i with
  | nil => rfl
  | cons v rest ih => simp [writeBytesAt, ih, bufSet]

theorem bufSet_get_outside (b : Bytes) (i v j : Nat) (h : j ≠ i) :
    bufGet (bufSet b i v) j = bufGet b j := by
  simp only [bufGet, bufSet]
  rcases Nat.lt_or_ge j b.length with hj | hj
  · rw [List.getD_eq_getElem?_getD, List.getD_eq_getElem?_getD,
      List.getElem?_set_ne (Ne.symm h)]
  · rw [List.getD_eq_getElem?_getD, List.getD_eq_getElem?_getD,
      List.getElem?_eq_none (by simpa using hj),
      List.getElem?_eq_none (by simpa [List.length_set] using hj)]

theorem writeBytesAt_get_outside (vs : List Nat) (b : Bytes) (i j : Nat)
    (h : j < i ∨ i + vs.length ≤ j) :
    bufGet (writeBytesAt b i vs) j = bufGet b j := by
  induction vs generalizing b i with
  | nil => rfl
  | cons v rest ih =>
    simp only [writeBytesAt]
    rw [ih (bufSet b i v) (i + 1) (by simp at h ⊢; omega)]
    exact bufSet_get_outside b i v j (by simp at h; omega)

theorem checkedWrite_ok (st : WSt) (m : Nat) (v : Option Int) (lo hi : Int) (t : String)
    (st2 : WSt) (h : Writeable.checkedWrite st m v lo hi t = .ok st2) :
    st2.buf.length = st.buf.length ∧ st2.pos = st.pos + m ∧
    ∀ j, j < st.pos ∨ st.pos + m ≤ j → bufGet st2.buf j = bufGet st.buf j := by
  match v with
  | some n =>
    simp only [Writeable.checkedWrite] at h
    split at h
    · cases h
    split at h
    · cases h
    cases h
    refine ⟨writeBytesAt_length _ _ _, rfl, fun j hj => ?_⟩
    exact writeBytesAt_get_outside _ _ _ _ (by rw [leBytes_length]; omega)
  | none =>
    simp only [Writeable.checkedWrite] at h
    split at h
    · cases h
    cases h
    refine ⟨writeBytesAt_length _ _ _, rfl, fun j hj => ?_⟩
    exact writeBytesAt_get_outside _ _ _ _ (by rw [leBytes_length]; omega)

theorem uint16_ok (st : WSt) (v : Option Int) (st2 : WSt)
    (h : Writeable.uint16 st v = .ok st2) :
    st2.buf.length = st.buf.length ∧ st2.pos = st.pos + 2 ∧
    ∀ j, j < st.pos ∨ st.pos + 2 ≤ j → bufGet st2.buf j = bufGet st.buf j :=
  checkedWrite_ok st 2 v 0 0xFFFF "uint16" st2 h

theorem int16_ok (st : WSt) (v : Option Int) (st2 : WSt)
    (h : Writeable.int16 st v = .ok st2) :
    st2.buf.length = st.buf.length ∧ st2.pos = st.pos + 2 ∧
    ∀ j, j < st.pos ∨ st.pos + 2 ≤ j → bufGet st2.buf j = bufGet st.buf j :=
  checkedWrite_ok st 2 v (-0x8000) 0x7FFF "int16" st2 h

theorem uint32_ok (st : WSt) (v : Option Int) (st2 : WSt)
    (h : Writeable.uint32 st v = .ok st2) :
    st2.buf.length = st.buf.length ∧ st2.pos = st.pos + 4 ∧
    ∀ j, j < st.pos ∨ st.pos + 4 ≤ j → bufGet st2.buf j = bufGet st.buf j := by
  match v with
  | some n =>
    simp only [Writeable.uint32] at h
    exact checkedWrite_ok st 4 _ 0 0xFFFFFFFF "uint32" st2 h
  | none =>
    simp only [Writeable.uint32] at h
    exact checkedWrite_ok st 4 none 0 0xFFFFFFFF "uint32" st2 h

theorem int32_ok (st : WSt) (v : Option Int) (st2 : WSt)
    (h : Writeable.int32 st v = .ok st2) :
    st2.buf.length = st.buf.length ∧ st2.pos = st.pos + 4 ∧
    ∀ j, j < st.pos ∨ st.pos + 4 ≤ j → bufGet st2.buf j = bufGet st.buf j := by
  match v with
  | some n =>
    simp only [Writeable.int32] at h
    exact checkedWrite_ok st 4 _ (-0x80000000) 0x7FFFFFFF "int32" st2 h
  | none =>
    simp only [Writeable.int32] at h
    exact checkedWrite_ok st 4 none (-0x80000000) 0x7FFFFFFF "int32" st2 h

theorem float_ok (st : WSt) (v : JsVal) (st2 : WSt)
    (h : Writeable.float st v = .ok st2) :
    st2.buf.length = st.buf.length ∧ st2.pos = st.pos + 4 ∧
    ∀ j, j < st.pos ∨ st.pos + 4 ≤ j → bufGet st2.buf j = bufGet st.buf j := by
  match v with
  | .f32 bits =>
    simp only [Writeable.float] at h
    split at h
    · cases h
    cases h
    refine ⟨writeBytesAt_length _ _ _, rfl, fun j hj => ?_⟩
    exact writeBytesAt_get_outside _ _ _ _ (by rw [leBytes_length]; omega)
  | .undef =>
    simp only [Writeable.float] at h
    split at h
    · cases h
    cases h
    refine ⟨writeBytesAt_length _ _ _, rfl, fun j hj => ?_⟩
    exact writeBytesAt_get_outside _ _ _ _ (by rw [leBytes_length]; omega)

theorem byte_spec (st : WSt) (v : JsVal) :
    (Writeable.byte st v).buf.length = st.buf.length ∧
    (Writeable.byte st v).pos = st.pos + 1 ∧
    ∀ j, j < st.pos ∨ st.pos + 1 ≤ j →
      bufGet (Writeable.byte st v).buf j = bufGet st.buf j := by
  refine ⟨by simp [Writeable.byte, bufSet], rfl, fun j hj => ?_⟩
  exact bufSet_get_outside _ _ _ _ (by omega)

theorem bytes_ok (st : WSt) (v : JsVal) (st2 : WSt)
    (h : Writeable.bytes st v = .ok st2) :
    st2.buf.length = st.buf.length ∧ st.pos ≤ st2.pos ∧
    ∀ j, j < st.pos ∨ st2.pos ≤ j → bufGet st2.buf j = bufGet st.buf j := by
  match v with
  | .bytes data =>
    simp only [Writeable.bytes] at h
    cases h
    refine ⟨writeBytesAt_length _ _ _, by simp, fun j hj => ?_⟩
    exact writeBytesAt_get_outside _ _ _ _ (by simp at hj ⊢; omega)

theorem writeUnits_ok (us : List Nat) (st : WSt) (st2 : WSt)
    (h : Writeable.writeUnits st us = .ok st2) :
    st2.buf.length = st.buf.length ∧ st.pos ≤ st2.pos ∧
    ∀ j, j < st.pos ∨ st2.pos ≤ j → bufGet st2.buf j = bufGet st.buf j := by
  induction us generalizing st with
  | nil =>
    simp only [Writeable.writeUnits] at h
    cases h
    exact ⟨rfl, le_rfl, fun j hj => rfl⟩
  | cons u rest ih =>
    rcases hu : Writeable.uint16 st (some u) with e | st1 <;>
      simp only [Writeable.writeUnits, hu, exBind_ok, exBind_err] at h
    · cases h
    obtain ⟨hl1, hp1, hf1⟩ := uint16_ok st (some u) st1 hu
    obtain ⟨hl2, hp2, hf2⟩ := ih st1 h
    refine ⟨hl2.trans hl1, by omega, fun j hj => ?_⟩
    rw [hf2 j (by omega), hf1 j (by omega)]

theorem string_ok (st : WSt) (v : JsVal) (st2 : WSt)
    (h : Writeable.string st v = .ok st2) :
    st2.buf.length = st.buf.length ∧ st.pos ≤ st2.pos ∧
    ∀ j, j < st.pos ∨ st2.pos ≤ j → bufGet st2.buf j = bufGet st.buf j := by
  match v with
  | .str units =>
    rcases hu : Writeable.writeUnits st (jsStrIter units) with e | st1 <;>
      simp only [Writeable.string, hu, exBind_ok, exBind_err] at h
    · cases h
    obtain ⟨hl1, hp1, hf1⟩ := writeUnits_ok _ st st1 hu
    obtain ⟨hl2, hp2, hf2⟩ := uint16_ok st1 (some 0) st2 h
    refine ⟨hl2.trans hl1, by omega, fun j hj => ?_⟩
    rw [hf2 j (by omega), hf1 j (by omega)]

theorem uint64_ok (st : WSt) (v : JsVal) (st2 : WSt)
    (h : Writeable.uint64 st v = .ok st2) :
    st2.buf.length = st.buf.length ∧ st.pos ≤ st2.pos ∧
    ∀ j, j < st.pos ∨ st2.pos ≤ j → bufGet st2.buf j = bufGet st.buf j := by
  have comp : ∀ (a b : Option Int) st0,
      (do
        let s ← Writeable.uint32 st0 a
        Writeable.uint32 s b) = .ok st2 →
      st2.buf.length = st0.buf.length ∧ st0.pos ≤ st2.pos ∧
      ∀ j, j < st0.pos ∨ st2.pos ≤ j → bufGet st2.buf j = bufGet st0.buf j := by
    intro a b st0 h0
    rcases hu : Writeable.uint32 st0 a with e | st1 <;>
      rw [hu] at h0 <;> simp only [exBind_ok, exBind_err] at h0
    · cases h0
    obtain ⟨hl1, hp1, hf1⟩ := uint32_ok st0 a st1 hu
    obtain ⟨hl2, hp2, hf2⟩ := uint32_ok st1 b st2 h0
    refine ⟨hl2.trans hl1, by omega, fun j hj => ?_⟩
    rw [hf2 j (by omega), hf1 j (by omega)]
  match v with
  | .long low high u => exact comp (some low) (some high) st h
  | .bool b => exact comp none none st h
  | .str us => exact comp none none st h
  | .bytes d => exact comp none none st h
  | .obj fs => exact comp none none st h
  | .arr l items => exact comp none none st h

theorem int64_ok (st : WSt) (v : JsVal) (st2 : WSt)
    (h : Writeable.int64 st v = .ok st2) :
    st2.buf.length = st.buf.length ∧ st.pos ≤ st2.pos ∧
    ∀ j, j < st.pos ∨ st2.pos ≤ j → bufGet st2.buf j = bufGet st.buf j := by
  have comp : ∀ (a b : Option Int) st0,
      (do
        let s ← Writeable.uint32 st0 a
        Writeable.int32 s b) = .ok st2 →
      st2.buf.length = st0.buf.length ∧ st0.pos ≤ st2.pos ∧
      ∀ j, j < st0.pos ∨ st2.pos ≤ j → bufGet st2.buf j = bufGet st0.buf j := by
    intro a b st0 h0
    rcases hu : Writeable.uint32 st0 a with e | st1 <;>
      rw [hu] at h0 <;> simp only [exBind_ok, exBind_err] at h0
    · cases h0
    obtain ⟨hl1, hp1, hf1⟩ := uint32_ok st0 a st1 hu
    obtain ⟨hl2, hp2, hf2⟩ := int32_ok st1 b st2 h0
    refine ⟨hl2.trans hl1, by omega, fun j hj => ?_⟩
    rw [hf2 j (by omega), hf1 j (by omega)]
  match v with
  | .long low high u => exact comp (some low) (some high) st h
  | .bool b => exact comp none none st h
  | .str us => exact comp none none st h
  | .bytes d => exact comp none none st h
  | .obj fs => exact comp none none st h
  | .arr l items => exact comp none none st h

/-- Every successful dispatched write preserves the buffer length,
never moves the cursor backwards, and touches only bytes from the old
cursor to the new one. -/
theorem callW_ok (t : String) (v : JsVal) (st : WSt) (st2 : WSt)
    (h : callW t v st = .ok st2) :
    st2.buf.length = st.buf.length ∧ st.pos ≤ st2.pos ∧
    ∀ j, j < st.pos ∨ st2.pos ≤ j → bufGet st2.buf j = bufGet st.buf j := by
  unfold callW at h
  split at h
  · cases h
    obtain ⟨h1, h2, h3⟩ := byte_spec st v
    exact ⟨h1, by omega, fun j hj => h3 j (by omega)⟩
  · exact bytes_ok st v st2 h
  · obtain ⟨h1, h2, h3⟩ := uint16_ok st (toNum v) st2 h
    exact ⟨h1, by omega, fun j hj => h3 j (by omega)⟩
  · obtain ⟨h1, h2, h3⟩ := int16_ok st (toNum v) st2 h
    exact ⟨h1, by omega, fun j hj => h3 j (by omega)⟩
  · obtain ⟨h1, h2, h3⟩ := uint32_ok st (toNum v) st2 h
    exact ⟨h1, by omega, fun j hj => h3 j (by omega)⟩
  · obtain ⟨h1, h2, h3⟩ := int32_ok st (toNum v) st2 h
    exact ⟨h1, by omega, fun j hj => h3 j (by omega)⟩
  · exact uint64_ok st v st2 h
  · exact int64_ok st v st2 h
  · obtain ⟨h1, h2, h3⟩ := float_ok st v st2 h
    exact ⟨h1, by omega, fun j hj => h3 j (by omega)⟩
  · exact string_ok st v st2 h
  · cases h

/-- The back-patch idiom leaves the cursor where it was, preserves the
length, and touches only the two target bytes. -/
theorem patch16_ok (st : WSt) (target : Option Nat) (v : Option Int) (st2 : WSt)
    (h : patch16 st target v = .ok st2) :
    st2.buf.length = st.buf.length ∧ st2.pos = st.pos ∧
    ∀ j, j < target.getD 0 ∨ target.getD 0 + 2 ≤ j →
      bufGet st2.buf j = bufGet st.buf j := by
  rcases hu : Writeable.uint16 (Writeable.seek st (target.getD 0)) v with e | st1 <;>
    simp only [patch16, hu, exBind_ok, exBind_err] at h
  · cases h
  cases h
  obtain ⟨h1, h2, h3⟩ := uint16_ok _ v st1 hu
  exact ⟨h1, rfl, fun j hj => h3 j (by simpa [Writeable.seek] using hj)⟩

theorem mlook_mem (m : PosMap) (k : String) (v : Nat) (h : mlook m k = some v) :
    ∃ k2, (k2, v) ∈ m := by
  rcases hf : m.find? (fun p => p.1 == k) with _ | kv <;>
    simp only [mlook, hf, Option.map_none, Option.map_some] at h
  · cases h
  · obtain ⟨k1, v1⟩ := kv
    cases h
    exact ⟨k1, List.mem_of_find?_eq_some hf⟩

theorem mlook_mset_isSome (m : PosMap) (k k2 : String) (v : Nat)
    (h : (mlook m k2).isSome = true) : (mlook (mset m k v) k2).isSome = true := by
  simp only [mlook, mset, List.find?]
  by_cases he : (k == k2)
  · simp [he]
  · simp only [he]
    simpa [mlook] using h

theorem mlook_mset_self (m : PosMap) (k : String) (v : Nat) :
    mlook (mset m k v) k = some v := by
  simp [mlook, mset, List.find?]

theorem mset_maps4 (m : PosMap) (k : String) (v : Nat) (h4 : Maps4 m) (hv : 4 ≤ v) :
    Maps4 (mset m k v) := by
  intro kv hkv
  rcases List.mem_cons.mp hkv with h | h
  · cases h; exact hv
  · exact h4 kv h

theorem frameOut_trans (st1 st2 st3 : WSt) (h1 : FrameOut st1 st2) (h2 : FrameOut st2 st3) :
    FrameOut st1 st3 := by
  obtain ⟨a1, b1, c1⟩ := h1
  obtain ⟨a2, b2, c2⟩ := h2
  exact ⟨a2.trans a1, b1.trans b2, fun j hj => (c2 j hj).trans (c1 j hj)⟩

theorem frameWin_trans (lo hi : Nat) (st1 st2 st3 : WSt)
    (h1 : FrameWin lo hi st1 st2) (h2 : FrameWin lo hi st2 st3) :
    FrameWin lo hi st1 st3 := by
  obtain ⟨a1, b1, c1⟩ := h1
  obtain ⟨a2, b2, c2⟩ := h2
  exact ⟨a2.trans a1, b1.trans b2, fun j hl hh => (c2 j hl hh).trans (c1 j hl hh)⟩

theorem mset_mapsAvoid (lo hi : Nat) (m : PosMap) (k : String) (v : Nat)
    (h : MapsAvoid lo hi m) (hv : hi ≤ v) : MapsAvoid lo hi (mset m k v) := by
  intro kv hkv
  rcases List.mem_cons.mp hkv with hkv | hkv
  · subst hkv
    exact Or.inr hv
  · exact h kv hkv

theorem mset_mapsLe (m : PosMap) (k : String) (v p : Nat)
    (h : MapsLe m p) (hv : v + 2 ≤ p) : MapsLe (mset m k v) p := by
  intro kv hkv
  rcases List.mem_cons.mp hkv with hkv | hkv
  · subst hkv
    exact hv
  · exact h kv hkv

theorem mapsLe_mono (m : PosMap) (p q : Nat) (h : MapsLe m p) (hpq : p ≤ q) :
    MapsLe m q := fun kv hkv => le_trans (h kv hkv) hpq

/-- The element iterator always yields exactly the array length. -/
theorem iterElems_length (l : Nat) (items : List JsVal) :
    (iterElems l items).length = l := by
  simp only [iterElems]
  split
  · simp only [List.length_append, List.length_replicate]
    omega
  · simp only [List.length_take]
    omega

/-- WFk over an appended field list splits at the advanced tracking
lists. -/
theorem WFk_append (fs1 fs2 : FlatDef) : ∀ (cs os : List String) (base : String),
    WFk cs os base (fs1 ++ fs2) =
      (WFk cs os base fs1 &&
        WFk (wfkAdvance cs os base fs1).1 (wfkAdvance cs os base fs1).2 base fs2) := by
  induction fs1 with
  | nil =>
    intro cs os base
    simp [WFk, wfkAdvance]
  | cons f rest ih =>
    intro cs os base
    obtain ⟨k, t⟩ := f
    rcases t with tp | ⟨g, sub⟩
    · by_cases h1 : tp = "count"
      · simp [WFk, wfkAdvance, h1, ih]
      · by_cases h2 : tp = "offset"
        · simp [WFk, wfkAdvance, h1, h2, ih]
        · simp [WFk, wfkAdvance, h1, h2, ih]
    · cases g <;> simp [WFk, wfkAdvance, ih, Bool.and_assoc]

/-- A successful run over an appended field list splits into the two
runs. -/
theorem writeFields_append (fs1 fs2 : FlatDef) :
    ∀ (dataObj : JsVal) (base : String) (cnt ofs : PosMap) (st : WSt)
      (r : PosMap × PosMap × WSt),
      writeFields (fs1 ++ fs2) dataObj base cnt ofs st = .ok r →
      ∃ r1, writeFields fs1 dataObj base cnt ofs st = .ok r1 ∧
        writeFields fs2 dataObj base r1.1 r1.2.1 r1.2.2 = .ok r := by
  induction fs1 with
  | nil =>
    intro dataObj base cnt ofs st r h
    rw [List.nil_append] at h
    exact ⟨(cnt, ofs, st), by simp [writeFields], h⟩
  | cons f rest ih =>
    intro dataObj base cnt ofs st r h
    obtain ⟨k, t⟩ := f
    rcases h1 : writeField1 k t dataObj base cnt ofs st with e | r1 <;>
      simp only [List.cons_append, writeFields, h1, exBind_ok, exBind_err] at h ⊢
    · cases h
    exact ih dataObj base r1.1 r1.2.1 r1.2.2 r h

/-- A store inside bounds is read back. -/
theorem bufGet_set_self (b : Bytes) (i v : Nat) (h : i < b.length) :
    bufGet (bufSet b i v) i = v := by
  induction b generalizing i with
  | nil => simp at h
  | cons a bs ih =>
    cases i with
    | zero => rfl
    | succ n => simpa [bufGet, bufSet, List.getD_cons_succ] using ih n (by simpa using h)

/-- A multi-byte store inside bounds is read back bytewise. -/
theorem writeBytesAt_get_at (vs : List Nat) (b : Bytes) (i j : Nat)
    (hj : j < vs.length) (hlen : i + vs.length ≤ b.length) :
    bufGet (writeBytesAt b i vs) (i + j) = vs.getD j 0 := by
  induction vs generalizing b i j with
  | nil => simp at hj
  | cons v rest ih =>
    cases j with
    | zero =>
      simp only [writeBytesAt, Nat.add_zero]
      rw [writeBytesAt_get_outside rest (bufSet b i v) (i + 1) i (by omega)]
      simp only [List.getD_cons_zero]
      exact bufGet_set_self b i v (by simp at hlen; omega)
    | succ m =>
      simp only [writeBytesAt]
      have hstep : i + (m + 1) = (i + 1) + m := by omega
      rw [hstep, ih (bufSet b i v) (i + 1) m (by simpa using hj)
        (by simp only [bufSet, List.length_set]; simp at hlen; omega)]
      simp [List.getD_cons_succ]

/-- Reading two little-endian bytes, unfolded. -/
theorem leRead_two (b : Bytes) (i : Nat) :
    leRead b i 2 = bufGet b i + 256 * bufGet b (i + 1) := by
  simp [leRead]

/-- A successful uint16 write stores the value little-endian at the
cursor and leaves everything else alone. -/
theorem uint16_read_back (st : WSt) (v : Int) (st2 : WSt)
    (h : Writeable.uint16 st (some v) = .ok st2) (h0 : 0 ≤ v) :
    st2.pos = st.pos + 2 ∧ st2.buf.length = st.buf.length ∧
    v ≤ 0xFFFF ∧ st.pos + 2 ≤ st.buf.length ∧
    leRead st2.buf st.pos 2 = v.toNat ∧
    (∀ j, j < st.pos ∨ st.pos + 2 ≤ j → bufGet st2.buf j = bufGet st.buf j) := by
  simp only [Writeable.uint16, Writeable.checkedWrite] at h
  split at h
  · cases h
  split at h
  · cases h
  rename_i hrange hlen
  cases h
  have hhi : v ≤ 0xFFFF := by omega
  have hmod : (v % 2 ^ (8 * 2)).toNat = v.toNat := by
    have he : (2 : Int) ^ (8 * 2) = 65536 := by norm_num
    rw [he, Int.emod_eq_of_lt h0 (by omega)]
  simp only [hmod]
  have hvlt : v.toNat < 65536 := by omega
  refine ⟨by trivial, writeBytesAt_length _ _ _, hhi, by omega, ?_, ?_⟩
  · rw [leRead_two]
    have e0 := writeBytesAt_get_at (leBytes 2 v.toNat) st.buf st.pos 0
      (by rw [leBytes_length]; omega) (by rw [leBytes_length]; omega)
    have e1 := writeBytesAt_get_at (leBytes 2 v.toNat) st.buf st.pos 1
      (by rw [leBytes_length]; omega) (by rw [leBytes_length]; omega)
    rw [Nat.add_zero] at e0
    have hlb : leBytes 2 v.toNat = [v.toNat % 256, v.toNat / 256 % 256] := rfl
    rw [e0, e1, hlb]
    simp only [List.getD_cons_zero, List.getD_cons_succ]
    omega
  · intro j hj
    exact writeBytesAt_get_outside _ _ _ _ (by rw [leBytes_length]; omega)

theorem leRead_two_congr (b1 b2 : Bytes) (i : Nat)
    (h0 : bufGet b1 i = bufGet b2 i) (h1 : bufGet b1 (i + 1) = bufGet b2 (i + 1)) :
    leRead b1 i 2 = leRead b2 i 2 := by
  rw [leRead_two, leRead_two, h0, h1]

/-- A successful back-patch stores the value little-endian at the
target cell, restores the cursor and leaves everything else alone. -/
theorem patch16_read_back (st : WSt) (t : Nat) (v : Int) (st2 : WSt)
    (h : patch16 st (some t) (some v) = .ok st2) (h0 : 0 ≤ v) :
    st2.pos = st.pos ∧ st2.buf.length = st.buf.length ∧
    t + 2 ≤ st.buf.length ∧ leRead st2.buf t 2 = v.toNat ∧
    (∀ j, j < t ∨ t + 2 ≤ j → bufGet st2.buf j = bufGet st.buf j) := by
  rcases hu : Writeable.uint16 (Writeable.seek st ((some t).getD 0)) (some v) with e | st1 <;>
    simp only [patch16, hu, exBind_ok, exBind_err] at h
  · cases h
  cases h
  obtain ⟨hp, hl, hhi, hsp, hr, hf⟩ :=
    uint16_read_back (Writeable.seek st ((some t).getD 0)) v st1 hu h0
  simp only [Writeable.seek, Option.getD_some] at hp hl hsp hr hf
  exact ⟨rfl, hl, hsp, hr, fun j hj => hf j hj⟩

/-- A chain whose cells lie inside an untouched window survives. -/
theorem chainCells_of_window (lo hi : Nat) (b1 b2 : Bytes) (ps : List Nat)
    (hwin : ∀ j, lo ≤ j → j < hi → bufGet b2 j = bufGet b1 j)
    (hin : ∀ p ∈ ps, lo ≤ p ∧ p + 4 ≤ hi)
    (h : chainCells b1 ps) : chainCells b2 ps := by
  induction ps with
  | nil => simp [chainCells]
  | cons p rest ih =>
    simp only [chainCells] at h ⊢
    obtain ⟨h1, h2, h3⟩ := h
    obtain ⟨hlo, hhi⟩ := hin p (by simp)
    refine ⟨?_, ?_, ih (fun q hq => hin q (by simp [hq])) h3⟩
    · rw [leRead_two_congr b2 b1 p (hwin p (by omega) (by omega))
        (hwin (p + 1) (by omega) (by omega))]
      exact h1
    · rw [leRead_two_congr b2 b1 (p + 2) (hwin (p + 2) (by omega) (by omega))
        (hwin (p + 3) (by omega) (by omega))]
      exact h2

/-- The frame-header invariant for the encoder, by strong induction on
the definition size: a successful writeFields / writeField / element
loop preserves the buffer length, never moves the cursor backwards,
never touches the four header bytes, and only grows the placeholder
tables with positions past the header. -/
theorem writeFamily_frame (n : Nat) :
    (∀ (fields : FlatDef), sizeOf fields ≤ n →
      ∀ (dataObj : JsVal) (base : String) (cnt ofs : PosMap) (st : WSt)
        (cs os : List String) (r : PosMap × PosMap × WSt),
        writeFields fields dataObj base cnt ofs st = .ok r →
        4 ≤ st.pos → Maps4 cnt → Maps4 ofs → CoversK cs cnt → CoversK os ofs →
        WFk cs os base fields = true →
        FrameOut st r.2.2 ∧ Maps4 r.1 ∧ Maps4 r.2.1 ∧
        (∀ c, (mlook cnt c).isSome = true → (mlook r.1 c).isSome = true) ∧
        (∀ c, (mlook ofs c).isSome = true → (mlook r.2.1 c).isSome = true)) ∧
    (∀ (k : String) (t : FType), sizeOf t ≤ n →
      ∀ (dataObj : JsVal) (base : String) (cnt ofs : PosMap) (st : WSt)
        (cs os : List String) (r : PosMap × PosMap × WSt),
        writeField1 k t dataObj base cnt ofs st = .ok r →
        4 ≤ st.pos → Maps4 cnt → Maps4 ofs → CoversK cs cnt → CoversK os ofs →
        (match t with
          | .grp true sub =>
            cs.contains (keyPathOf base k) = true ∧
            os.contains (keyPathOf base k) = true ∧ WFk [] [] "" sub = true
          | .grp false sub => WFk cs os (keyPathOf base k) sub = true
          | .prim _ => True) →
        FrameOut st r.2.2 ∧ Maps4 r.1 ∧ Maps4 r.2.1 ∧
        (∀ c, (mlook cnt c).isSome = true → (mlook r.1 c).isSome = true) ∧
        (∀ c, (mlook ofs c).isSome = true → (mlook r.2.1 c).isSome = true) ∧
        (t = .prim "count" → (mlook r.1 (keyPathOf base k)).isSome = true) ∧
        (t = .prim "offset" → (mlook r.2.1 (keyPathOf base k)).isSome = true)) ∧
    (∀ (sub : FlatDef), sizeOf sub ≤ n →
      ∀ (elems : List JsVal) (last : Nat) (st st2 : WSt),
        writeElems sub elems (some last) st = .ok st2 →
        4 ≤ st.pos → 4 ≤ last → WFk [] [] "" sub = true →
        FrameOut st st2) := by
  induction n using Nat.strong_induction_on with
  | _ n IH =>
  -- the single-field statement, using the induction hypothesis for the
  -- strictly smaller subdefinitions it recurses into
  have hB : ∀ (k : String) (t : FType), sizeOf t ≤ n →
      ∀ (dataObj : JsVal) (base : String) (cnt ofs : PosMap) (st : WSt)
        (cs os : List String) (r : PosMap × PosMap × WSt),
        writeField1 k t dataObj base cnt ofs st = .ok r →
        4 ≤ st.pos → Maps4 cnt → Maps4 ofs → CoversK cs cnt → CoversK os ofs →
        (match t with
          | .grp true sub =>
            cs.contains (keyPathOf base k) = true ∧
            os.contains (keyPathOf base k) = true ∧ WFk [] [] "" sub = true
          | .grp false sub => WFk cs os (keyPathOf base k) sub = true
          | .prim _ => True) →
        FrameOut st r.2.2 ∧ Maps4 r.1 ∧ Maps4 r.2.1 ∧
        (∀ c, (mlook cnt c).isSome = true → (mlook r.1 c).isSome = true) ∧
        (∀ c, (mlook ofs c).isSome = true → (mlook r.2.1 c).isSome = true) ∧
        (t = .prim "count" → (mlook r.1 (keyPathOf base k)).isSome = true) ∧
        (t = .prim "offset" → (mlook r.2.1 (keyPathOf base k)).isSome = true) := by
    intro k t hsz dataObj base cnt ofs st cs os r h hpos h4c h4o hcc hco hwf
    rcases hv : jsGet dataObj k with _ | value
    · simp only [writeField1, hv, exBind_err] at h
      cases h
    match t, hwf with
    | .grp false sub, hwf =>
      simp only [writeField1, hv, exBind_ok] at h
      have hszsub : sizeOf sub < n := by
        have hx : sizeOf sub < sizeOf (FType.grp false sub) := by simp
        omega
      have hres := (IH (sizeOf sub) hszsub).1 sub le_rfl value (keyPathOf base k)
        cnt ofs st cs os r h hpos h4c h4o hcc hco hwf
      refine ⟨hres.1, hres.2.1, hres.2.2.1, hres.2.2.2.1, hres.2.2.2.2, ?_, ?_⟩
      · intro hx; cases hx
      · intro hx; cases hx
    | .grp true sub, hwf =>
      obtain ⟨hinc, hino, hwsub⟩ := hwf
      have hszsub : sizeOf sub < n := by
        have hx : sizeOf sub < sizeOf (FType.grp true sub) := by simp
        omega
      have hcsome : (mlook cnt (keyPathOf base k)).isSome = true :=
        hcc _ (by simpa using hinc)
      have hosome : (mlook ofs (keyPathOf base k)).isSome = true :=
        hco _ (by simpa using hino)
      rcases hclook : mlook cnt (keyPathOf base k) with _ | cpos
      · rw [hclook] at hcsome; cases hcsome
      rcases holook : mlook ofs (keyPathOf base k) with _ | opos
      · rw [holook] at hosome; cases hosome
      obtain ⟨kc, hkc⟩ := mlook_mem _ _ _ hclook
      obtain ⟨ko, hko⟩ := mlook_mem _ _ _ holook
      have hcpos4 : 4 ≤ cpos := h4c _ hkc
      have hopos4 : 4 ≤ opos := h4o _ hko
      simp only [writeField1, hv, exBind_ok] at h
      split at h
      · cases h
        refine ⟨⟨rfl, le_rfl, fun j hj => rfl⟩, h4c, h4o, fun c hc => hc, fun c hc => hc,
          ?_, ?_⟩
        · intro hx; cases hx
        · intro hx; cases hx
      · split at h
        · -- an array value
          rename_i l items htru
          split at h
          · cases h
            refine ⟨⟨rfl, le_rfl, fun j hj => rfl⟩, h4c, h4o, fun c hc => hc, fun c hc => hc,
              ?_, ?_⟩
            · intro hx; cases hx
            · intro hx; cases hx
          · rcases hpt : patch16 st (mlook cnt (keyPathOf base k)) (some (l : Int))
              with e | st1 <;> rw [hpt] at h <;> simp only [exBind_ok, exBind_err] at h
            · cases h
            rcases hel : writeElems sub (iterElems l items) (mlook ofs (keyPathOf base k)) st1
              with e | st2 <;> rw [hel] at h <;> simp only [exBind_ok, exBind_err] at h
            · cases h
            cases h
            obtain ⟨hl1, hp1, hf1⟩ := patch16_ok _ _ _ _ hpt
            rw [holook] at hel
            have hfe : FrameOut st1 st2 :=
              (IH (sizeOf sub) hszsub).2.2 sub le_rfl (iterElems l items) opos st1 st2
                hel (by omega) hopos4 hwsub
            refine ⟨?_, h4c, h4o, fun c hc => hc, fun c hc => hc, ?_, ?_⟩
            · have hfr1 : FrameOut st st1 := by
                refine ⟨hl1, by omega, fun j hj => ?_⟩
                exact hf1 j (by rw [hclook]; simp; omega)
              exact frameOut_trans _ _ _ hfr1 hfe
            · intro hx; cases hx
            · intro hx; cases hx
        · -- a truthy non-array value
          split at h
          · cases h
            refine ⟨⟨rfl, le_rfl, fun j hj => rfl⟩, h4c, h4o, fun c hc => hc, fun c hc => hc,
              ?_, ?_⟩
            · intro hx; cases hx
            · intro hx; cases hx
          · rcases hpt : patch16 st (mlook cnt (keyPathOf base k))
                ((jsLengthOpt value).map (fun l => (l : Int))) with e | st1 <;>
              rw [hpt] at h <;> simp only [exBind_ok, exBind_err] at h
            · cases h
            · split at h <;> cases h
    | .prim tp, hwf =>
      by_cases ht1 : tp = "count"
      · simp only [writeField1, hv, exBind_ok, if_pos ht1] at h
        subst ht1
        rcases hu : Writeable.uint16 st (some 0) with e | st1 <;>
          rw [hu] at h <;> simp only [exBind_ok, exBind_err] at h
        · cases h
        cases h
        obtain ⟨hl1, hp1, hf1⟩ := uint16_ok _ _ _ hu
        refine ⟨show FrameOut st st1 from ⟨hl1, by omega, fun j hj => hf1 j (by omega)⟩,
          ?_, ?_, ?_, ?_, ?_, ?_⟩
        · exact mset_maps4 _ _ _ h4c hpos
        · exact h4o
        · exact fun c hc => mlook_mset_isSome _ _ _ _ hc
        · exact fun c hc => hc
        · intro _
          show (mlook (mset cnt (keyPathOf base k) st.pos) (keyPathOf base k)).isSome = true
          rw [mlook_mset_self]
          rfl
        · intro hx
          injection hx with hx
          exact absurd hx (by decide)
      · by_cases ht2 : tp = "offset"
        · simp only [writeField1, hv, exBind_ok, if_neg ht1, if_pos ht2] at h
          subst ht2
          rcases hu : Writeable.uint16 st (some 0) with e | st1 <;>
            rw [hu] at h <;> simp only [exBind_ok, exBind_err] at h
          · cases h
          cases h
          obtain ⟨hl1, hp1, hf1⟩ := uint16_ok _ _ _ hu
          refine ⟨show FrameOut st st1 from ⟨hl1, by omega, fun j hj => hf1 j (by omega)⟩,
            ?_, ?_, ?_, ?_, ?_, ?_⟩
          · exact h4c
          · exact mset_maps4 _ _ _ h4o hpos
          · exact fun c hc => hc
          · exact fun c hc => mlook_mset_isSome _ _ _ _ hc
          · intro hx
            injection hx with hx
            exact absurd hx (by decide)
          · intro _
            show (mlook (mset ofs (keyPathOf base k) st.pos) (keyPathOf base k)).isSome = true
            rw [mlook_mset_self]
            rfl
        · -- a plain data field: optional count and offset back-patches,
          -- then the writer for the type
          simp only [writeField1, hv, exBind_ok, if_neg ht1, if_neg ht2] at h
          rcases hcl : mlook cnt (keyPathOf base k) with _ | cpos <;>
            rw [hcl] at h <;> simp only [exBind_ok, exBind_err] at h
          · -- no count placeholder recorded for this path
            rcases hol : mlook ofs (keyPathOf base k) with _ | opos <;>
              rw [hol] at h <;> simp only [exBind_ok, exBind_err] at h
            · rcases hcw : callW tp value st with e | st3 <;>
                rw [hcw] at h <;> simp only [exBind_ok, exBind_err] at h
              · cases h
              cases h
              obtain ⟨hl3, hp3, hf3⟩ := callW_ok _ _ _ _ hcw
              refine ⟨show FrameOut st st3 from ⟨hl3, hp3, fun j hj => hf3 j (by omega)⟩,
                h4c, h4o, fun c hc => hc, fun c hc => hc, ?_, ?_⟩
              · intro hx; injection hx with hx; exact absurd hx ht1
              · intro hx; injection hx with hx; exact absurd hx ht2
            · obtain ⟨ko, hko⟩ := mlook_mem _ _ _ hol
              have ho4 : 4 ≤ opos := h4o _ hko
              rcases hpt2 : patch16 st (some opos) (some (st.pos : Int)) with e | st2 <;>
                rw [hpt2] at h <;> simp only [exBind_ok, exBind_err] at h
              · cases h
              obtain ⟨hl2, hp2, hf2⟩ := patch16_ok _ _ _ _ hpt2
              have hfr2 : FrameOut st st2 :=
                ⟨hl2, by omega, fun j hj => hf2 j (Or.inl (lt_of_lt_of_le hj ho4))⟩
              rcases hcw : callW tp value st2 with e | st3 <;>
                rw [hcw] at h <;> simp only [exBind_ok, exBind_err] at h
              · cases h
              cases h
              obtain ⟨hl3, hp3, hf3⟩ := callW_ok _ _ _ _ hcw
              have hfr3 : FrameOut st2 st3 :=
                ⟨hl3, hp3, fun j hj => hf3 j (by omega)⟩
              refine ⟨show FrameOut st st3 from frameOut_trans _ _ _ hfr2 hfr3,
                h4c, h4o, fun c hc => hc, fun c hc => hc, ?_, ?_⟩
              · intro hx; injection hx with hx; exact absurd hx ht1
              · intro hx; injection hx with hx; exact absurd hx ht2
          · -- a count placeholder exists: length back-patch first
            obtain ⟨kc, hkc⟩ := mlook_mem _ _ _ hcl
            have hc4 : 4 ≤ cpos := h4c _ hkc
            rcases hlv : lenOrThrow value with e | lv <;>
              rw [hlv] at h <;> simp only [exBind_ok, exBind_err] at h
            · cases h
            rcases hpt : patch16 st (some cpos) (lv.map (fun l => (l : Int))) with e | st1 <;>
              rw [hpt] at h <;> simp only [exBind_ok, exBind_err] at h
            · cases h
            obtain ⟨hl1, hp1, hf1⟩ := patch16_ok _ _ _ _ hpt
            have hfr1 : FrameOut st st1 :=
              ⟨hl1, by omega, fun j hj => hf1 j (Or.inl (lt_of_lt_of_le hj hc4))⟩
            rcases hol : mlook ofs (keyPathOf base k) with _ | opos <;>
              rw [hol] at h <;> simp only [exBind_ok, exBind_err] at h
            · rcases hcw : callW tp value st1 with e | st3 <;>
                rw [hcw] at h <;> simp only [exBind_ok, exBind_err] at h
              · cases h
              cases h
              obtain ⟨hl3, hp3, hf3⟩ := callW_ok _ _ _ _ hcw
              have hfr3 : FrameOut st1 st3 :=
                ⟨hl3, hp3, fun j hj => hf3 j (by omega)⟩
              refine ⟨show FrameOut st st3 from frameOut_trans _ _ _ hfr1 hfr3,
                h4c, h4o, fun c hc => hc, fun c hc => hc, ?_, ?_⟩
              · intro hx; injection hx with hx; exact absurd hx ht1
              · intro hx; injection hx with hx; exact absurd hx ht2
            · obtain ⟨ko, hko⟩ := mlook_mem _ _ _ hol
              have ho4 : 4 ≤ opos := h4o _ hko
              rcases hpt2 : patch16 st1 (some opos) (some (st1.pos : Int)) with e | st2 <;>
                rw [hpt2] at h <;> simp only [exBind_ok, exBind_err] at h
              · cases h
              obtain ⟨hl2, hp2, hf2⟩ := patch16_ok _ _ _ _ hpt2
              have hfr2 : FrameOut st1 st2 :=
                ⟨hl2, by omega, fun j hj => hf2 j (Or.inl (lt_of_lt_of_le hj ho4))⟩
              rcases hcw : callW tp value st2 with e | st3 <;>
                rw [hcw] at h <;> simp only [exBind_ok, exBind_err] at h
              · cases h
              cases h
              obtain ⟨hl3, hp3, hf3⟩ := callW_ok _ _ _ _ hcw
              have hfr3 : FrameOut st2 st3 :=
                ⟨hl3, hp3, fun j hj => hf3 j (by omega)⟩
              refine ⟨show FrameOut st st3 from
                  frameOut_trans _ _ _ (frameOut_trans _ _ _ hfr1 hfr2) hfr3,
                h4c, h4o, fun c hc => hc, fun c hc => hc, ?_, ?_⟩
              · intro hx; injection hx with hx; exact absurd hx ht1
              · intro hx; injection hx with hx; exact absurd hx ht2
  -- the field-list statement, by induction over the list
  have hA : ∀ (fields : FlatDef), sizeOf fields ≤ n →
      ∀ (dataObj : JsVal) (base : String) (cnt ofs : PosMap) (st : WSt)
        (cs os : List String) (r : PosMap × PosMap × WSt),
        writeFields fields dataObj base cnt ofs st = .ok r →
        4 ≤ st.pos → Maps4 cnt → Maps4 ofs → CoversK cs cnt → CoversK os ofs →
        WFk cs os base fields = true →
        FrameOut st r.2.2 ∧ Maps4 r.1 ∧ Maps4 r.2.1 ∧
        (∀ c, (mlook cnt c).isSome = true → (mlook r.1 c).isSome = true) ∧
        (∀ c, (mlook ofs c).isSome = true → (mlook r.2.1 c).isSome = true) := by
    intro fields
    induction fields with
    | nil =>
      intro hsz dataObj base cnt ofs st cs os r h hpos h4c h4o hcc hco hwf
      simp only [writeFields] at h
      cases h
      exact ⟨⟨rfl, le_rfl, fun j hj => rfl⟩, h4c, h4o, fun c hc => hc, fun c hc => hc⟩
    | cons f rest ihl =>
      intro hsz dataObj base cnt ofs st cs os r h hpos h4c h4o hcc hco hwf
      obtain ⟨k, t⟩ := f
      have hszt : sizeOf t ≤ n := by
        have : sizeOf t < sizeOf ((k, t) :: rest) := by simp; omega
        omega
      have hszr : sizeOf rest ≤ n := by
        have : sizeOf rest < sizeOf ((k, t) :: rest) := by simp
        omega
      rcases h1 : writeField1 k t dataObj base cnt ofs st with e | r1
      · simp only [writeFields, h1, exBind_err] at h
        cases h
      simp only [writeFields, h1, exBind_ok] at h
      match t, hwf with
      | .prim tp, hwf =>
        by_cases ht1 : tp = "count"
        · subst ht1
          simp only [WFk, if_true] at hwf
          obtain ⟨hfr1, h4c1, h4o1, hmc1, hmo1, hkc1, _⟩ :=
            hB k (.prim "count") hszt dataObj base cnt ofs st cs os r1 h1 hpos
              h4c h4o hcc hco trivial
          obtain ⟨hfr2, h4c2, h4o2, hmc2, hmo2⟩ :=
            ihl hszr dataObj base r1.1 r1.2.1 r1.2.2 (keyPathOf base k :: cs) os r h
              (by have := hfr1.2.1; omega) h4c1 h4o1
              (by
                intro c hc
                rcases List.mem_cons.mp hc with hc | hc
                · cases hc; exact hkc1 rfl
                · exact hmc1 c (hcc c hc))
              (fun c hc => hmo1 c (hco c hc)) hwf
          exact ⟨frameOut_trans _ _ _ hfr1 hfr2, h4c2, h4o2,
            fun c hc => hmc2 c (hmc1 c hc), fun c hc => hmo2 c (hmo1 c hc)⟩
        · by_cases ht2 : tp = "offset"
          · subst ht2
            simp only [WFk, ht1, if_false, if_true, if_neg, if_pos] at hwf
            obtain ⟨hfr1, h4c1, h4o1, hmc1, hmo1, _, hko1⟩ :=
              hB k (.prim "offset") hszt dataObj base cnt ofs st cs os r1 h1 hpos
                h4c h4o hcc hco trivial
            obtain ⟨hfr2, h4c2, h4o2, hmc2, hmo2⟩ :=
              ihl hszr dataObj base r1.1 r1.2.1 r1.2.2 cs (keyPathOf base k :: os) r h
                (by have := hfr1.2.1; omega) h4c1 h4o1
                (fun c hc => hmc1 c (hcc c hc))
                (by
                  intro c hc
                  rcases List.mem_cons.mp hc with hc | hc
                  · cases hc; exact hko1 rfl
                  · exact hmo1 c (hco c hc)) hwf
            exact ⟨frameOut_trans _ _ _ hfr1 hfr2, h4c2, h4o2,
              fun c hc => hmc2 c (hmc1 c hc), fun c hc => hmo2 c (hmo1 c hc)⟩
          · simp only [WFk, ht1, ht2, if_neg, if_false] at hwf
            obtain ⟨hfr1, h4c1, h4o1, hmc1, hmo1, _, _⟩ :=
              hB k (.prim tp) hszt dataObj base cnt ofs st cs os r1 h1 hpos
                h4c h4o hcc hco trivial
            obtain ⟨hfr2, h4c2, h4o2, hmc2, hmo2⟩ :=
              ihl hszr dataObj base r1.1 r1.2.1 r1.2.2 cs os r h
                (by have := hfr1.2.1; omega) h4c1 h4o1
                (fun c hc => hmc1 c (hcc c hc)) (fun c hc => hmo1 c (hco c hc)) hwf
            exact ⟨frameOut_trans _ _ _ hfr1 hfr2, h4c2, h4o2,
              fun c hc => hmc2 c (hmc1 c hc), fun c hc => hmo2 c (hmo1 c hc)⟩
      | .grp true sub, hwf =>
        simp only [WFk, Bool.and_eq_true] at hwf
        obtain ⟨⟨⟨hw1, hw2⟩, hw3⟩, hw4⟩ := hwf
        obtain ⟨hfr1, h4c1, h4o1, hmc1, hmo1, _, _⟩ :=
          hB k (.grp true sub) hszt dataObj base cnt ofs st cs os r1 h1 hpos
            h4c h4o hcc hco ⟨hw1, hw2, hw3⟩
        obtain ⟨hfr2, h4c2, h4o2, hmc2, hmo2⟩ :=
          ihl hszr dataObj base r1.1 r1.2.1 r1.2.2 cs os r h
            (by have := hfr1.2.1; omega) h4c1 h4o1
            (fun c hc => hmc1 c (hcc c hc)) (fun c hc => hmo1 c (hco c hc)) hw4
        exact ⟨frameOut_trans _ _ _ hfr1 hfr2, h4c2, h4o2,
          fun c hc => hmc2 c (hmc1 c hc), fun c hc => hmo2 c (hmo1 c hc)⟩
      | .grp false sub, hwf =>
        simp only [WFk, Bool.and_eq_true] at hwf
        obtain ⟨hw1, hw2⟩ := hwf
        obtain ⟨hfr1, h4c1, h4o1, hmc1, hmo1, _, _⟩ :=
          hB k (.grp false sub) hszt dataObj base cnt ofs st cs os r1 h1 hpos
            h4c h4o hcc hco hw1
        obtain ⟨hfr2, h4c2, h4o2, hmc2, hmo2⟩ :=
          ihl hszr dataObj base r1.1 r1.2.1 r1.2.2 cs os r h
            (by have := hfr1.2.1; omega) h4c1 h4o1
            (fun c hc => hmc1 c (hcc c hc)) (fun c hc => hmo1 c (hco c hc)) hw2
        exact ⟨frameOut_trans _ _ _ hfr1 hfr2, h4c2, h4o2,
          fun c hc => hmc2 c (hmc1 c hc), fun c hc => hmo2 c (hmo1 c hc)⟩
  -- the element-loop statement, by induction over the element list
  have hC : ∀ (sub : FlatDef), sizeOf sub ≤ n →
      ∀ (elems : List JsVal) (last : Nat) (st st2 : WSt),
        writeElems sub elems (some last) st = .ok st2 →
        4 ≤ st.pos → 4 ≤ last → WFk [] [] "" sub = true →
        FrameOut st st2 := by
    intro sub hsz elems
    induction elems with
    | nil =>
      intro last st st2 h hpos hlast hwf
      simp only [writeElems] at h
      cases h
      exact ⟨rfl, le_rfl, fun j hj => rfl⟩
    | cons e rest ihe =>
      intro last st st2 h hpos hlast hwf
      rcases hp1 : patch16 st (some last) (some (st.pos : Int)) with er | st1 <;>
        simp only [writeElems, hp1, exBind_ok, exBind_err] at h
      · cases h
      rcases hu1 : Writeable.uint16 st1 (some (st.pos : Int)) with er | stb <;>
        rw [hu1] at h <;> simp only [exBind_ok, exBind_err] at h
      · cases h
      rcases hu2 : Writeable.uint16 stb (some 0) with er | stc <;>
        rw [hu2] at h <;> simp only [exBind_ok, exBind_err] at h
      · cases h
      rcases hg : writeGroup sub e stc with er | std <;>
        rw [hg] at h <;> simp only [exBind_ok, exBind_err] at h
      · cases h
      obtain ⟨hl1, hpp1, hf1⟩ := patch16_ok _ _ _ _ hp1
      obtain ⟨hl2, hpp2, hf2⟩ := uint16_ok _ _ _ hu1
      obtain ⟨hl3, hpp3, hf3⟩ := uint16_ok _ _ _ hu2
      -- the recursive write of the element body
      rcases hgf : writeFields sub e "" [] [] stc with er | rg <;>
        simp only [writeGroup, hgf, exBind_ok, exBind_err] at hg
      · cases hg
      cases hg
      obtain ⟨hfrg, _, _, _, _⟩ :=
        hA sub hsz e "" [] [] stc [] [] rg hgf
          (by omega) (by intro kv hkv; cases hkv) (by intro kv hkv; cases hkv)
          (by intro c hc; cases hc) (by intro c hc; cases hc) hwf
      have hfre : FrameOut rg.2.2 st2 :=
        ihe stb.pos rg.2.2 st2 h (by have := hfrg.2.1; omega) (by omega) hwf
      have hfr1 : FrameOut st st1 :=
        ⟨hl1, by omega, fun j hj => hf1 j (by simp; omega)⟩
      have hfr2 : FrameOut st1 stb := ⟨hl2, by omega, fun j hj => hf2 j (by omega)⟩
      have hfr3 : FrameOut stb stc := ⟨hl3, by omega, fun j hj => hf3 j (by omega)⟩
      exact frameOut_trans _ _ _ hfr1 (frameOut_trans _ _ _ hfr2
        (frameOut_trans _ _ _ hfr3 (frameOut_trans _ _ _ hfrg hfre)))
  exact ⟨hA, hB, hC⟩

/-- The windowed frame invariant for the encoder: with every recorded
placeholder cell outside the window [lo, hi) and below the cursor, and
the cursor past the window, a successful writeFields / writeField /
element loop never touches a byte of the window, keeps the new
placeholder cells below the new cursor, and records a placeholder for
every count and offset field it passes. -/
theorem writeFamily_window (lo hi : Nat) (n : Nat) :
    (∀ (fields : FlatDef), sizeOf fields ≤ n →
      ∀ (dataObj : JsVal) (base : String) (cnt ofs : PosMap) (st : WSt)
        (cs os : List String) (r : PosMap × PosMap × WSt),
        writeFields fields dataObj base cnt ofs st = .ok r →
        hi ≤ st.pos → MapsAvoid lo hi cnt → MapsAvoid lo hi ofs →
        MapsLe cnt st.pos → MapsLe ofs st.pos →
        CoversK cs cnt → CoversK os ofs →
        WFk cs os base fields = true →
        FrameWin lo hi st r.2.2 ∧ MapsAvoid lo hi r.1 ∧ MapsAvoid lo hi r.2.1 ∧
        MapsLe r.1 r.2.2.pos ∧ MapsLe r.2.1 r.2.2.pos ∧
        (∀ c, (mlook cnt c).isSome = true → (mlook r.1 c).isSome = true) ∧
        (∀ c, (mlook ofs c).isSome = true → (mlook r.2.1 c).isSome = true) ∧
        CoversK (wfkAdvance cs os base fields).1 r.1 ∧
        CoversK (wfkAdvance cs os base fields).2 r.2.1) ∧
    (∀ (k : String) (t : FType), sizeOf t ≤ n →
      ∀ (dataObj : JsVal) (base : String) (cnt ofs : PosMap) (st : WSt)
        (cs os : List String) (r : PosMap × PosMap × WSt),
        writeField1 k t dataObj base cnt ofs st = .ok r →
        hi ≤ st.pos → MapsAvoid lo hi cnt → MapsAvoid lo hi ofs →
        MapsLe cnt st.pos → MapsLe ofs st.pos →
        CoversK cs cnt → CoversK os ofs →
        (match t with
          | .grp true sub =>
            cs.contains (keyPathOf base k) = true ∧
            os.contains (keyPathOf base k) = true ∧ WFk [] [] "" sub = true
          | .grp false sub => WFk cs os (keyPathOf base k) sub = true
          | .prim _ => True) →
        FrameWin lo hi st r.2.2 ∧ MapsAvoid lo hi r.1 ∧ MapsAvoid lo hi r.2.1 ∧
        MapsLe r.1 r.2.2.pos ∧ MapsLe r.2.1 r.2.2.pos ∧
        (∀ c, (mlook cnt c).isSome = true → (mlook r.1 c).isSome = true) ∧
        (∀ c, (mlook ofs c).isSome = true → (mlook r.2.1 c).isSome = true) ∧
        (t = .prim "count" → (mlook r.1 (keyPathOf base k)).isSome = true) ∧
        (t = .prim "offset" → (mlook r.2.1 (keyPathOf base k)).isSome = true)) ∧
    (∀ (sub : FlatDef), sizeOf sub ≤ n →
      ∀ (elems : List JsVal) (last : Nat) (st st2 : WSt),
        writeElems sub elems (some last) st = .ok st2 →
        hi ≤ st.pos → (last + 2 ≤ lo ∨ hi ≤ last) → WFk [] [] "" sub = true →
        FrameWin lo hi st st2) := by
  induction n using Nat.strong_induction_on with
  | _ n IH =>
  have hB : ∀ (k : String) (t : FType), sizeOf t ≤ n →
      ∀ (dataObj : JsVal) (base : String) (cnt ofs : PosMap) (st : WSt)
        (cs os : List String) (r : PosMap × PosMap × WSt),
        writeField1 k t dataObj base cnt ofs st = .ok r →
        hi ≤ st.pos → MapsAvoid lo hi cnt → MapsAvoid lo hi ofs →
        MapsLe cnt st.pos → MapsLe ofs st.pos →
        CoversK cs cnt → CoversK os ofs →
        (match t with
          | .grp true sub =>
            cs.contains (keyPathOf base k) = true ∧
            os.contains (keyPathOf base k) = true ∧ WFk [] [] "" sub = true
          | .grp false sub => WFk cs os (keyPathOf base k) sub = true
          | .prim _ => True) →
        FrameWin lo hi st r.2.2 ∧ MapsAvoid lo hi r.1 ∧ MapsAvoid lo hi r.2.1 ∧
        MapsLe r.1 r.2.2.pos ∧ MapsLe r.2.1 r.2.2.pos ∧
        (∀ c, (mlook cnt c).isSome = true → (mlook r.1 c).isSome = true) ∧
        (∀ c, (mlook ofs c).isSome = true → (mlook r.2.1 c).isSome = true) ∧
        (t = .prim "count" → (mlook r.1 (keyPathOf base k)).isSome = true) ∧
        (t = .prim "offset" → (mlook r.2.1 (keyPathOf base k)).isSome = true) := by
    intro k t hsz dataObj base cnt ofs st cs os r h hpos havc havo hlec hleo hcc hco hwf
    rcases hv : jsGet dataObj k with _ | value
    · simp only [writeField1, hv, exBind_err] at h
      cases h
    match t, hwf with
    | .grp false sub, hwf =>
      simp only [writeField1, hv, exBind_ok] at h
      have hszsub : sizeOf sub < n := by
        have hx : sizeOf sub < sizeOf (FType.grp false sub) := by simp
        omega
      have hres := (IH (sizeOf sub) hszsub).1 sub le_rfl value (keyPathOf base k)
        cnt ofs st cs os r h hpos havc havo hlec hleo hcc hco hwf
      refine ⟨hres.1, hres.2.1, hres.2.2.1, hres.2.2.2.1, hres.2.2.2.2.1,
        hres.2.2.2.2.2.1, hres.2.2.2.2.2.2.1, ?_, ?_⟩
      · intro hx; cases hx
      · intro hx; cases hx
    | .grp true sub, hwf =>
      obtain ⟨hinc, hino, hwsub⟩ := hwf
      have hszsub : sizeOf sub < n := by
        have hx : sizeOf sub < sizeOf (FType.grp true sub) := by simp
        omega
      have hcsome : (mlook cnt (keyPathOf base k)).isSome = true :=
        hcc _ (by simpa using hinc)
      have hosome : (mlook ofs (keyPathOf base k)).isSome = true :=
        hco _ (by simpa using hino)
      rcases hclook : mlook cnt (keyPathOf base k) with _ | cpos
      · rw [hclook] at hcsome; cases hcsome
      rcases holook : mlook ofs (keyPathOf base k) with _ | opos
      · rw [holook] at hosome; cases hosome
      obtain ⟨kc, hkc⟩ := mlook_mem _ _ _ hclook
      obtain ⟨ko, hko⟩ := mlook_mem _ _ _ holook
      have hcav : cpos + 2 ≤ lo ∨ hi ≤ cpos := havc _ hkc
      have hoav : opos + 2 ≤ lo ∨ hi ≤ opos := havo _ hko
      simp only [writeField1, hv, exBind_ok] at h
      split at h
      · cases h
        refine ⟨⟨rfl, le_rfl, fun j h1 h2 => rfl⟩, havc, havo, hlec, hleo,
          fun c hc => hc, fun c hc => hc, ?_, ?_⟩
        · intro hx; cases hx
        · intro hx; cases hx
      · split at h
        · -- an array value
          rename_i l items htru
          split at h
          · cases h
            refine ⟨⟨rfl, le_rfl, fun j h1 h2 => rfl⟩, havc, havo, hlec, hleo,
              fun c hc => hc, fun c hc => hc, ?_, ?_⟩
            · intro hx; cases hx
            · intro hx; cases hx
          · rcases hpt : patch16 st (mlook cnt (keyPathOf base k)) (some (l : Int))
              with e | st1 <;> rw [hpt] at h <;> simp only [exBind_ok, exBind_err] at h
            · cases h
            rcases hel : writeElems sub (iterElems l items) (mlook ofs (keyPathOf base k)) st1
              with e | st2 <;> rw [hel] at h <;> simp only [exBind_ok, exBind_err] at h
            · cases h
            cases h
            obtain ⟨hl1, hp1, hf1⟩ := patch16_ok _ _ _ _ hpt
            rw [holook] at hel
            have hfe : FrameWin lo hi st1 st2 :=
              (IH (sizeOf sub) hszsub).2.2 sub le_rfl (iterElems l items) opos st1 st2
                hel (by omega) hoav hwsub
            refine ⟨?_, havc, havo, ?_, ?_, fun c hc => hc, fun c hc => hc, ?_, ?_⟩
            · have hfr1 : FrameWin lo hi st st1 := by
                refine ⟨hl1, by omega, fun j h1 h2 => ?_⟩
                exact hf1 j (by rw [hclook]; simp; omega)
              exact frameWin_trans _ _ _ _ _ hfr1 hfe
            · exact mapsLe_mono _ _ st2.pos hlec (by have := hfe.2.1; omega)
            · exact mapsLe_mono _ _ st2.pos hleo (by have := hfe.2.1; omega)
            · intro hx; cases hx
            · intro hx; cases hx
        · -- a truthy non-array value
          split at h
          · cases h
            refine ⟨⟨rfl, le_rfl, fun j h1 h2 => rfl⟩, havc, havo, hlec, hleo,
              fun c hc => hc, fun c hc => hc, ?_, ?_⟩
            · intro hx; cases hx
            · intro hx; cases hx
          · rcases hpt : patch16 st (mlook cnt (keyPathOf base k))
                ((jsLengthOpt value).map (fun l => (l : Int))) with e | st1 <;>
              rw [hpt] at h <;> simp only [exBind_ok, exBind_err] at h
            · cases h
            · split at h <;> cases h
    | .prim tp, hwf =>
      by_cases ht1 : tp = "count"
      · simp only [writeField1, hv, exBind_ok, if_pos ht1] at h
        subst ht1
        rcases hu : Writeable.uint16 st (some 0) with e | st1 <;>
          rw [hu] at h <;> simp only [exBind_ok, exBind_err] at h
        · cases h
        cases h
        obtain ⟨hl1, hp1, hf1⟩ := uint16_ok _ _ _ hu
        refine ⟨show FrameWin lo hi st st1 from
            ⟨hl1, by omega, fun j h1 h2 => hf1 j (by omega)⟩,
          ?_, ?_, ?_, ?_, ?_, ?_, ?_, ?_⟩
        · exact mset_mapsAvoid _ _ _ _ _ havc hpos
        · exact havo
        · exact mset_mapsLe _ _ _ st1.pos (mapsLe_mono _ _ st1.pos hlec (by omega)) (by omega)
        · exact mapsLe_mono _ _ st1.pos hleo (by omega)
        · exact fun c hc => mlook_mset_isSome _ _ _ _ hc
        · exact fun c hc => hc
        · intro _
          show (mlook (mset cnt (keyPathOf base k) st.pos) (keyPathOf base k)).isSome = true
          rw [mlook_mset_self]
          rfl
        · intro hx
          injection hx with hx
          exact absurd hx (by decide)
      · by_cases ht2 : tp = "offset"
        · simp only [writeField1, hv, exBind_ok, if_neg ht1, if_pos ht2] at h
          subst ht2
          rcases hu : Writeable.uint16 st (some 0) with e | st1 <;>
            rw [hu] at h <;> simp only [exBind_ok, exBind_err] at h
          · cases h
          cases h
          obtain ⟨hl1, hp1, hf1⟩ := uint16_ok _ _ _ hu
          refine ⟨show FrameWin lo hi st st1 from
              ⟨hl1, by omega, fun j h1 h2 => hf1 j (by omega)⟩,
            ?_, ?_, ?_, ?_, ?_, ?_, ?_, ?_⟩
          · exact havc
          · exact mset_mapsAvoid _ _ _ _ _ havo hpos
          · exact mapsLe_mono _ _ st1.pos hlec (by omega)
          · exact mset_mapsLe _ _ _ st1.pos (mapsLe_mono _ _ st1.pos hleo (by omega)) (by omega)
          · exact fun c hc => hc
          · exact fun c hc => mlook_mset_isSome _ _ _ _ hc
          · intro hx
            injection hx with hx
            exact absurd hx (by decide)
          · intro _
            show (mlook (mset ofs (keyPathOf base k) st.pos) (keyPathOf base k)).isSome = true
            rw [mlook_mset_self]
            rfl
        · -- a plain data field
          simp only [writeField1, hv, exBind_ok, if_neg ht1, if_neg ht2] at h
          rcases hcl : mlook cnt (keyPathOf base k) with _ | cpos <;>
            rw [hcl] at h <;> simp only [exBind_ok, exBind_err] at h
          · rcases hol : mlook ofs (keyPathOf base k) with _ | opos <;>
              rw [hol] at h <;> simp only [exBind_ok, exBind_err] at h
            · rcases hcw : callW tp value st with e | st3 <;>
                rw [hcw] at h <;> simp only [exBind_ok, exBind_err] at h
              · cases h
              cases h
              obtain ⟨hl3, hp3, hf3⟩ := callW_ok _ _ _ _ hcw
              refine ⟨show FrameWin lo hi st st3 from
                  ⟨hl3, hp3, fun j h1 h2 => hf3 j (by omega)⟩,
                havc, havo, mapsLe_mono _ _ st3.pos hlec (by omega),
                mapsLe_mono _ _ st3.pos hleo (by omega),
                fun c hc => hc, fun c hc => hc, ?_, ?_⟩
              · intro hx; injection hx with hx; exact absurd hx ht1
              · intro hx; injection hx with hx; exact absurd hx ht2
            · obtain ⟨ko, hko⟩ := mlook_mem _ _ _ hol
              have hoav : opos + 2 ≤ lo ∨ hi ≤ opos := havo _ hko
              rcases hpt2 : patch16 st (some opos) (some (st.pos : Int)) with e | st2 <;>
                rw [hpt2] at h <;> simp only [exBind_ok, exBind_err] at h
              · cases h
              obtain ⟨hl2, hp2, hf2⟩ := patch16_ok _ _ _ _ hpt2
              simp only [Option.getD_some] at hf2
              have hfr2 : FrameWin lo hi st st2 :=
                ⟨hl2, by omega, fun j h1 h2 => hf2 j (by omega)⟩
              rcases hcw : callW tp value st2 with e | st3 <;>
                rw [hcw] at h <;> simp only [exBind_ok, exBind_err] at h
              · cases h
              cases h
              obtain ⟨hl3, hp3, hf3⟩ := callW_ok _ _ _ _ hcw
              have hfr3 : FrameWin lo hi st2 st3 :=
                ⟨hl3, hp3, fun j h1 h2 => hf3 j (by omega)⟩
              refine ⟨show FrameWin lo hi st st3 from frameWin_trans _ _ _ _ _ hfr2 hfr3,
                havc, havo, mapsLe_mono _ _ st3.pos hlec (by omega),
                mapsLe_mono _ _ st3.pos hleo (by omega),
                fun c hc => hc, fun c hc => hc, ?_, ?_⟩
              · intro hx; injection hx with hx; exact absurd hx ht1
              · intro hx; injection hx with hx; exact absurd hx ht2
          · obtain ⟨kc, hkc⟩ := mlook_mem _ _ _ hcl
            have hcav : cpos + 2 ≤ lo ∨ hi ≤ cpos := havc _ hkc
            rcases hlv : lenOrThrow value with e | lv <;>
              rw [hlv] at h <;> simp only [exBind_ok, exBind_err] at h
            · cases h
            rcases hpt : patch16 st (some cpos) (lv.map (fun l => (l : Int))) with e | st1 <;>
              rw [hpt] at h <;> simp only [exBind_ok, exBind_err] at h
            · cases h
            obtain ⟨hl1, hp1, hf1⟩ := patch16_ok _ _ _ _ hpt
            simp only [Option.getD_some] at hf1
            have hfr1 : FrameWin lo hi st st1 :=
              ⟨hl1, by omega, fun j h1 h2 => hf1 j (by omega)⟩
            rcases hol : mlook ofs (keyPathOf base k) with _ | opos <;>
              rw [hol] at h <;> simp only [exBind_ok, exBind_err] at h
            · rcases hcw : callW tp value st1 with e | st3 <;>
                rw [hcw] at h <;> simp only [exBind_ok, exBind_err] at h
              · cases h
              cases h
              obtain ⟨hl3, hp3, hf3⟩ := callW_ok _ _ _ _ hcw
              have hfr3 : FrameWin lo hi st1 st3 :=
                ⟨hl3, hp3, fun j h1 h2 => hf3 j (by omega)⟩
              refine ⟨show FrameWin lo hi st st3 from frameWin_trans _ _ _ _ _ hfr1 hfr3,
                havc, havo, mapsLe_mono _ _ st3.pos hlec (by omega),
                mapsLe_mono _ _ st3.pos hleo (by omega),
                fun c hc => hc, fun c hc => hc, ?_, ?_⟩
              · intro hx; injection hx with hx; exact absurd hx ht1
              · intro hx; injection hx with hx; exact absurd hx ht2
            · obtain ⟨ko, hko⟩ := mlook_mem _ _ _ hol
              have hoav : opos + 2 ≤ lo ∨ hi ≤ opos := havo _ hko
              rcases hpt2 : patch16 st1 (some opos) (some (st1.pos : Int)) with e | st2 <;>
                rw [hpt2] at h <;> simp only [exBind_ok, exBind_err] at h
              · cases h
              obtain ⟨hl2, hp2, hf2⟩ := patch16_ok _ _ _ _ hpt2
              simp only [Option.getD_some] at hf2
              have hfr2 : FrameWin lo hi st1 st2 :=
                ⟨hl2, by omega, fun j h1 h2 => hf2 j (by omega)⟩
              rcases hcw : callW tp value st2 with e | st3 <;>
                rw [hcw] at h <;> simp only [exBind_ok, exBind_err] at h
              · cases h
              cases h
              obtain ⟨hl3, hp3, hf3⟩ := callW_ok _ _ _ _ hcw
              have hfr3 : FrameWin lo hi st2 st3 :=
                ⟨hl3, hp3, fun j h1 h2 => hf3 j (by omega)⟩
              refine ⟨show FrameWin lo hi st st3 from
                  frameWin_trans _ _ _ _ _ (frameWin_trans _ _ _ _ _ hfr1 hfr2) hfr3,
                havc, havo, mapsLe_mono _ _ st3.pos hlec (by omega),
                mapsLe_mono _ _ st3.pos hleo (by omega),
                fun c hc => hc, fun c hc => hc, ?_, ?_⟩
              · intro hx; injection hx with hx; exact absurd hx ht1
              · intro hx; injection hx with hx; exact absurd hx ht2
  have hA : ∀ (fields : FlatDef), sizeOf fields ≤ n →
      ∀ (dataObj : JsVal) (base : String) (cnt ofs : PosMap) (st : WSt)
        (cs os : List String) (r : PosMap × PosMap × WSt),
        writeFields fields dataObj base cnt ofs st = .ok r →
        hi ≤ st.pos → MapsAvoid lo hi cnt → MapsAvoid lo hi ofs →
        MapsLe cnt st.pos → MapsLe ofs st.pos →
        CoversK cs cnt → CoversK os ofs →
        WFk cs os base fields = true →
        FrameWin lo hi st r.2.2 ∧ MapsAvoid lo hi r.1 ∧ MapsAvoid lo hi r.2.1 ∧
        MapsLe r.1 r.2.2.pos ∧ MapsLe r.2.1 r.2.2.pos ∧
        (∀ c, (mlook cnt c).isSome = true → (mlook r.1 c).isSome = true) ∧
        (∀ c, (mlook ofs c).isSome = true → (mlook r.2.1 c).isSome = true) ∧
        CoversK (wfkAdvance cs os base fields).1 r.1 ∧
        CoversK (wfkAdvance cs os base fields).2 r.2.1 := by
    intro fields
    induction fields with
    | nil =>
      intro hsz dataObj base cnt ofs st cs os r h hpos havc havo hlec hleo hcc hco hwf
      simp only [writeFields] at h
      cases h
      exact ⟨⟨rfl, le_rfl, fun j h1 h2 => rfl⟩, havc, havo, hlec, hleo,
        fun c hc => hc, fun c hc => hc, hcc, hco⟩
    | cons f rest ihl =>
      intro hsz dataObj base cnt ofs st cs os r h hpos havc havo hlec hleo hcc hco hwf
      obtain ⟨k, t⟩ := f
      have hszt : sizeOf t ≤ n := by
        have : sizeOf t < sizeOf ((k, t) :: rest) := by simp; omega
        omega
      have hszr : sizeOf rest ≤ n := by
        have : sizeOf rest < sizeOf ((k, t) :: rest) := by simp
        omega
      rcases h1 : writeField1 k t dataObj base cnt ofs st with e | r1
      · simp only [writeFields, h1, exBind_err] at h
        cases h
      simp only [writeFields, h1, exBind_ok] at h
      match t, hwf with
      | .prim tp, hwf =>
        by_cases ht1 : tp = "count"
        · subst ht1
          simp only [WFk, if_true] at hwf
          obtain ⟨hfr1, hac1, hao1, hlc1, hlo1, hmc1, hmo1, hkc1, -⟩ :=
            hB k (.prim "count") hszt dataObj base cnt ofs st cs os r1 h1 hpos
              havc havo hlec hleo hcc hco trivial
          obtain ⟨hfr2, hac2, hao2, hlc2, hlo2, hmc2, hmo2, hcv2, hov2⟩ :=
            ihl hszr dataObj base r1.1 r1.2.1 r1.2.2 (keyPathOf base k :: cs) os r h
              (by have := hfr1.2.1; omega) hac1 hao1 hlc1 hlo1
              (by
                intro c hc
                rcases List.mem_cons.mp hc with hc | hc
                · cases hc; exact hkc1 rfl
                · exact hmc1 c (hcc c hc))
              (fun c hc => hmo1 c (hco c hc)) hwf
          refine ⟨frameWin_trans _ _ _ _ _ hfr1 hfr2, hac2, hao2, hlc2, hlo2,
            fun c hc => hmc2 c (hmc1 c hc), fun c hc => hmo2 c (hmo1 c hc), ?_, ?_⟩
          · simpa [wfkAdvance] using hcv2
          · simpa [wfkAdvance] using hov2
        · by_cases ht2 : tp = "offset"
          · subst ht2
            simp only [WFk, ht1, if_false, if_true, if_neg, if_pos] at hwf
            obtain ⟨hfr1, hac1, hao1, hlc1, hlo1, hmc1, hmo1, -, hko1⟩ :=
              hB k (.prim "offset") hszt dataObj base cnt ofs st cs os r1 h1 hpos
                havc havo hlec hleo hcc hco trivial
            obtain ⟨hfr2, hac2, hao2, hlc2, hlo2, hmc2, hmo2, hcv2, hov2⟩ :=
              ihl hszr dataObj base r1.1 r1.2.1 r1.2.2 cs (keyPathOf base k :: os) r h
                (by have := hfr1.2.1; omega) hac1 hao1 hlc1 hlo1
                (fun c hc => hmc1 c (hcc c hc))
                (by
                  intro c hc
                  rcases List.mem_cons.mp hc with hc | hc
                  · cases hc; exact hko1 rfl
                  · exact hmo1 c (hco c hc)) hwf
            refine ⟨frameWin_trans _ _ _ _ _ hfr1 hfr2, hac2, hao2, hlc2, hlo2,
              fun c hc => hmc2 c (hmc1 c hc), fun c hc => hmo2 c (hmo1 c hc), ?_, ?_⟩
            · simpa [wfkAdvance, ht1] using hcv2
            · simpa [wfkAdvance, ht1] using hov2
          · simp only [WFk, ht1, ht2, if_neg, if_false] at hwf
            obtain ⟨hfr1, hac1, hao1, hlc1, hlo1, hmc1, hmo1, -, -⟩ :=
              hB k (.prim tp) hszt dataObj base cnt ofs st cs os r1 h1 hpos
                havc havo hlec hleo hcc hco trivial
            obtain ⟨hfr2, hac2, hao2, hlc2, hlo2, hmc2, hmo2, hcv2, hov2⟩ :=
              ihl hszr dataObj base r1.1 r1.2.1 r1.2.2 cs os r h
                (by have := hfr1.2.1; omega) hac1 hao1 hlc1 hlo1
                (fun c hc => hmc1 c (hcc c hc)) (fun c hc => hmo1 c (hco c hc)) hwf
            refine ⟨frameWin_trans _ _ _ _ _ hfr1 hfr2, hac2, hao2, hlc2, hlo2,
              fun c hc => hmc2 c (hmc1 c hc), fun c hc => hmo2 c (hmo1 c hc), ?_, ?_⟩
            · simpa [wfkAdvance, ht1, ht2] using hcv2
            · simpa [wfkAdvance, ht1, ht2] using hov2
      | .grp true sub, hwf =>
        simp only [WFk, Bool.and_eq_true] at hwf
        obtain ⟨⟨⟨hw1, hw2⟩, hw3⟩, hw4⟩ := hwf
        obtain ⟨hfr1, hac1, hao1, hlc1, hlo1, hmc1, hmo1, -, -⟩ :=
          hB k (.grp true sub) hszt dataObj base cnt ofs st cs os r1 h1 hpos
            havc havo hlec hleo hcc hco ⟨hw1, hw2, hw3⟩
        obtain ⟨hfr2, hac2, hao2, hlc2, hlo2, hmc2, hmo2, hcv2, hov2⟩ :=
          ihl hszr dataObj base r1.1 r1.2.1 r1.2.2 cs os r h
            (by have := hfr1.2.1; omega) hac1 hao1 hlc1 hlo1
            (fun c hc => hmc1 c (hcc c hc)) (fun c hc => hmo1 c (hco c hc)) hw4
        refine ⟨frameWin_trans _ _ _ _ _ hfr1 hfr2, hac2, hao2, hlc2, hlo2,
          fun c hc => hmc2 c (hmc1 c hc), fun c hc => hmo2 c (hmo1 c hc), ?_, ?_⟩
        · simpa [wfkAdvance] using hcv2
        · simpa [wfkAdvance] using hov2
      | .grp false sub, hwf =>
        simp only [WFk, Bool.and_eq_true] at hwf
        obtain ⟨hw1, hw2⟩ := hwf
        obtain ⟨hfr1, hac1, hao1, hlc1, hlo1, hmc1, hmo1, -, -⟩ :=
          hB k (.grp false sub) hszt dataObj base cnt ofs st cs os r1 h1 hpos
            havc havo hlec hleo hcc hco hw1
        obtain ⟨hfr2, hac2, hao2, hlc2, hlo2, hmc2, hmo2, hcv2, hov2⟩ :=
          ihl hszr dataObj base r1.1 r1.2.1 r1.2.2 cs os r h
            (by have := hfr1.2.1; omega) hac1 hao1 hlc1 hlo1
            (fun c hc => hmc1 c (hcc c hc)) (fun c hc => hmo1 c (hco c hc)) hw2
        refine ⟨frameWin_trans _ _ _ _ _ hfr1 hfr2, hac2, hao2, hlc2, hlo2,
          fun c hc => hmc2 c (hmc1 c hc), fun c hc => hmo2 c (hmo1 c hc), ?_, ?_⟩
        · simpa [wfkAdvance] using hcv2
        · simpa [wfkAdvance] using hov2
  have hC : ∀ (sub : FlatDef), sizeOf sub ≤ n →
      ∀ (elems : List JsVal) (last : Nat) (st st2 : WSt),
        writeElems sub elems (some last) st = .ok st2 →
        hi ≤ st.pos → (last + 2 ≤ lo ∨ hi ≤ last) → WFk [] [] "" sub = true →
        FrameWin lo hi st st2 := by
    intro sub hsz elems
    induction elems with
    | nil =>
      intro last st st2 h hpos hlast hwf
      simp only [writeElems] at h
      cases h
      exact ⟨rfl, le_rfl, fun j h1 h2 => rfl⟩
    | cons e rest ihe =>
      intro last st st2 h hpos hlast hwf
      rcases hp1 : patch16 st (some last) (some (st.pos : Int)) with er | st1 <;>
        simp only [writeElems, hp1, exBind_ok, exBind_err] at h
      · cases h
      rcases hu1 : Writeable.uint16 st1 (some (st.pos : Int)) with er | stb <;>
        rw [hu1] at h <;> simp only [exBind_ok, exBind_err] at h
      · cases h
      rcases hu2 : Writeable.uint16 stb (some 0) with er | stc <;>
        rw [hu2] at h <;> simp only [exBind_ok, exBind_err] at h
      · cases h
      rcases hg : writeGroup sub e stc with er | std <;>
        rw [hg] at h <;> simp only [exBind_ok, exBind_err] at h
      · cases h
      obtain ⟨hl1, hpp1, hf1⟩ := patch16_ok _ _ _ _ hp1
      simp only [Option.getD_some] at hf1
      obtain ⟨hl2, hpp2, hf2⟩ := uint16_ok _ _ _ hu1
      obtain ⟨hl3, hpp3, hf3⟩ := uint16_ok _ _ _ hu2
      rcases hgf : writeFields sub e "" [] [] stc with er | rg <;>
        simp only [writeGroup, hgf, exBind_ok, exBind_err] at hg
      · cases hg
      cases hg
      obtain ⟨hfrg, -, -, -, -, -, -, -, -⟩ :=
        hA sub hsz e "" [] [] stc [] [] rg hgf
          (by omega) (by intro kv hkv; cases hkv) (by intro kv hkv; cases hkv)
          (by intro kv hkv; cases hkv) (by intro kv hkv; cases hkv)
          (by intro c hc; cases hc) (by intro c hc; cases hc) hwf
      have hfre : FrameWin lo hi rg.2.2 st2 :=
        ihe stb.pos rg.2.2 st2 h (by have := hfrg.2.1; omega) (Or.inr (by omega)) hwf
      have hfr1 : FrameWin lo hi st st1 :=
        ⟨hl1, by omega, fun j h1 h2 => hf1 j (by omega)⟩
      have hfr2 : FrameWin lo hi st1 stb :=
        ⟨hl2, by omega, fun j h1 h2 => hf2 j (by omega)⟩
      have hfr3 : FrameWin lo hi stb stc :=
        ⟨hl3, by omega, fun j h1 h2 => hf3 j (by omega)⟩
      exact frameWin_trans _ _ _ _ _ hfr1 (frameWin_trans _ _ _ _ _ hfr2
        (frameWin_trans _ _ _ _ _ hfr3 (frameWin_trans _ _ _ _ _ hfrg hfre)))
  exact ⟨hA, hB, hC⟩

/-- The element loop writes a consistent self-pointer chain: each
element starts with its own absolute position as the here word, the
next word holds the following element's start (0 for the last), and
the incoming pointer cell receives the first element's start. -/
theorem writeElems_chain (sub : FlatDef) (hwf : WFk [] [] "" sub = true) :
    ∀ (elems : List JsVal) (last : Nat) (st st2 : WSt),
      writeElems sub elems (some last) st = .ok st2 →
      last + 2 ≤ st.pos →
      ∃ ps : List Nat,
        ps.length = elems.length ∧
        (∀ p ∈ ps, st.pos ≤ p ∧ p + 4 ≤ st2.pos) ∧
        chainCells st2.buf ps ∧
        leRead st2.buf last 2 =
          (match ps with | [] => leRead st.buf last 2 | p :: _ => p) ∧
        st2.buf.length = st.buf.length ∧ st.pos ≤ st2.pos := by
  intro elems
  induction elems with
  | nil =>
    intro last st st2 h hlast
    simp only [writeElems] at h
    cases h
    refine ⟨[], rfl, ?_, ?_, ?_, rfl, le_rfl⟩
    · intro p hp
      cases hp
    · simp [chainCells]
    · rfl
  | cons e rest ihe =>
    intro last st st2 h hlast
    rcases hp1 : patch16 st (some last) (some (st.pos : Int)) with er | st1 <;>
      simp only [writeElems, hp1, exBind_ok, exBind_err] at h
    · cases h
    rcases hu1 : Writeable.uint16 st1 (some (st.pos : Int)) with er | stb <;>
      rw [hu1] at h <;> simp only [exBind_ok, exBind_err] at h
    · cases h
    rcases hu2 : Writeable.uint16 stb (some 0) with er | stc <;>
      rw [hu2] at h <;> simp only [exBind_ok, exBind_err] at h
    · cases h
    rcases hg : writeGroup sub e stc with er | std <;>
      rw [hg] at h <;> simp only [exBind_ok, exBind_err] at h
    · cases h
    obtain ⟨hpb1, hlb1, hblen1, hrd1, hfr1⟩ :=
      patch16_read_back st last _ st1 hp1 (Int.natCast_nonneg _)
    obtain ⟨hpb2, hlb2, hhi2, hsp2, hrd2, hfr2⟩ :=
      uint16_read_back st1 _ stb hu1 (Int.natCast_nonneg _)
    obtain ⟨hpb3, hlb3, hhi3, hsp3, hrd3, hfr3⟩ :=
      uint16_read_back stb 0 stc hu2 (by omega)
    have hrd1a : leRead st1.buf last 2 = st.pos := by simpa using hrd1
    have hrd2a : leRead stb.buf st.pos 2 = st.pos := by
      rw [hpb1] at hrd2
      simpa using hrd2
    have hrd3a : leRead stc.buf (st.pos + 2) 2 = 0 := by
      rw [hpb2, hpb1] at hrd3
      simpa using hrd3
    rcases hgf : writeFields sub e "" [] [] stc with er | rg <;>
      simp only [writeGroup, hgf, exBind_ok, exBind_err] at hg
    · cases hg
    cases hg
    obtain ⟨hfrg, -, -, -, -, -, -, -, -⟩ :=
      (writeFamily_window 0 stc.pos (sizeOf sub)).1 sub le_rfl e "" [] [] stc [] [] rg hgf
        le_rfl (by intro kv hkv; cases hkv) (by intro kv hkv; cases hkv)
        (by intro kv hkv; cases hkv) (by intro kv hkv; cases hkv)
        (by intro c hc; cases hc) (by intro c hc; cases hc) hwf
    obtain ⟨ps', hlen', hin', hchain', hlink', hblen', hmono'⟩ :=
      ihe stb.pos rg.2.2 st2 h (by have := hfrg.2.1; omega)
    have hwrest : FrameWin 0 (st.pos + 2) rg.2.2 st2 :=
      (writeFamily_window 0 (st.pos + 2) (sizeOf sub)).2.2 sub le_rfl rest stb.pos
        rg.2.2 st2 h (by have := hfrg.2.1; omega) (Or.inr (by omega)) hwf
    have hgp : stc.pos ≤ rg.2.2.pos := hfrg.2.1
    -- the here cell of this element, read back through the later writes
    have hC1 : leRead st2.buf st.pos 2 = st.pos := by
      rw [leRead_two_congr st2.buf rg.2.2.buf st.pos
          (hwrest.2.2 st.pos (by omega) (by omega))
          (hwrest.2.2 (st.pos + 1) (by omega) (by omega)),
        leRead_two_congr rg.2.2.buf stc.buf st.pos
          (hfrg.2.2 st.pos (by omega) (by omega))
          (hfrg.2.2 (st.pos + 1) (by omega) (by omega)),
        leRead_two_congr stc.buf stb.buf st.pos
          (hfr3 st.pos (by omega)) (hfr3 (st.pos + 1) (by omega))]
      exact hrd2a
    -- the incoming pointer cell, read back through the later writes
    have hC0 : leRead st2.buf last 2 = st.pos := by
      rw [leRead_two_congr st2.buf rg.2.2.buf last
          (hwrest.2.2 last (by omega) (by omega))
          (hwrest.2.2 (last + 1) (by omega) (by omega)),
        leRead_two_congr rg.2.2.buf stc.buf last
          (hfrg.2.2 last (by omega) (by omega))
          (hfrg.2.2 (last + 1) (by omega) (by omega)),
        leRead_two_congr stc.buf stb.buf last
          (hfr3 last (by omega)) (hfr3 (last + 1) (by omega)),
        leRead_two_congr stb.buf st1.buf last
          (hfr2 last (by omega)) (hfr2 (last + 1) (by omega))]
      exact hrd1a
    have hfl : rg.2.2.buf.length = stc.buf.length := hfrg.1
    refine ⟨st.pos :: ps', by simpa using hlen', ?_, ?_, ?_, by omega, by omega⟩
    · intro p hp
      rcases List.mem_cons.mp hp with hp | hp
      · subst hp
        exact ⟨le_rfl, by omega⟩
      · obtain ⟨hp1x, hp2x⟩ := hin' p hp
      -- moved bound: the tail elements start past this element's header
        exact ⟨by omega, hp2x⟩
    · simp only [chainCells]
      refine ⟨hC1, ?_, hchain'⟩
      rcases ps' with _ | ⟨p0, ps''⟩
      · rw [hpb2, hpb1] at hlink'
        rw [hlink']
        rw [leRead_two_congr rg.2.2.buf stc.buf (st.pos + 2)
          (hfrg.2.2 (st.pos + 2) (by omega) (by omega))
          (hfrg.2.2 (st.pos + 3) (by omega) (by omega))]
        exact hrd3a
      · rw [hpb2, hpb1] at hlink'
        exact hlink'
    · exact hC0

/-- C2: a successful top-level write with no caller-supplied writer
(over a schema with the loader's meta placement) returns a buffer
whose byte length is exactly 4 + getLength(definition, data) and whose
first two little-endian uint16 words are that total length and the
resolved opcode. -/
theorem write_frame_header (definition : FlatDef) (c : Int) (data : JsVal) (buf : Bytes)
    (hwf : WFk [] [] "" definition = true)
    (h : writeTop definition (some c) data = .ok buf) :
    ∃ L, getLength definition (if jsTruthy data then data else .obj []) = .ok L ∧
      buf.length = 4 + L ∧ 4 + L ≤ 0xFFFF ∧
      leRead buf 0 2 = 4 + L ∧ 0 ≤ c ∧ leRead buf 2 2 = c.toNat := by
  simp only [writeTop] at h
  by_cases hc : c < 0
  · rw [if_pos hc] at h
    cases h
  rw [if_neg hc] at h
  generalize hd : (if jsTruthy data then data else JsVal.obj []) = d at h ⊢
  rcases hL : getLength definition d with e | L <;> rw [hL] at h <;>
    simp only [exBind_ok, exBind_err] at h
  · cases h
  rcases h1 : Writeable.uint16 ⟨List.replicate (4 + L) 0, 0⟩ (some ((4 + L : Nat) : Int))
    with e | st1 <;> rw [h1] at h <;> simp only [exBind_ok, exBind_err] at h
  · cases h
  obtain ⟨hp1, hl1, hle1, hsp1, hr1, hf1⟩ :=
    uint16_read_back _ _ _ h1 (Int.natCast_nonneg _)
  have hp1' : st1.pos = 2 := by simpa using hp1
  have hl1' : st1.buf.length = 4 + L := by simpa using hl1
  have hle1' : 4 + L ≤ 0xFFFF := by exact_mod_cast hle1
  have hr1' : leRead st1.buf 0 2 = 4 + L := by simpa using hr1
  rcases h2 : Writeable.uint16 st1 (some c) with e | st2 <;> rw [h2] at h <;>
    simp only [exBind_ok, exBind_err] at h
  · cases h
  obtain ⟨hp2, hl2, hle2, hsp2, hr2, hf2⟩ := uint16_read_back _ _ _ h2 (by omega)
  rcases h3 : writeGroup definition d st2 with e | st3 <;> rw [h3] at h <;>
    simp only [exBind_ok, exBind_err] at h
  · cases h
  cases h
  rcases h4 : writeFields definition d "" [] [] st2 with e | r <;>
    simp only [writeGroup, h4, exBind_ok, exBind_err] at h3
  · cases h3
  cases h3
  obtain ⟨hfr, -, -, -, -⟩ :=
    (writeFamily_frame (sizeOf definition)).1 definition le_rfl d "" [] [] st2 [] [] r h4
      (by omega) (by intro kv hkv; cases hkv) (by intro kv hkv; cases hkv)
      (by intro x hx; cases hx) (by intro x hx; cases hx) hwf
  refine ⟨L, rfl, ?_, hle1', ?_, by omega, ?_⟩
  · rw [hfr.1, hl2, hl1']
  · rw [leRead_two, hfr.2.2 0 (by omega), hfr.2.2 1 (by omega),
      hf2 0 (Or.inl (by omega)), hf2 1 (Or.inl (by omega)), ← leRead_two]
    exact hr1'
  · rw [leRead_two, hfr.2.2 2 (by omega), hfr.2.2 3 (by omega), ← leRead_two]
    rw [hp1'] at hr2
    exact hr2

/-- Witness: the frame facts of write_frame_header hold concretely for
a one-uint16-field schema at opcode 24 over the empty record. -/
theorem write_frame_header_witness :
    ∃ L, getLength [("x", FType.prim "uint16")]
        (if jsTruthy (JsVal.obj []) then JsVal.obj [] else JsVal.obj []) = .ok L ∧
      ([6, 0, 24, 0, 0, 0] : Bytes).length = 4 + L ∧ 4 + L ≤ 0xFFFF ∧
      leRead [6, 0, 24, 0, 0, 0] 0 2 = 4 + L ∧ 0 ≤ (24 : Int) ∧
      leRead [6, 0, 24, 0, 0, 0] 2 2 = (24 : Int).toNat :=
  write_frame_header [("x", FType.prim "uint16")] 24 (JsVal.obj []) [6, 0, 24, 0, 0, 0]
    (by simp [WFk])
    (by simp [writeTop, writeGroup, writeFields, writeField1, getLength, getLengthFields,
      getLengthField, jsGet, SIZES, normData, lenOrThrow, Writeable.uint16,
      Writeable.checkedWrite, callW, toNum, mlook, keyPathOf, writeBytesAt, bufSet, leBytes,
      jsTruthy, List.replicate, List.set, exBind_ok, exBind_err])

/-- Spec meta contributions distribute over field-list append. -/
theorem specMetaList_append (p : List String) (xs ys : List (String × BType)) :
    specMetaList p (xs ++ ys) = specMetaList p xs ++ specMetaList p ys := by
  induction xs with
  | nil => simp [specMetaList]
  | cons x rest ih =>
    obtain ⟨k, t⟩ := x
    simp [specMetaList, ih]

/-- One pending frame contributes exactly what its closed form would
contribute as a field. -/
theorem SubPend_one (g : Frame) (path : List String) :
    SubPend [g] path = specMetaFor path g.name (.grp g.gt g.meta g.fields) := by
  by_cases hg : g.gt = "object" <;> simp [SubPend, specMetaFor, hg]

/-- Closing the innermost open frame into its parent does not change
the pending contributions seen below. -/
theorem SubPend_close (C : List Frame) (f p : Frame) (path : List String) :
    SubPend (C ++ [p, f]) path = SubPend (C ++ [closeFrame f p]) path := by
  induction C generalizing path with
  | nil =>
    by_cases hp : p.gt = "object"
    · simp only [List.nil_append]
      simp [SubPend, closeFrame, hp, specMetaList_append, specMetaList]
      by_cases hf : f.gt = "object" <;> simp [specMetaFor, hf]
    · simp [SubPend, closeFrame, hp]
  | cons g C ih =>
    by_cases hg : g.gt = "object"
    · simp [SubPend, hg, ih]
    · simp [SubPend, hg]

/-- Pending contributions are blocked at a non-object frame: nothing
past it matters. -/
theorem SubPend_congr_nonobj (C : List Frame) (g g2 : Frame) (A A2 : List Frame)
    (path : List String) (hn : g.name = g2.name) (hg : g.gt = g2.gt)
    (hno : ¬ g.gt = "object") :
    SubPend (C ++ g :: A) path = SubPend (C ++ g2 :: A2) path := by
  induction C generalizing path with
  | nil =>
    rw [List.nil_append, List.nil_append]
    simp only [SubPend, if_neg hno, if_neg (hg ▸ hno)]
    rw [hn, hg]
  | cons c C ih =>
    by_cases hc : c.gt = "object"
    · simp [SubPend, hc, ih]
    · simp [SubPend, hc]

/-- Any change past a non-object frame of the chain is invisible. -/
theorem SubPend_eq_of_blocked (C : List Frame) (A A2 : List Frame) (path : List String)
    (h : ∃ g ∈ C, ¬ g.gt = "object") :
    SubPend (C ++ A) path = SubPend (C ++ A2) path := by
  obtain ⟨g, hmem, hg⟩ := h
  obtain ⟨C1, C2, rfl⟩ := List.append_of_mem hmem
  have := SubPend_congr_nonobj C1 g g (C2 ++ A) (C2 ++ A2) path rfl rfl hg
  simpa [List.append_assoc] using this

/-- Appending a field to the innermost frame of an all-object chain
adds exactly that field's spec contribution at the joined path. -/
theorem SubPend_app_obj (C : List Frame) (f : Frame) (key : String) (t : BType)
    (path : List String) (hobj : ∀ g ∈ C ++ [f], g.gt = "object") :
    SubPend (C ++ [{ f with fields := f.fields ++ [(key, t)] }]) path =
      SubPend (C ++ [f]) path ++
        specMetaFor (path ++ (C ++ [f]).map Frame.name) key t := by
  induction C generalizing path with
  | nil =>
    have hf : f.gt = "object" := hobj f (by simp)
    simp [SubPend, hf, specMetaList_append, specMetaList]
  | cons g C ih =>
    have hg : g.gt = "object" := hobj g (by simp)
    have hrest : ∀ g2 ∈ C ++ [f], g2.gt = "object" := by
      intro g2 hg2
      exact hobj g2 (by simp at hg2 ⊢; tauto)
    have hih := ih (path ++ [g.name]) hrest
    simp only [List.cons_append, SubPend, hg, if_pos, List.append_eq]
    rw [hih]
    simp [List.append_assoc]

/-- Appending a field to the innermost frame of a chain holding a
non-object frame changes no pending contribution. -/
theorem SubPend_app_nonobj (C : List Frame) (f : Frame) (key : String) (t : BType)
    (path : List String) (hnb : ¬ ∀ g ∈ C ++ [f], g.gt = "object") :
    SubPend (C ++ [{ f with fields := f.fields ++ [(key, t)] }]) path =
      SubPend (C ++ [f]) path := by
  push_neg at hnb
  obtain ⟨g, hmem, hg⟩ := hnb
  rcases List.mem_append.mp hmem with hC | hf0
  · exact SubPend_eq_of_blocked C _ _ path ⟨g, hC, hg⟩
  · have hgf : g = f := by simpa using hf0
    subst hgf
    have := SubPend_congr_nonobj C g { g with fields := g.fields ++ [(key, t)] } [] [] path
      rfl rfl hg
    simpa using this.symm

/-- Meta well-formedness of a field list extended by one field. -/
theorem MetaOKL_append (xs : List (String × BType)) (k : String) (t : BType) :
    MetaOKL (xs ++ [(k, t)]) ↔ MetaOKL xs ∧ MetaOKT t := by
  induction xs with
  | nil => simp [MetaOKL]
  | cons x rest ih =>
    obtain ⟨k2, t2⟩ := x
    simp [MetaOKL, ih, and_assoc]

/-- A list with a known last element splits off that element. -/
theorem getLast_decomp {α : Type _} (l : List α) (x : α) (h : l.getLast? = some x) :
    l.dropLast ++ [x] = l := by
  induction l with
  | nil => cases h
  | cons a t ih =>
    cases t with
    | nil =>
      simp only [List.getLast?_singleton, Option.some.injEq] at h
      simp [h]
    | cons b t2 =>
      rw [List.getLast?_cons_cons] at h
      have := ih h
      simp only [List.dropLast_cons₂, List.cons_append, this]

/-- Replacing the ancestor chain by one with the same pending
contributions preserves the invariant of everything below. -/
theorem stackInvAux_mono (s : List Frame) :
    ∀ (a1 a2 : List Frame),
      (∀ C path, SubPend (C ++ a1) path = SubPend (C ++ a2) path) →
      StackInvAux a1 s → StackInvAux a2 s := by
  induction s with
  | nil =>
    intro a1 a2 h hs
    trivial
  | cons f rest ih =>
    intro a1 a2 h hs
    simp only [StackInvAux] at hs ⊢
    obtain ⟨⟨hm, hok⟩, h2⟩ := hs
    refine ⟨⟨?_, hok⟩, ih (f :: a1) (f :: a2) (fun C path => by
      have := h (C ++ [f]) path
      simpa [List.append_assoc] using this) h2⟩
    by_cases hf : f.gt = "object"
    · simpa [hf] using hm
    · simp only [if_neg hf] at hm ⊢
      rw [hm]
      have := h [] []
      simp only [List.nil_append] at this
      rw [this]

/-- Closing the top frame into its parent preserves the invariant. -/
theorem closeTop_inv (f p : Frame) (rest : List Frame)
    (h : StackInv (f :: p :: rest)) : StackInv (closeFrame f p :: rest) := by
  simp only [StackInv, StackInvAux] at h ⊢
  obtain ⟨⟨hmf, hokf⟩, ⟨hmp, hokp⟩, hrest⟩ := h
  have hclosedOK : MetaOKT (.grp f.gt f.meta f.fields) := by
    simp only [MetaOKT]
    refine ⟨?_, hokf⟩
    by_cases hf : f.gt = "object"
    · simpa [hf] using hmf
    · simp only [if_neg hf] at hmf ⊢
      simpa [SubPend] using hmf
  refine ⟨⟨?_, ?_⟩, ?_⟩
  · by_cases hp : p.gt = "object"
    · simpa [closeFrame, hp] using hmp
    · simp only [closeFrame, if_neg hp] at hmp ⊢
      rw [specMetaList_append, hmp, SubPend_one]
      simp [SubPend, specMetaList]
  · simp only [closeFrame]
    rw [MetaOKL_append]
    exact ⟨hokp, hclosedOK⟩
  · exact stackInvAux_mono rest [p, f] [closeFrame f p]
      (fun C path => SubPend_close C f p path) hrest

/-- popTo preserves the stack invariant. -/
theorem popTo_inv (L : Nat) : ∀ (stack : List Frame) (n : Nat), stack.length ≤ L →
    StackInv stack → StackInv (popTo stack n) := by
  induction L with
  | zero =>
    intro stack n hl h
    have he : stack = [] := List.length_eq_zero.mp (Nat.le_zero.mp hl)
    subst he
    simpa [popTo] using h
  | succ L IH =>
    intro stack n hl h
    match stack with
    | [] => simpa [popTo] using h
    | [f] => simpa [popTo] using h
    | f :: p :: rest =>
      rw [popTo]
      split
      · exact IH (closeFrame f p :: rest) n (by simp at hl ⊢; omega)
          (closeTop_inv f p rest h)
      · exact h

/-- Reopening the last appended group field of the top frame preserves
the invariant. -/
theorem descend_inv (top : Frame) (rest : List Frame) (nm gt : String)
    (meta : List (String × String)) (fields : List (String × BType))
    (hlast : top.fields.getLast? = some (nm, .grp gt meta fields))
    (h : StackInv (top :: rest)) :
    StackInv ((⟨nm, gt, meta, fields⟩ : Frame) ::
      { top with fields := top.fields.dropLast } :: rest) := by
  obtain ⟨tn, tg, tm, tf⟩ := top
  have hdec : tf.dropLast ++ [(nm, BType.grp gt meta fields)] = tf :=
    getLast_decomp tf _ hlast
  simp only [StackInv, StackInvAux] at h ⊢
  obtain ⟨⟨hmt, hokt⟩, hrest⟩ := h
  have hoksplit : MetaOKL tf.dropLast ∧ MetaOKT (.grp gt meta fields) := by
    rw [← MetaOKL_append tf.dropLast nm (.grp gt meta fields), hdec]
    exact hokt
  have hcf : closeFrame ⟨nm, gt, meta, fields⟩ ⟨tn, tg, tm, tf.dropLast⟩ =
      (⟨tn, tg, tm, tf⟩ : Frame) := by
    simp [closeFrame, hdec]
  refine ⟨⟨?_, ?_⟩, ⟨?_, hoksplit.1⟩, ?_⟩
  · have := hoksplit.2
    simp only [MetaOKT] at this
    obtain ⟨hg, hfsub⟩ := this
    by_cases hgt : gt = "object"
    · simpa [hgt] using hg
    · simp only [if_neg hgt] at hg ⊢
      simpa [SubPend] using hg
  · exact hoksplit.2.2
  · by_cases htg : tg = "object"
    · simpa [htg] using hmt
    · simp only [if_neg htg] at hmt ⊢
      rw [SubPend_one]
      simp only at hmt ⊢
      rw [← hdec] at hmt
      rw [specMetaList_append] at hmt
      simpa [SubPend, specMetaList] using hmt
  · refine stackInvAux_mono rest [⟨tn, tg, tm, tf⟩]
      [{ name := tn, gt := tg, meta := tm, fields := tf.dropLast },
        ⟨nm, gt, meta, fields⟩] (fun C path => ?_) hrest
    have := SubPend_close C (⟨nm, gt, meta, fields⟩ : Frame)
      (⟨tn, tg, tm, tf.dropLast⟩ : Frame) path
    rw [hcf] at this
    exact this.symm

/-- The walk of pushMetaTypes: starting below a chain of already
passed object frames whose joined names form the key path, the first
non-object frame absorbs the pending meta entries and the invariant is
restored for the whole transformed stack. -/
theorem pushMetaWalk_inv (mts : List String) (key0 : String) :
    ∀ (s A A2 : List Frame),
      (∀ C path, (∀ g ∈ C, g.gt = "object") →
        SubPend (C ++ A2) path = SubPend (C ++ A) path ++
          mts.map (fun mt => (dotJoin (path ++ (C ++ A).map Frame.name) key0, mt))) →
      (∀ C path, (∃ g ∈ C, ¬ g.gt = "object") →
        SubPend (C ++ A2) path = SubPend (C ++ A) path) →
      StackInvAux A s →
      StackInvAux A2 (pushMetaWalk mts s (dotJoin (A.map Frame.name) key0)) := by
  intro s
  induction s with
  | nil =>
    intro A A2 hd hb hs
    simp [pushMetaWalk, StackInvAux]
  | cons g s2 ih =>
    intro A A2 hd hb hs
    simp only [StackInvAux] at hs
    obtain ⟨⟨hm, hok⟩, hs2⟩ := hs
    by_cases hg : g.gt = "object"
    · simp only [pushMetaWalk, if_pos hg]
      have hkp : g.name ++ "." ++ dotJoin (A.map Frame.name) key0 =
          dotJoin ((g :: A).map Frame.name) key0 := by
        simp [dotJoin]
      rw [hkp]
      refine ⟨⟨?_, hok⟩, ?_⟩
      · simpa [hg] using hm
      · refine ih (g :: A) (g :: A2) (fun C path hC => ?_) (fun C path hC => ?_) hs2
        · have := hd (C ++ [g]) path (by
            intro x hx
            rcases List.mem_append.mp hx with hx | hx
            · exact hC x hx
            · simp at hx
              subst hx
              exact hg)
          simpa [List.append_assoc] using this
        · obtain ⟨x, hx, hxn⟩ := hC
          have := hb (C ++ [g]) path ⟨x, List.mem_append_left _ hx, hxn⟩
          simpa [List.append_assoc] using this
    · simp only [pushMetaWalk, if_neg hg]
      refine ⟨⟨?_, hok⟩, ?_⟩
      · simp only [if_neg hg] at hm ⊢
        show g.meta ++ mts.map (fun t => (dotJoin (A.map Frame.name) key0, t)) =
          specMetaList [] g.fields ++ SubPend A2 []
        rw [hm]
        have := hd [] [] (by intro x hx; cases hx)
        simp only [List.nil_append] at this
        rw [this]
        simp [List.append_assoc]
      · refine stackInvAux_mono s2 (g :: A)
          ({ g with meta := g.meta ++ mts.map (fun t => (dotJoin (A.map Frame.name) key0, t)) } :: A2)
          (fun C path => ?_) hs2
        exact SubPend_congr_nonobj C g _ A A2 path rfl rfl hg

/-- Writing one definition line's field (after its implicit meta push)
preserves the invariant. -/
theorem append_field_inv (s1 : List Frame) (key type : String) (top : Frame)
    (rest : List Frame) (fld : BType)
    (hfld : ∀ p, specMetaFor p key fld =
      (metaTypesOf type).map (fun mt => (dotJoin p key, mt)))
    (hfldOK : MetaOKT fld)
    (hpm : pushMeta s1 key type = top :: rest)
    (hinv : StackInv s1) :
    StackInv ({ top with fields := top.fields ++ [(key, fld)] } :: rest) := by
  match s1, hinv with
  | [], _ =>
    rcases hmt : metaTypesOf type with _ | ⟨m0, mrest⟩ <;>
      simp [pushMeta, hmt, pushMetaWalk] at hpm
  | f0 :: S, hinv =>
    simp only [StackInv, StackInvAux] at hinv
    obtain ⟨⟨hm0, hok0⟩, hS⟩ := hinv
    rcases hmt : metaTypesOf type with _ | ⟨m0, mrest⟩
    · -- no implicit meta for this type: the stack is untouched
      simp only [pushMeta, hmt] at hpm
      injection hpm with htop hrest
      subst htop
      subst hrest
      simp only [StackInv, StackInvAux]
      refine ⟨⟨?_, ?_⟩, ?_⟩
      · by_cases h0 : f0.gt = "object"
        · simpa [h0] using hm0
        · simp only [if_neg h0] at hm0 ⊢
          show f0.meta = specMetaList [] (f0.fields ++ [(key, fld)]) ++ SubPend [] []
          rw [specMetaList_append]
          simp only [SubPend] at hm0 ⊢
          simp [specMetaList, hfld [], hmt, hm0]
      · exact (MetaOKL_append _ _ _).mpr ⟨hok0, hfldOK⟩
      · refine stackInvAux_mono S [f0] [{ f0 with fields := f0.fields ++ [(key, fld)] }]
          (fun C path => ?_) hS
        by_cases hobj : ∀ g ∈ C ++ [f0], g.gt = "object"
        · rw [SubPend_app_obj C f0 key fld path hobj, hfld, hmt]
          simp
        · exact (SubPend_app_nonobj C f0 key fld path hobj).symm
    · simp only [pushMeta, hmt] at hpm
      by_cases h0 : f0.gt = "object"
      · simp only [pushMetaWalk, if_pos h0] at hpm
        injection hpm with htop hrest
        subst htop
        subst hrest
        simp only [StackInv, StackInvAux]
        refine ⟨⟨?_, (MetaOKL_append _ _ _).mpr ⟨hok0, hfldOK⟩⟩, ?_⟩
        · simpa [h0] using hm0
        · have hw := pushMetaWalk_inv (m0 :: mrest) key S [f0]
            [{ f0 with fields := f0.fields ++ [(key, fld)] }]
            (fun C path hC => by
              rw [SubPend_app_obj C f0 key fld path (by
                intro x hx
                rcases List.mem_append.mp hx with hx | hx
                · exact hC x hx
                · simp at hx
                  subst hx
                  exact h0)]
              rw [hfld, hmt])
            (fun C path hC => (SubPend_eq_of_blocked C _ _ path hC).symm) hS
          simpa [dotJoin] using hw
      · simp only [pushMetaWalk, if_neg h0] at hpm
        injection hpm with htop hrest
        subst htop
        subst hrest
        simp only [StackInv, StackInvAux]
        refine ⟨⟨?_, (MetaOKL_append _ _ _).mpr ⟨hok0, hfldOK⟩⟩, ?_⟩
        · simp only [if_neg h0] at hm0 ⊢
          show f0.meta ++ (m0 :: mrest).map (fun t => (key, t)) =
            specMetaList [] (f0.fields ++ [(key, fld)]) ++ SubPend [] []
          rw [specMetaList_append]
          simp only [SubPend] at hm0 ⊢
          have hf := hfld []
          rw [hmt] at hf
          simp [specMetaList, hf, hm0, dotJoin]
        · refine stackInvAux_mono S [f0] [_] (fun C path => ?_) hS
          exact SubPend_congr_nonobj C f0 _ [] [] path rfl rfl h0

/-- One line of the loader loop preserves the stack invariant. -/
theorem buildStep_inv (stack stack2 : List Frame) (ln : DefLine)
    (h : buildStep stack ln = .ok stack2) (hinv : StackInv stack) : StackInv stack2 := by
  have hfldOK1 : MetaOKT (.grp ln.type [] []) := by
    simp only [MetaOKT, MetaOKL]
    refine ⟨?_, trivial⟩
    split <;> simp [specMetaList]
  have hfldOK2 : MetaOKT (.prim ln.type) := by
    simp [MetaOKT]
  have hfld1 : ∀ p, specMetaFor p ln.key (.grp ln.type [] []) =
      (metaTypesOf ln.type).map (fun mt => (dotJoin p ln.key, mt)) := by
    intro p
    by_cases ho : ln.type = "object"
    · simp [specMetaFor, ho, specMetaList, metaTypesOf]
    · simp [specMetaFor, ho]
  have hfld2 : ∀ p, specMetaFor p ln.key (.prim ln.type) =
      (metaTypesOf ln.type).map (fun mt => (dotJoin p ln.key, mt)) := by
    intro p
    simp [specMetaFor]
  have step2 : ∀ (s1 : List Frame), StackInv s1 →
      (match pushMeta s1 ln.key ln.type with
        | [] => (Except.error "empty stack" : Except String (List Frame))
        | top :: rest =>
          if ln.type = "array" ∨ ln.type = "object" then
            Except.ok ({ top with fields := top.fields ++ [(ln.key, BType.grp ln.type [] [])] } :: rest)
          else
            Except.ok ({ top with fields := top.fields ++ [(ln.key, BType.prim ln.type)] } :: rest)) = .ok stack2 →
      StackInv stack2 := by
    intro s1 hinv1 h1
    rcases hpm : pushMeta s1 ln.key ln.type with _ | ⟨top1, rest1⟩ <;> rw [hpm] at h1
    · simp at h1
    by_cases harr : ln.type = "array" ∨ ln.type = "object"
    · simp only [if_pos harr] at h1
      cases h1
      exact append_field_inv s1 ln.key ln.type top1 rest1 _ hfld1 hfldOK1 hpm hinv1
    · simp only [if_neg harr] at h1
      cases h1
      exact append_field_inv s1 ln.key ln.type top1 rest1 _ hfld2 hfldOK2 hpm hinv1
  simp only [buildStep] at h
  by_cases hdep : ln.depth > stack.length - 1
  · rw [if_pos hdep] at h
    split at h
    · simp only [exBind_err] at h
      cases h
    · rename_i top rest
      split at h
      · rename_i nm gt meta fields hlast
        simp only [exBind_ok] at h
        exact step2 _ (descend_inv top rest nm gt meta fields hlast hinv) h
      · simp only [exBind_err] at h
        cases h
  · rw [if_neg hdep] at h
    simp only [exBind_ok] at h
    exact step2 (popTo stack ln.depth)
      (popTo_inv stack.length stack ln.depth le_rfl hinv) h

/-- On trees whose meta lists match the spec rule, the loader's flatten
agrees with the spec flatten, fieldwise. -/
theorem flattenBFields_spec (n : Nat) :
    ∀ fs : List (String × BType), sizeOf fs ≤ n → MetaOKL fs →
      flattenBFields fs = specFlattenFields fs := by
  induction n using Nat.strong_induction_on with
  | _ n IH =>
  intro fs hsz hok
  match fs with
  | [] => simp [flattenBFields, specFlattenFields]
  | (k, .prim t) :: rest =>
    simp only [MetaOKL] at hok
    have hr : sizeOf rest < n := by
      have : sizeOf rest < sizeOf ((k, BType.prim t) :: rest) := by simp
      omega
    simp only [flattenBFields, specFlattenFields]
    rw [IH (sizeOf rest) hr rest le_rfl hok.2]
  | (k, .grp gt m fsub) :: rest =>
    simp only [MetaOKL, MetaOKT] at hok
    obtain ⟨⟨hmm, hfsub⟩, hrest⟩ := hok
    have hr : sizeOf rest < n := by
      have : sizeOf rest < sizeOf ((k, BType.grp gt m fsub) :: rest) := by simp
      omega
    have hf : sizeOf fsub < n := by
      have : sizeOf fsub < sizeOf ((k, BType.grp gt m fsub) :: rest) := by
        simp
        omega
      omega
    simp only [flattenBFields, specFlattenFields]
    rw [IH (sizeOf rest) hr rest le_rfl hrest]
    have hhead : flattenB m fsub = specFlatten gt fsub := by
      simp only [flattenB, specFlatten]
      rw [IH (sizeOf fsub) hf fsub le_rfl hfsub]
      by_cases hgt : gt = "object"
      · rw [if_pos hgt] at hmm
        subst hmm
        simp [hgt]
      · rw [if_neg hgt] at hmm
        subst hmm
        rw [if_neg hgt]
    rw [hhead]

/-- The spec-vs-operational correspondence at one group. -/
theorem flattenB_spec (gt : String) (m : List (String × String))
    (fs : List (String × BType))
    (hm : if gt = "object" then m = [] else m = specMetaList [] fs)
    (hok : MetaOKL fs) :
    flattenB m fs = specFlatten gt fs := by
  simp only [flattenB, specFlatten]
  rw [flattenBFields_spec (sizeOf fs) fs le_rfl hok]
  by_cases hgt : gt = "object"
  · rw [if_pos hgt] at hm
    subst hm
    simp [hgt]
  · rw [if_neg hgt] at hm
    subst hm
    rw [if_neg hgt]

/-- The whole line loop preserves the stack invariant. -/
theorem buildFold_inv (lines : List DefLine) :
    ∀ (stack stack2 : List Frame),
      List.foldlM buildStep stack lines = .ok stack2 → StackInv stack →
      StackInv stack2 := by
  induction lines with
  | nil =>
    intro stack stack2 h hs
    simp only [List.foldlM_nil] at h
    cases h
    exact hs
  | cons l ls ih =>
    intro stack stack2 h hs
    rw [List.foldlM_cons] at h
    rcases hb : buildStep stack l with e | s1 <;> rw [hb] at h <;>
      simp only [exBind_ok, exBind_err] at h
    · cases h
    exact ih s1 stack2 h (buildStep_inv stack s1 l hb hs)

/-- C8: in implicit-meta mode the loader inserts, for every
variable-length field reachable from a group purely through object
nesting, meta entries into the nearest enclosing non-object group,
keyed by the field's dotted path - count then offset for an array
field, offset then count for bytes, offset only for a string - and
does so recursively: the flattened output of the tree built by the
definition-line loop coincides with the spec-worded flatten computed
from exactly that insertion rule. -/
theorem loader_meta_insertion (lines : List DefLine) (root : Frame)
    (h : buildLines lines = .ok root) :
    flattenB root.meta root.fields = specFlatten root.gt root.fields := by
  simp only [buildLines] at h
  rcases hf : List.foldlM buildStep ([⟨"", "root", [], []⟩] : List Frame) lines
    with e | stack <;> rw [hf] at h <;> simp only [exBind_ok, exBind_err] at h
  · cases h
  have hs : StackInv (popTo stack 0) :=
    popTo_inv stack.length stack 0 le_rfl
      (buildFold_inv lines _ stack hf (by
        simp [StackInv, StackInvAux, FrameInv, MetaOKL, specMetaList, SubPend]))
  split at h
  · rename_i r0 heq
    cases h
    rw [heq] at hs
    simp only [StackInv, StackInvAux] at hs
    obtain ⟨⟨hm, hok⟩, -⟩ := hs
    refine flattenB_spec root.gt root.meta root.fields ?_ hok
    by_cases hgt : root.gt = "object"
    · simpa [hgt] using hm
    · simp only [if_neg hgt] at hm ⊢
      simpa [SubPend] using hm
  · cases h

/-- Witness: a definition with an array group (count and offset at
path arr) and a string inside an object group (offset at dotted path
obj.str), through the full line loop. -/
theorem loader_meta_insertion_witness :
    buildLines [⟨0, "array", "arr"⟩, ⟨1, "int32", "int"⟩,
        ⟨0, "object", "obj"⟩, ⟨1, "string", "str"⟩] =
      .ok (⟨"", "root", [("arr", "count"), ("arr", "offset"), ("obj.str", "offset")],
        [("arr", .grp "array" [] [("int", .prim "int32")]),
         ("obj", .grp "object" [] [("str", .prim "string")])]⟩ : Frame) ∧
    flattenB
        (⟨"", "root", [("arr", "count"), ("arr", "offset"), ("obj.str", "offset")],
          [("arr", .grp "array" [] [("int", .prim "int32")]),
           ("obj", .grp "object" [] [("str", .prim "string")])]⟩ : Frame).meta
        (⟨"", "root", [("arr", "count"), ("arr", "offset"), ("obj.str", "offset")],
          [("arr", .grp "array" [] [("int", .prim "int32")]),
           ("obj", .grp "object" [] [("str", .prim "string")])]⟩ : Frame).fields =
      specFlatten
        (⟨"", "root", [("arr", "count"), ("arr", "offset"), ("obj.str", "offset")],
          [("arr", .grp "array" [] [("int", .prim "int32")]),
           ("obj", .grp "object" [] [("str", .prim "string")])]⟩ : Frame).gt
        (⟨"", "root", [("arr", "count"), ("arr", "offset"), ("obj.str", "offset")],
          [("arr", .grp "array" [] [("int", .prim "int32")]),
           ("obj", .grp "object" [] [("str", .prim "string")])]⟩ : Frame).fields := by
  have hb : buildLines [⟨0, "array", "arr"⟩, ⟨1, "int32", "int"⟩,
      ⟨0, "object", "obj"⟩, ⟨1, "string", "str"⟩] =
      .ok (⟨"", "root", [("arr", "count"), ("arr", "offset"), ("obj.str", "offset")],
        [("arr", .grp "array" [] [("int", .prim "int32")]),
         ("obj", .grp "object" [] [("str", .prim "string")])]⟩ : Frame) := by
    simp [buildLines, List.foldlM_cons, List.foldlM_nil, buildStep, popTo, pushMeta,
      pushMetaWalk, metaTypesOf, closeFrame, List.getLast?, exBind_ok, exBind_err]
  exact ⟨hb, loader_meta_insertion _ _ hb⟩

/-- C4: in a top-level write of a schema containing an array group field
(with its count/offset meta entries placed the way the loader emits
them), the element region written for that field consists of one start
position per element; every start cell holds its own offset as the
leading uint16 (here) and the following element's start, or 0 for the
last element, in the next uint16 (next); the value back-patched into the
parent's offset placeholder is the first element's start; and the whole
pointer chain survives unchanged into the returned buffer. -/
theorem write_array_selfpointers
    (pre post : FlatDef) (k : String) (sub : FlatDef) (c : Int) (data : JsVal)
    (buf : Bytes) (l : Nat) (items : List JsVal)
    (hwf : WFk [] [] "" (pre ++ (k, FType.grp true sub) :: post) = true)
    (h : writeTop (pre ++ (k, FType.grp true sub) :: post) (some c) data = .ok buf)
    (hval : jsGet (if jsTruthy data then data else JsVal.obj []) k =
      some (JsVal.arr l items))
    (hl : l ≠ 0) :
    ∃ (cnt1 ofs1 : PosMap) (stPre stMid : WSt) (opos : Nat) (ps : List Nat),
      mlook ofs1 k = some opos ∧
      writeField1 k (FType.grp true sub)
        (if jsTruthy data then data else JsVal.obj []) "" cnt1 ofs1 stPre =
        .ok (cnt1, ofs1, stMid) ∧
      ps.length = l ∧ ps ≠ [] ∧
      (∀ p ∈ ps, stPre.pos ≤ p ∧ p + 4 ≤ stMid.pos) ∧
      chainCells stMid.buf ps ∧
      leRead stMid.buf opos 2 = ps.headI ∧
      chainCells buf ps := by
  simp only [writeTop] at h
  by_cases hc : c < 0
  · rw [if_pos hc] at h
    cases h
  rw [if_neg hc] at h
  generalize hd : (if jsTruthy data then data else JsVal.obj []) = d at h hval ⊢
  rcases hL : getLength (pre ++ (k, FType.grp true sub) :: post) d with e | L <;>
    rw [hL] at h <;> simp only [exBind_ok, exBind_err] at h
  · cases h
  rcases h1 : Writeable.uint16 ⟨List.replicate (4 + L) 0, 0⟩ (some ((4 + L : Nat) : Int))
    with e | st1 <;> rw [h1] at h <;> simp only [exBind_ok, exBind_err] at h
  · cases h
  rcases h2 : Writeable.uint16 st1 (some c) with e | st2 <;> rw [h2] at h <;>
    simp only [exBind_ok, exBind_err] at h
  · cases h
  rcases h3 : writeGroup (pre ++ (k, FType.grp true sub) :: post) d st2 with e | st3 <;>
    rw [h3] at h <;> simp only [exBind_ok, exBind_err] at h
  · cases h
  cases h
  rcases h4 : writeFields (pre ++ (k, FType.grp true sub) :: post) d "" [] [] st2
    with e | r <;> simp only [writeGroup, h4, exBind_ok, exBind_err] at h3
  · cases h3
  cases h3
  obtain ⟨r1, hpre, hrest⟩ := writeFields_append pre ((k, FType.grp true sub) :: post)
    d "" [] [] st2 r h4
  rw [WFk_append, Bool.and_eq_true] at hwf
  obtain ⟨hwfPre, hwfRest⟩ := hwf
  simp only [WFk, Bool.and_eq_true] at hwfRest
  obtain ⟨⟨⟨hw1, hw2⟩, hw3⟩, hw4⟩ := hwfRest
  obtain ⟨-, -, -, hlec1, hleo1, -, -, hcadv, hoadv⟩ :=
    (writeFamily_window 0 0 (sizeOf pre)).1 pre le_rfl d "" [] [] st2 [] [] r1 hpre
      (Nat.zero_le _) (by intro kv hkv; cases hkv) (by intro kv hkv; cases hkv)
      (by intro kv hkv; cases hkv) (by intro kv hkv; cases hkv)
      (by intro x hx; cases hx) (by intro x hx; cases hx) hwfPre
  have hkp : keyPathOf "" k = k := by simp [keyPathOf]
  have hosome : (mlook r1.2.1 (keyPathOf "" k)).isSome = true :=
    hoadv _ (by simpa using hw2)
  rw [hkp] at hosome
  rcases holk : mlook r1.2.1 k with _ | opos
  · rw [holk] at hosome
    cases hosome
  obtain ⟨ko, hko⟩ := mlook_mem _ _ _ holk
  have hopos : opos + 2 ≤ r1.2.2.pos := hleo1 _ hko
  rcases h5 : writeField1 k (FType.grp true sub) d "" r1.1 r1.2.1 r1.2.2 with e | rm <;>
    simp only [writeFields, h5, exBind_ok, exBind_err] at hrest
  · cases hrest
  have h5c := h5
  simp only [writeField1, hval, exBind_ok] at h5c
  rw [hkp] at h5c
  rw [if_neg (by intro hx; exact hx rfl)] at h5c
  rw [if_neg hl] at h5c
  rcases hpt : patch16 r1.2.2 (mlook r1.1 k) (some (l : Int)) with e | stA <;>
    rw [hpt] at h5c <;> simp only [exBind_ok, exBind_err] at h5c
  · cases h5c
  rw [holk] at h5c
  rcases hel : writeElems sub (iterElems l items) (some opos) stA with e | stMid <;>
    rw [hel] at h5c <;> simp only [exBind_ok, exBind_err] at h5c
  · cases h5c
  cases h5c
  have hrest2 : writeFields post d "" r1.1 r1.2.1 stMid = .ok r := hrest
  obtain ⟨hptlen, hptpos, -⟩ := patch16_ok _ _ _ _ hpt
  obtain ⟨ps, hpsl, hpsin, hpschain, hpslink, hpslen, hpsmono⟩ :=
    writeElems_chain sub hw3 (iterElems l items) opos stA stMid hel (by omega)
  have hpsl2 : ps.length = l := by rw [hpsl, iterElems_length]
  have hlec2 : MapsLe r1.1 stMid.pos :=
    mapsLe_mono _ _ stMid.pos hlec1 (by omega)
  have hleo2 : MapsLe r1.2.1 stMid.pos :=
    mapsLe_mono _ _ stMid.pos hleo1 (by omega)
  have havc2 : MapsAvoid r1.2.2.pos stMid.pos r1.1 :=
    fun kv hkv => Or.inl (hlec1 kv hkv)
  have havo2 : MapsAvoid r1.2.2.pos stMid.pos r1.2.1 :=
    fun kv hkv => Or.inl (hleo1 kv hkv)
  obtain ⟨hfrPost, -, -, -, -, -, -, -, -⟩ :=
    (writeFamily_window r1.2.2.pos stMid.pos (sizeOf post)).1 post le_rfl d "" r1.1 r1.2.1
      stMid (wfkAdvance [] [] "" pre).1 (wfkAdvance [] [] "" pre).2 r hrest2
      le_rfl havc2 havo2 hlec2 hleo2 hcadv hoadv hw4
  have hchainBuf : chainCells r.2.2.buf ps :=
    chainCells_of_window r1.2.2.pos stMid.pos stMid.buf r.2.2.buf ps
      (fun j hj1 hj2 => hfrPost.2.2 j hj1 hj2)
      (fun p hp => ⟨by have := (hpsin p hp).1; omega, (hpsin p hp).2⟩)
      hpschain
  rcases ps with _ | ⟨p0, psr⟩
  · exact absurd (by simpa using hpsl2.symm) hl
  refine ⟨r1.1, r1.2.1, r1.2.2, stMid, opos, p0 :: psr, holk, h5, hpsl2, ?_, ?_,
    hpschain, ?_, hchainBuf⟩
  · simp
  · intro p hp
    refine ⟨?_, (hpsin p hp).2⟩
    have := (hpsin p hp).1
    omega
  · simpa [List.headI] using hpslink

/-- Witness: the self-pointer facts hold concretely for a schema with
count/offset meta entries followed by a one-element array of a single
byte field, at opcode 24. -/
theorem write_array_selfpointers_witness :
    ∃ (cnt1 ofs1 : PosMap) (stPre stMid : WSt) (opos : Nat) (ps : List Nat),
      mlook ofs1 "a" = some opos ∧
      writeField1 "a" (FType.grp true [("x", FType.prim "byte")])
        (if jsTruthy (JsVal.obj [("a", JsVal.arr 1 [JsVal.obj [("x", JsVal.num 5)]])])
          then JsVal.obj [("a", JsVal.arr 1 [JsVal.obj [("x", JsVal.num 5)]])]
          else JsVal.obj []) "" cnt1 ofs1 stPre =
        .ok (cnt1, ofs1, stMid) ∧
      ps.length = 1 ∧ ps ≠ [] ∧
      (∀ p ∈ ps, stPre.pos ≤ p ∧ p + 4 ≤ stMid.pos) ∧
      chainCells stMid.buf ps ∧
      leRead stMid.buf opos 2 = ps.headI ∧
      chainCells [13, 0, 24, 0, 1, 0, 8, 0, 8, 0, 0, 0, 5] ps :=
  write_array_selfpointers
    [("a", FType.prim "count"), ("a", FType.prim "offset")] []
    "a" [("x", FType.prim "byte")] 24
    (JsVal.obj [("a", JsVal.arr 1 [JsVal.obj [("x", JsVal.num 5)]])])
    [13, 0, 24, 0, 1, 0, 8, 0, 8, 0, 0, 0, 5] 1 [JsVal.obj [("x", JsVal.num 5)]]
    (by simp [WFk, keyPathOf])
    (by simp [writeTop, writeGroup, writeFields, writeField1, writeElems, getLength,
      getLengthFields, getLengthField, getLengthElems, normData, jsGet, jsLengthOpt,
      SIZES, iterElems, jsTruthy, patch16, Writeable.uint16, Writeable.checkedWrite,
      Writeable.seek, Writeable.byte, callW, toNum, mlook, mset, keyPathOf, lenOrThrow,
      writeBytesAt, bufSet, leBytes, List.replicate, List.set, List.find?,
      exBind_ok, exBind_err])
    (by simp [jsGet, jsTruthy, List.find?])
    (by decide)

set_option maxRecDepth 2000 in
/-- C1: the round trip fails on a record conforming to its schema.  For
a schema with one string field (offset meta placed the way the loader
emits it), the record whose string holds a single astral character (the
surrogate pair D83D DE00) is conforming, but the writer's for-of loop
iterates code points and emits only charCodeAt(0) of each, dropping the
low surrogate; the parser then returns a one-unit string, so the parsed
record differs from the written one even though the field is not a
float. -/
theorem write_parse_roundtrip_dropped_surrogate :
    writeTop [("s", FType.prim "offset"), ("s", FType.prim "string")] (some 24)
      (JsVal.obj [("s", JsVal.str [0xD83D, 0xDE00])]) =
      .ok [12, 0, 24, 0, 6, 0, 0x3D, 0xD8, 0, 0, 0, 0] ∧
    (∃ st, parseTop [("s", FType.prim "offset"), ("s", FType.prim "string")]
        [12, 0, 24, 0, 6, 0, 0x3D, 0xD8, 0, 0, 0, 0] =
      .ok (JsVal.obj [("s", JsVal.str [0xD83D])], st)) ∧
    JsVal.obj [("s", JsVal.str [0xD83D])] ≠
      JsVal.obj [("s", JsVal.str [0xD83D, 0xDE00])] := by
  have hOff : parseField1 12 "s" (FType.prim "offset") "" [] [] []
      ⟨[12, 0, 24, 0, 6, 0, 0x3D, 0xD8, 0, 0, 0, 0], 4, []⟩ =
      .ok ([], [], [(".s", 6)],
        ⟨[12, 0, 24, 0, 6, 0, 0x3D, 0xD8, 0, 0, 0, 0], 6, []⟩) := by
    simp [parseField1, parseKeyPath, Readable.uint16, leRead, bufGet, List.getD,
      List.get?, Option.getD, exBind_ok, exBind_err]
  have hStr : Readable.string ⟨[12, 0, 24, 0, 6, 0, 0x3D, 0xD8, 0, 0, 0, 0], 6, []⟩ =
      .ok ([0xD83D], ⟨[12, 0, 24, 0, 6, 0, 0x3D, 0xD8, 0, 0, 0, 0], 10, []⟩) := by
    simp [Readable.string, leRead, bufGet, List.getD, List.get?, Option.getD,
      exBind_ok, exBind_err]
  have hFstr : parseField1 12 "s" (FType.prim "string") "" [] [(".s", 6)] []
      ⟨[12, 0, 24, 0, 6, 0, 0x3D, 0xD8, 0, 0, 0, 0], 6, []⟩ =
      .ok ([("s", JsVal.str [0xD83D])], [], [(".s", 6)],
        ⟨[12, 0, 24, 0, 6, 0, 0x3D, 0xD8, 0, 0, 0, 0], 10, []⟩) := by
    simp [parseField1, parseKeyPath, vlook, objSet, callR, hStr, List.find?,
      exBind_ok, exBind_err]
  refine ⟨?_, ⟨⟨[12, 0, 24, 0, 6, 0, 0x3D, 0xD8, 0, 0, 0, 0], 10, []⟩, ?_⟩, by simp⟩
  · simp [writeTop, writeGroup, writeFields, writeField1, getLength, getLengthFields,
      getLengthField, normData, jsGet, jsLengthOpt, SIZES, jsTruthy, patch16,
      Writeable.uint16, Writeable.checkedWrite, Writeable.seek, Writeable.string,
      Writeable.writeUnits, jsStrIter, callW, mlook, mset, keyPathOf, lenOrThrow,
      writeBytesAt, bufSet, leBytes, List.replicate, List.set, List.find?,
      exBind_ok, exBind_err]
  · simp [parseTop, parseGroup, parseFields, hOff, hFstr, exBind_ok, exBind_err]

end Tera
